import Mathlib

/-!
# Verification of the Social-Network-Graph repository

Shallow embedding of `src/Main.cpp` (class `SocialNetwork`): an undirected
social graph stored as `map<string, set<string>> adj`, with mutation
operations `addUser` / `addFriendship` and query operations `getFriends`,
`getMutualFriends`, `suggestFriends`, `shortestPathBFS` and
`shortestPathDijkstra`.

`std::map<string, _>` is modelled as an association list whose keys are kept
in strictly increasing order, and `std::set<string>` as a strictly sorted
`List String`; this matches the ordered iteration of both containers.
`strLt` below is `std::string::operator<` — lexicographic byte order, which
for UTF-8 data coincides with code-point order on the character lists.
The two loops of the path algorithms are written with an explicit fuel
argument; the chosen fuel is proved sufficient below, so the fuel-exhaustion
branch is unreachable.
-/

namespace SocialNetwork

/-- Lexicographic order on character lists, by code point. -/
def strLtL : List Char → List Char → Bool
  | [], [] => false
  | [], _ :: _ => true
  | _ :: _, [] => false
  | c :: cs, d :: ds =>
    if c.toNat < d.toNat then true
    else if d.toNat < c.toNat then false
    else strLtL cs ds

/-- `std::string::operator<`: lexicographic byte order on UTF-8 strings,
which is exactly code-point order on the underlying character lists. -/
def strLt (a b : String) : Bool := strLtL a.data b.data

/-- `std::set<string>::insert`: insert into a sorted list, no effect when the
element is already present. -/
def insertSorted (x : String) : List String → List String
  | [] => [x]
  | y :: ys =>
    if strLt x y then x :: y :: ys
    else if strLt y x then y :: insertSorted x ys
    else y :: ys

/-- `std::map::find`: association-list lookup. -/
def alGet {α : Type} : List (String × α) → String → Option α
  | [], _ => none
  | (k, v) :: rest, u => if u == k then some v else alGet rest u

/-- `std::map` insert-or-assign (`m[k] = v`), keeping keys sorted. -/
def alPut {α : Type} (k : String) (v : α) : List (String × α) → List (String × α)
  | [] => [(k, v)]
  | (k', v') :: rest =>
    if strLt k k' then (k, v) :: (k', v') :: rest
    else if strLt k' k then (k', v') :: alPut k v rest
    else (k, v) :: rest

/-- The adjacency structure `map<string, set<string>> adj`. -/
abbrev Network := List (String × List String)

/-- The user labels present in the graph (the map's key set). -/
def keys (g : Network) : List String := g.map Prod.fst

/-- `adj.count(u) != 0` / `adj.find(u) != adj.end()`. -/
def contains (g : Network) (u : String) : Bool := (alGet g u).isSome

/-- A user's stored friend set (`adj.at(u)`, defaulting to the empty set for
labels without an entry; every dequeued label of the traversals has one). -/
def neighbors (g : Network) (u : String) : List String := (alGet g u).getD []

/-- `SocialNetwork::addUser`: insert an empty friend set when absent. -/
def addUser (g : Network) (u : String) : Network :=
  if (alGet g u).isSome then g else alPut u [] g

/-- Which branch `SocialNetwork::addFriendship` took: `added` for the update,
`unknownUser` for the "One or both users do not exist." diagnostic. -/
inductive FriendshipOutcome
  | added
  | unknownUser
deriving DecidableEq, Repr

/-- `SocialNetwork::addFriendship` with its branch made explicit:
`adj[user1].insert(user2); adj[user2].insert(user1)` when both exist,
otherwise the graph is untouched. The second insertion reads the state
already updated by the first one, exactly as the C++ does. -/
def addFriendshipR (g : Network) (a b : String) : FriendshipOutcome × Network :=
  if contains g a && contains g b then
    let g1 := alPut a (insertSorted b (neighbors g a)) g
    let g2 := alPut b (insertSorted a (neighbors g1 b)) g1
    (.added, g2)
  else
    (.unknownUser, g)

/-- The graph after `SocialNetwork::addFriendship`. -/
def addFriendship (g : Network) (a b : String) : Network := (addFriendshipR g a b).2

/-- `SocialNetwork::getFriends`: the friend set, or the empty set (plus a
"not found" diagnostic) for an unknown user. -/
def getFriends (g : Network) (u : String) : List String :=
  match alGet g u with
  | some s => s
  | none => []

/-- The inner advance of `std::set_intersection`, with the first range's head
fixed: drop smaller elements of the second range, hand control back to
`setIntersection` (through `rec`) once it advances the first range. -/
def interGo (a : String) (rec : List String → List String) :
    List String → List String
  | [] => []
  | b :: bs =>
    if strLt a b then rec (b :: bs)
    else if strLt b a then interGo a rec bs
    else a :: rec bs

/-- `std::set_intersection` on two sorted ranges (merge scheme). -/
def setIntersection : List String → List String → List String
  | [], _ => []
  | a :: as, bs => interGo a (setIntersection as) bs

/-- `SocialNetwork::getMutualFriends`: intersection of the two friend sets,
empty when either user is unknown. -/
def getMutualFriends (g : Network) (a b : String) : List String :=
  match alGet g a, alGet g b with
  | some fa, some fb => setIntersection fa fb
  | _, _ => []

/-- `suggestionCounts[c]++` on a `map<string, int>`: a missing key is
value-initialized to `0` and then incremented. -/
def bumpCount (c : String) : List (String × Int) → List (String × Int)
  | [] => [(c, 1)]
  | (k, n) :: rest =>
    if strLt c k then (c, 1) :: (k, n) :: rest
    else if strLt k c then (k, n) :: bumpCount c rest
    else (k, n + 1) :: rest

/-- The comparator passed to `std::sort` in `suggestFriends`: score
descending, then label ascending. -/
def sugLt (x y : String × Int) : Bool :=
  if x.2 ≠ y.2 then decide (y.2 < x.2) else strLt x.1 y.1

/-- Insert one pair into a list sorted by `sugLt`. -/
def insertSug (x : String × Int) : List (String × Int) → List (String × Int)
  | [] => [x]
  | y :: ys => if sugLt x y then x :: y :: ys else y :: insertSug x ys

/-- The `std::sort` call of `suggestFriends`. Its comparator is a strict
total order on the (distinct-keyed) entries, so every comparison sort
produces this same list. -/
def sortSuggestions (l : List (String × Int)) : List (String × Int) :=
  l.foldr insertSug []

/-- `SocialNetwork::suggestFriends`: count, for every eligible
friend-of-a-friend, the direct friends it is reachable through, then sort. -/
def suggestFriends (g : Network) (u : String) : List (String × Int) :=
  match alGet g u with
  | none => []
  | some directFriends =>
    let counts := directFriends.foldl (fun acc f =>
      match alGet g f with
      | none => acc
      | some fof =>
        fof.foldl (fun acc₂ c =>
          if c != u && !(directFriends.contains c) && contains g c then
            bumpCount c acc₂
          else acc₂) acc) []
    sortSuggestions counts

/-! ## Breadth-first search (`SocialNetwork::shortestPathBFS`) -/

/-- The initial BFS distance map: every known user at `-1` (unvisited). -/
def initDist (g : Network) : List (String × Int) :=
  g.map (fun p => (p.1, -1))

/-- The initial parent map: every known user mapped to `""`. -/
def initParent (g : Network) : List (String × String) :=
  g.map (fun p => (p.1, ""))

/-- Read `dist[u]`; `-1` for an absent key (all reads are on present keys). -/
def dget (dist : List (String × Int)) (u : String) : Int :=
  (alGet dist u).getD (-1)

/-- The inner neighbor loop of the BFS: discover unvisited neighbors of
`cur`, record distance and parent, enqueue them, and stop with the final
distance as soon as `e` is discovered. -/
def bfsRelax (e cur : String) :
    List String → List (String × Int) → List (String × String) → List String →
    List (String × Int) × List (String × String) × List String × Option Int
  | [], dist, parent, q => (dist, parent, q, none)
  | n :: ns, dist, parent, q =>
    if (alGet dist n).isSome && dget dist n == -1 then
      let dist' := alPut n (dget dist cur + 1) dist
      let parent' := alPut n cur parent
      let q' := q ++ [n]
      if n == e then (dist', parent', q', some (dget dist' n))
      else bfsRelax e cur ns dist' parent' q'
    else bfsRelax e cur ns dist parent q

/-- The BFS `while` loop: dequeue, expand neighbors, stop on discovery of
`e` or on queue exhaustion. The fuel argument only bounds the number of
iterations; `bfsFuel` is proved large enough below. -/
def bfsLoop (g : Network) (e : String) :
    Nat → List String → List (String × Int) → List (String × String) →
    List (String × Int) × List (String × String) × Option Int
  | 0, _, dist, parent => (dist, parent, none)
  | _ + 1, [], dist, parent => (dist, parent, none)
  | fuel + 1, cur :: qrest, dist, parent =>
    match bfsRelax e cur (neighbors g cur) dist parent qrest with
    | (dist', parent', _, some dd) => (dist', parent', some dd)
    | (dist', parent', q', none) => bfsLoop g e fuel q' dist' parent'

/-- Iteration bound for `bfsLoop`: each iteration pops one queue element and
each enqueue marks one unvisited user visited. -/
def bfsFuel (g : Network) : Nat := 2 * g.length + 2

/-- BFS path reconstruction: walk parent pointers from `e` back to the start
(whose parent is `""`), prepending along the way. -/
def buildPath (parent : List (String × String)) :
    Nat → String → List String → List String
  | 0, _, acc => acc
  | fuel + 1, cur, acc =>
    if cur == "" then acc
    else buildPath parent fuel ((alGet parent cur).getD "") (cur :: acc)

/-- `SocialNetwork::shortestPathBFS`: `(-1, [])` when either endpoint is
unknown or no path exists, `(0, [start])` for the self query, otherwise the
discovered distance and the reconstructed path. -/
def shortestPathBFS (g : Network) (s e : String) : Int × List String :=
  if (alGet g s).isNone then (-1, [])
  else if (alGet g e).isNone then (-1, [])
  else if s == e then (0, [s])
  else
    match bfsLoop g e (bfsFuel g) [s] (alPut s 0 (initDist g)) (initParent g) with
    | (_, parent₁, some dd) => (dd, buildPath parent₁ (parent₁.length + 1) e [])
    | (_, _, none) => (-1, [])

/-! ## Dijkstra (`SocialNetwork::shortestPathDijkstra`) -/

/-- `numeric_limits<int>::max()`. -/
def INF : Int := 2147483647

/-- The initial Dijkstra distance map: every known user at `INF`. -/
def initDistD (g : Network) : List (String × Int) :=
  g.map (fun p => (p.1, INF))

/-- Read `dist[u]`; `INF` for an absent key (all reads are on present keys). -/
def dgetI (dist : List (String × Int)) (u : String) : Int :=
  (alGet dist u).getD INF

/-- Comparison of priority-queue entries: lexicographic on
`(distance, label)`, as for `std::pair<int, string>`. -/
def pqLe (x y : Int × String) : Bool :=
  if x.1 < y.1 then true
  else if y.1 < x.1 then false
  else !strLt y.2 x.2

/-- Push into the priority queue, modelled as a `pqLe`-sorted list whose
head is the minimum entry — the observable pop order of
`priority_queue<pair<int,string>, vector<...>, greater<...>>`. -/
def pqPush (x : Int × String) : List (Int × String) → List (Int × String)
  | [] => [x]
  | y :: ys => if pqLe x y then x :: y :: ys else y :: pqPush x ys

/-- The relaxation loop over `adj.at(u)`: for each neighbor `v` with an
entry in `dist`, if `dist[u] != INF && dist[u] + 1 < dist[v]`, lower
`dist[v]`, record the parent and push `(dist[v], v)`. -/
def dijkstraRelax (u : String) :
    List String → List (String × Int) → List (String × String) →
    List (Int × String) →
    List (String × Int) × List (String × String) × List (Int × String)
  | [], dist, parent, pq => (dist, parent, pq)
  | v :: vs, dist, parent, pq =>
    if (alGet dist v).isSome then
      if dgetI dist u != INF && dgetI dist u + 1 < dgetI dist v then
        let dist' := alPut v (dgetI dist u + 1) dist
        let parent' := alPut v u parent
        let pq' := pqPush (dgetI dist' v, v) pq
        dijkstraRelax u vs dist' parent' pq'
      else dijkstraRelax u vs dist parent pq
    else dijkstraRelax u vs dist parent pq

/-- The Dijkstra `while` loop: pop the minimum entry, skip it when stale
(`d > dist[u]`), stop with `dist[u]` when `u` is the destination, otherwise
relax the neighbors. The fuel argument only bounds the number of
iterations; `dijkstraFuel` is proved large enough below. -/
def dijkstraLoop (g : Network) (e : String) :
    Nat → List (Int × String) → List (String × Int) → List (String × String) →
    List (String × Int) × List (String × String) × Option Int
  | 0, _, dist, parent => (dist, parent, none)
  | _ + 1, [], dist, parent => (dist, parent, none)
  | fuel + 1, (d, u) :: pqrest, dist, parent =>
    if d > dgetI dist u then dijkstraLoop g e fuel pqrest dist parent
    else if u == e then (dist, parent, some (dgetI dist u))
    else
      match dijkstraRelax u (neighbors g u) dist parent pqrest with
      | (dist', parent', pq') => dijkstraLoop g e fuel pq' dist' parent'

/-- Iteration bound for `dijkstraLoop`: each iteration pops one entry, and
every push strictly lowers one (nonnegative, `INF`-bounded) distance. -/
def dijkstraFuel (g : Network) : Nat := (g.length + 1) * INF.toNat + 2

/-- Dijkstra path reconstruction: walk parent pointers from `e`, stopping
defensively at a missing or empty parent entry. -/
def buildPathD (parent : List (String × String)) :
    Nat → String → List String → List String
  | 0, _, acc => acc
  | fuel + 1, cur, acc =>
    if cur == "" then acc
    else
      match alGet parent cur with
      | none => cur :: acc
      | some p =>
        if p == "" then cur :: acc else buildPathD parent fuel p (cur :: acc)

/-- `SocialNetwork::shortestPathDijkstra`: same shell as the BFS around the
priority-driven relaxation loop. -/
def shortestPathDijkstra (g : Network) (s e : String) : Int × List String :=
  if (alGet g s).isNone then (-1, [])
  else if (alGet g e).isNone then (-1, [])
  else if s == e then (0, [s])
  else
    match dijkstraLoop g e (dijkstraFuel g) [(0, s)] (alPut s 0 (initDistD g))
        (initParent g) with
    | (_, parent₁, some dd) => (dd, buildPathD parent₁ (parent₁.length + 1) e [])
    | (_, _, none) => (-1, [])

/-! ## Reachable graph states

The graph states of the program are exactly those produced from the empty
map by a sequence of `addUser` / `addFriendship` calls (the only mutating
operations). -/

/-- One mutating call. -/
inductive Op
  | user (u : String)
  | link (a b : String)

/-- Apply one mutating call. -/
def applyOp (g : Network) : Op → Network
  | .user u => addUser g u
  | .link a b => addFriendship g a b

/-- The state after a call sequence, starting from the empty graph. -/
def run (ops : List Op) : Network := ops.foldl applyOp []

/-- A graph state the program can actually be in. -/
def Reachable (g : Network) : Prop := ∃ ops : List Op, run ops = g

/-! ## Walks and graph distance -/

/-- A walk of `n` edges from `u` to `w` along stored neighbor links. -/
inductive Walk (g : Network) : String → String → Nat → Prop
  | nil (u : String) : Walk g u u 0
  | cons {u v w : String} {n : Nat} (h : v ∈ neighbors g u) (t : Walk g v w n) :
      Walk g u w (n + 1)

/-- `n` is the minimum number of edges on any path from `s` to `t`. -/
def ShortestWalkLen (g : Network) (s t : String) (n : Nat) : Prop :=
  Walk g s t n ∧ ∀ m, Walk g s t m → n ≤ m

/-! ## Validation on the demo network of `main` -/

/-- The call sequence of `main` (users, then friendships). -/
def demoOps : List Op :=
  [.user "Alice", .user "Bob", .user "Charlie", .user "David", .user "Eve",
   .user "Frank", .user "Grace", .user "Heidi",
   .link "Alice" "Bob", .link "Alice" "Charlie", .link "Bob" "David",
   .link "Charlie" "David", .link "Charlie" "Eve", .link "David" "Eve",
   .link "Eve" "Frank", .link "Frank" "Heidi"]

/-- The demo network. -/
def demoNet : Network := run demoOps

example : getFriends demoNet "Charlie" = ["Alice", "David", "Eve"] := by decide
example : getFriends demoNet "Grace" = [] := by decide
example : getMutualFriends demoNet "Alice" "David" = ["Bob", "Charlie"] := by decide
example : getMutualFriends demoNet "Bob" "Eve" = ["David"] := by decide
example : getMutualFriends demoNet "Alice" "Nobody" = [] := by decide
example : suggestFriends demoNet "Alice" = [("David", 2), ("Eve", 1)] := by decide
example : suggestFriends demoNet "Frank" = [("Charlie", 1), ("David", 1)] := by decide
example : shortestPathBFS demoNet "Alice" "Eve" = (2, ["Alice", "Charlie", "Eve"]) := by
  decide
example :
    shortestPathBFS demoNet "Bob" "Heidi" =
      (4, ["Bob", "David", "Eve", "Frank", "Heidi"]) := by decide
example : shortestPathBFS demoNet "Alice" "Grace" = (-1, []) := by decide
example : shortestPathBFS demoNet "Alice" "Nobody" = (-1, []) := by decide
example :
    shortestPathDijkstra demoNet "Alice" "Heidi" =
      (4, ["Alice", "Charlie", "Eve", "Frank", "Heidi"]) := by decide
example : shortestPathDijkstra demoNet "Grace" "Alice" = (-1, []) := by decide
example : shortestPathDijkstra demoNet "Bob" "Nobody" = (-1, []) := by decide

/-! ## The string order is a strict linear order -/

theorem strLtL_irrefl (l : List Char) : strLtL l l = false := by
  induction l with
  | nil => rfl
  | cons c cs ih => simp [strLtL, ih]

theorem strLtL_asymm {l₁ l₂ : List Char} (h : strLtL l₁ l₂ = true) :
    strLtL l₂ l₁ = false := by
  induction l₁ generalizing l₂ with
  | nil => cases l₂ <;> simp [strLtL]
  | cons c cs ih =>
    cases l₂ with
    | nil => simp [strLtL] at h
    | cons d ds =>
      simp only [strLtL] at h ⊢
      rcases Nat.lt_trichotomy c.toNat d.toNat with hlt | heq | hgt
      · simp [hlt, Nat.lt_asymm hlt, Nat.lt_irrefl]
      · simp [heq, Nat.lt_irrefl] at h ⊢
        exact ih h
      · simp [hgt, Nat.lt_asymm hgt] at h

theorem strLtL_trans {l₁ l₂ l₃ : List Char} (h₁ : strLtL l₁ l₂ = true)
    (h₂ : strLtL l₂ l₃ = true) : strLtL l₁ l₃ = true := by
  induction l₁ generalizing l₂ l₃ with
  | nil =>
    cases l₂ with
    | nil => simp [strLtL] at h₁
    | cons d ds => cases l₃ with
      | nil => simp [strLtL] at h₂
      | cons e es => simp [strLtL]
  | cons c cs ih =>
    cases l₂ with
    | nil => simp [strLtL] at h₁
    | cons d ds =>
      cases l₃ with
      | nil => simp [strLtL] at h₂
      | cons e es =>
        simp only [strLtL] at h₁ h₂ ⊢
        rcases Nat.lt_trichotomy c.toNat d.toNat with hcd | hcd | hcd
        · rcases Nat.lt_trichotomy d.toNat e.toNat with hde | hde | hde
          · simp [Nat.lt_trans hcd hde]
          · simp [hde ▸ hcd]
          · simp [hde, Nat.lt_asymm hde] at h₂
        · rcases Nat.lt_trichotomy d.toNat e.toNat with hde | hde | hde
          · simp [hcd ▸ hde]
          · simp [hcd, hde, Nat.lt_irrefl] at h₁ h₂ ⊢
            exact ih h₁ h₂
          · simp [hde, Nat.lt_asymm hde] at h₂
        · simp [hcd, Nat.lt_asymm hcd] at h₁

theorem strLtL_eq_of_not {l₁ l₂ : List Char} (h₁ : strLtL l₁ l₂ = false)
    (h₂ : strLtL l₂ l₁ = false) : l₁ = l₂ := by
  induction l₁ generalizing l₂ with
  | nil => cases l₂ with
    | nil => rfl
    | cons d ds => simp [strLtL] at h₁
  | cons c cs ih =>
    cases l₂ with
    | nil => simp [strLtL] at h₂
    | cons d ds =>
      simp only [strLtL] at h₁ h₂
      rcases Nat.lt_trichotomy c.toNat d.toNat with hcd | hcd | hcd
      · simp [hcd] at h₁
      · have hdc : ¬ d.toNat < c.toNat := by omega
        have : c = d := Char.ext (UInt32.ext hcd)
        subst this
        simp [Nat.lt_irrefl] at h₁ h₂
        exact congrArg (c :: ·) (ih h₁ h₂)
      · simp [hcd] at h₂

theorem strLt_irrefl (a : String) : strLt a a = false := strLtL_irrefl a.data

theorem strLt_asymm {a b : String} (h : strLt a b = true) : strLt b a = false :=
  strLtL_asymm h

theorem strLt_trans {a b c : String} (h₁ : strLt a b = true)
    (h₂ : strLt b c = true) : strLt a c = true := strLtL_trans h₁ h₂

theorem strLt_eq_of_not {a b : String} (h₁ : strLt a b = false)
    (h₂ : strLt b a = false) : a = b := by
  have hd : a.data = b.data := strLtL_eq_of_not h₁ h₂
  cases a; cases b; exact congrArg String.mk hd

theorem strLt_ne {a b : String} (h : strLt a b = true) : a ≠ b := by
  rintro rfl
  simp [strLt_irrefl] at h

/-- Exactly one of `a < b`, `a = b`, `b < a`. -/
theorem strLt_trichotomy (a b : String) :
    strLt a b = true ∨ a = b ∨ strLt b a = true := by
  cases h₁ : strLt a b
  · cases h₂ : strLt b a
    · exact Or.inr (Or.inl (strLt_eq_of_not h₁ h₂))
    · exact Or.inr (Or.inr rfl)
  · exact Or.inl rfl

/-! ## Sorted-list and association-list algebra -/

/-- Strict sortedness of a label list (`std::set` iteration order). -/
def SSorted (l : List String) : Prop :=
  l.Pairwise (fun a b => strLt a b = true)

/-- Strict key-sortedness of an association list (`std::map` iteration
order). -/
def KSorted {α : Type} (m : List (String × α)) : Prop :=
  (m.map Prod.fst).Pairwise (fun a b => strLt a b = true)

theorem mem_insertSorted {x y : String} {l : List String} :
    y ∈ insertSorted x l ↔ y = x ∨ y ∈ l := by
  induction l with
  | nil => simp [insertSorted]
  | cons z zs ih =>
    simp only [insertSorted]
    by_cases h₁ : strLt x z = true
    · simp [h₁, List.mem_cons]
    · rw [Bool.not_eq_true] at h₁
      by_cases h₂ : strLt z x = true
      · simp only [h₁, h₂, Bool.false_eq_true, if_false, if_true,
          List.mem_cons, ih]
        tauto
      · rw [Bool.not_eq_true] at h₂
        have : x = z := strLt_eq_of_not h₁ h₂
        subst this
        simp [strLt_irrefl, List.mem_cons]

theorem insertSorted_sorted {x : String} {l : List String} (h : SSorted l) :
    SSorted (insertSorted x l) := by
  induction l with
  | nil => simp [insertSorted, SSorted]
  | cons z zs ih =>
    rw [SSorted, List.pairwise_cons] at h
    obtain ⟨hz, hzs⟩ := h
    simp only [insertSorted]
    by_cases h₁ : strLt x z = true
    · rw [if_pos h₁]
      rw [SSorted, List.pairwise_cons]
      refine ⟨?_, List.Pairwise.cons hz hzs⟩
      intro y hy
      rcases List.mem_cons.mp hy with rfl | hy
      · exact h₁
      · exact strLt_trans h₁ (hz y hy)
    · rw [Bool.not_eq_true] at h₁
      rw [if_neg (by simp [h₁])]
      by_cases h₂ : strLt z x = true
      · rw [if_pos h₂]
        rw [SSorted, List.pairwise_cons]
        refine ⟨?_, ih hzs⟩
        intro y hy
        rcases mem_insertSorted.mp hy with rfl | hy
        · exact h₂
        · exact hz y hy
      · rw [Bool.not_eq_true] at h₂
        rw [if_neg (by simp [h₂])]
        exact List.Pairwise.cons hz hzs

theorem insertSorted_of_mem {x : String} {l : List String} (hs : SSorted l)
    (h : x ∈ l) : insertSorted x l = l := by
  induction l with
  | nil => cases h
  | cons z zs ih =>
    rw [SSorted, List.pairwise_cons] at hs
    obtain ⟨hz, hzs⟩ := hs
    rcases List.mem_cons.mp h with rfl | h
    · simp [insertSorted, strLt_irrefl]
    · have hzx : strLt z x = true := hz x h
      simp [insertSorted, strLt_asymm hzx, hzx, ih hzs h]

theorem alGet_isSome_iff {α : Type} {m : List (String × α)} {u : String} :
    (alGet m u).isSome = true ↔ u ∈ m.map Prod.fst := by
  induction m with
  | nil => simp [alGet]
  | cons p rest ih =>
    obtain ⟨k, v⟩ := p
    by_cases h : u = k
    · subst h
      simp [alGet]
    · simp [alGet, h, ih, beq_iff_eq]

theorem alGet_eq_none_iff {α : Type} {m : List (String × α)} {u : String} :
    alGet m u = none ↔ u ∉ m.map Prod.fst := by
  rw [← alGet_isSome_iff, ← Option.not_isSome_iff_eq_none]

theorem alGet_mem {α : Type} {m : List (String × α)} {u : String} {v : α}
    (h : alGet m u = some v) : (u, v) ∈ m := by
  induction m with
  | nil => simp [alGet] at h
  | cons p rest ih =>
    obtain ⟨k, w⟩ := p
    by_cases hk : u = k
    · subst hk
      simp [alGet] at h
      simp [h]
    · simp [alGet, hk, beq_iff_eq] at h
      exact List.mem_cons_of_mem _ (ih h)

theorem alGet_alPut_self {α : Type} {m : List (String × α)} (k : String)
    (v : α) : alGet (alPut k v m) k = some v := by
  induction m with
  | nil => simp [alPut, alGet]
  | cons p rest ih =>
    obtain ⟨k', v'⟩ := p
    simp only [alPut]
    by_cases h₁ : strLt k k' = true
    · simp [h₁, alGet]
    · rw [Bool.not_eq_true] at h₁
      by_cases h₂ : strLt k' k = true
      · have : k ≠ k' := fun h => by subst h; simp [strLt_irrefl] at h₂
        simp [h₁, h₂, alGet, this, beq_iff_eq, ih]
      · rw [Bool.not_eq_true] at h₂
        simp [h₁, h₂, alGet]

theorem alGet_alPut_ne {α : Type} {m : List (String × α)} {k u : String}
    (v : α) (h : u ≠ k) : alGet (alPut k v m) u = alGet m u := by
  induction m with
  | nil => simp [alPut, alGet, h, beq_iff_eq]
  | cons p rest ih =>
    obtain ⟨k', v'⟩ := p
    simp only [alPut]
    by_cases h₁ : strLt k k' = true
    · simp [h₁, alGet, h, beq_iff_eq]
    · rw [Bool.not_eq_true] at h₁
      by_cases h₂ : strLt k' k = true
      · by_cases hu : u = k'
        · subst hu
          simp [h₁, h₂, alGet]
        · simp [h₁, h₂, alGet, hu, beq_iff_eq, ih]
      · rw [Bool.not_eq_true] at h₂
        have : k = k' := strLt_eq_of_not h₁ h₂
        subst this
        simp [h₁, alGet, h, beq_iff_eq]

theorem map_fst_alPut {α : Type} (k : String) (v : α) (m : List (String × α)) :
    (alPut k v m).map Prod.fst = insertSorted k (m.map Prod.fst) := by
  induction m with
  | nil => simp [alPut, insertSorted]
  | cons p rest ih =>
    obtain ⟨k', v'⟩ := p
    simp only [alPut, insertSorted, List.map_cons]
    by_cases h₁ : strLt k k' = true
    · simp [h₁]
    · rw [Bool.not_eq_true] at h₁
      by_cases h₂ : strLt k' k = true
      · simp [h₁, h₂, ih]
      · rw [Bool.not_eq_true] at h₂
        simp only [h₁, h₂, Bool.false_eq_true, if_false, List.map_cons]
        rw [strLt_eq_of_not h₁ h₂]

theorem alPut_ksorted {α : Type} {m : List (String × α)} (k : String) (v : α)
    (h : KSorted m) : KSorted (alPut k v m) := by
  rw [KSorted, map_fst_alPut]
  exact insertSorted_sorted h

theorem map_fst_alPut_mem {α : Type} {m : List (String × α)} {k : String}
    (v : α) (hs : KSorted m) (h : k ∈ m.map Prod.fst) :
    (alPut k v m).map Prod.fst = m.map Prod.fst := by
  rw [map_fst_alPut]
  exact insertSorted_of_mem hs h

theorem length_alPut_mem {α : Type} {m : List (String × α)} {k : String}
    (v : α) (hs : KSorted m) (h : k ∈ m.map Prod.fst) :
    (alPut k v m).length = m.length := by
  have := congrArg List.length (map_fst_alPut_mem v hs h)
  simpa using this

/-! ## Structural invariants of reachable graph states -/

theorem contains_iff_mem_keys {g : Network} {u : String} :
    contains g u = true ↔ u ∈ keys g := alGet_isSome_iff

theorem neighbors_of_alGet_some {g : Network} {u : String} {s : List String}
    (h : alGet g u = some s) : neighbors g u = s := by
  simp [neighbors, h]

theorem neighbors_of_not_contains {g : Network} {u : String}
    (h : contains g u = false) : neighbors g u = [] := by
  rw [contains] at h
  have h' : alGet g u = none := by
    cases halt : alGet g u <;> simp [halt] at h ⊢
  simp [neighbors, h']

/-- Well-formedness of a graph state: sorted containers, neighbor sets over
existing users only, and the symmetry of the friendship relation. -/
structure GraphWF (g : Network) : Prop where
  ksorted : KSorted g
  nbrsSorted : ∀ p ∈ g, SSorted p.2
  closed : ∀ u v : String, v ∈ neighbors g u → contains g v = true
  symm : ∀ u v : String, v ∈ neighbors g u → u ∈ neighbors g v

theorem GraphWF.nbrs_sorted {g : Network} (wf : GraphWF g) (u : String) :
    SSorted (neighbors g u) := by
  cases h : alGet g u with
  | none => simp [neighbors, h, SSorted]
  | some s =>
    rw [neighbors_of_alGet_some h]
    exact wf.nbrsSorted (u, s) (alGet_mem h)

theorem graphWF_nil : GraphWF [] := by
  refine ⟨?_, ?_, ?_, ?_⟩ <;> simp [KSorted, neighbors, alGet]

/-! ### `addUser` -/

theorem addUser_present {g : Network} {u : String} (h : contains g u = true) :
    addUser g u = g := by
  rw [contains] at h
  rw [addUser, if_pos h]

theorem alGet_addUser_self {g : Network} (u : String) :
    (alGet (addUser g u) u).isSome = true := by
  rw [addUser]
  by_cases h : (alGet g u).isSome = true
  · simp [h]
  · simp [h, alGet_alPut_self]

theorem neighbors_addUser_ne {g : Network} {u w : String} (h : w ≠ u) :
    neighbors (addUser g u) w = neighbors g w := by
  rw [addUser]
  by_cases hu : (alGet g u).isSome = true
  · simp [hu]
  · simp [hu, neighbors, alGet_alPut_ne _ h]

theorem neighbors_addUser_self {g : Network} {u : String}
    (h : contains g u = false) : neighbors (addUser g u) u = [] := by
  rw [addUser, contains] at *
  simp [h, neighbors, alGet_alPut_self]

theorem keys_addUser_mem {g : Network} {u w : String} :
    w ∈ keys (addUser g u) ↔ w = u ∨ w ∈ keys g := by
  rw [addUser]
  by_cases hu : (alGet g u).isSome = true
  · have := alGet_isSome_iff.mp hu
    simp only [hu, if_true]
    constructor
    · exact Or.inr
    · rintro (rfl | h)
      · exact this
      · exact h
  · simp only [hu, Bool.false_eq_true, if_false]
    rw [keys, map_fst_alPut]
    exact mem_insertSorted

theorem mem_alPut {α : Type} {m : List (String × α)} {k : String} {v : α}
    {p : String × α} (h : p ∈ alPut k v m) : p = (k, v) ∨ p ∈ m := by
  induction m with
  | nil => simpa [alPut] using h
  | cons q rest ih =>
    obtain ⟨k', v'⟩ := q
    simp only [alPut] at h
    by_cases h₁ : strLt k k' = true
    · rw [if_pos h₁] at h
      rcases List.mem_cons.mp h with rfl | h
      · exact Or.inl rfl
      · exact Or.inr h
    · rw [Bool.not_eq_true] at h₁
      by_cases h₂ : strLt k' k = true
      · rw [if_neg (by simp [h₁]), if_pos h₂] at h
        rcases List.mem_cons.mp h with rfl | h
        · exact Or.inr (List.mem_cons_self _ _)
        · rcases ih h with h | h
          · exact Or.inl h
          · exact Or.inr (List.mem_cons_of_mem _ h)
      · rw [Bool.not_eq_true] at h₂
        rw [if_neg (by simp [h₁]), if_neg (by simp [h₂])] at h
        rcases List.mem_cons.mp h with rfl | h
        · exact Or.inl rfl
        · exact Or.inr (List.mem_cons_of_mem _ h)

theorem contains_addUser_mono {g : Network} {u w : String}
    (h : contains g w = true) : contains (addUser g u) w = true := by
  rw [contains_iff_mem_keys] at h ⊢
  exact keys_addUser_mem.mpr (Or.inr h)

theorem addUser_wf {g : Network} (wf : GraphWF g) (u : String) :
    GraphWF (addUser g u) := by
  by_cases hu : contains g u = true
  · rwa [addUser_present hu]
  · rw [Bool.not_eq_true] at hu
    have hnbrs : ∀ w, neighbors (addUser g u) w = neighbors g w ∨
        neighbors (addUser g u) w = [] := by
      intro w
      by_cases hw : w = u
      · subst hw
        exact Or.inr (neighbors_addUser_self hu)
      · exact Or.inl (neighbors_addUser_ne hw)
    refine ⟨?_, ?_, ?_, ?_⟩
    · rw [addUser]
      simp only [contains] at hu
      rw [if_neg (by simp [hu])]
      exact alPut_ksorted u [] wf.ksorted
    · intro p hp
      rw [addUser] at hp
      simp only [contains] at hu
      rw [if_neg (by simp [hu])] at hp
      rcases mem_alPut hp with rfl | hp
      · simp [SSorted]
      · exact wf.nbrsSorted p hp
    · intro w v hv
      rcases hnbrs w with h | h
      · rw [h] at hv
        exact contains_addUser_mono (wf.closed w v hv)
      · rw [h] at hv
        cases hv
    · intro w v hv
      rcases hnbrs w with h | h
      · rw [h] at hv
        have hwv := wf.symm w v hv
        have hvu : v ≠ u := by
          rintro rfl
          rw [wf.closed w v hv] at hu
          cases hu
        rwa [neighbors_addUser_ne hvu]
      · rw [h] at hv
        cases hv

/-! ### `addFriendship` -/

theorem addFriendshipR_unknown {g : Network} {a b : String}
    (h : ¬(contains g a = true ∧ contains g b = true)) :
    addFriendshipR g a b = (.unknownUser, g) := by
  rw [addFriendshipR, if_neg]
  simpa using h

theorem addFriendshipR_added {g : Network} {a b : String}
    (ha : contains g a = true) (hb : contains g b = true) :
    addFriendshipR g a b =
      (.added,
        alPut b
          (insertSorted a (neighbors (alPut a (insertSorted b (neighbors g a)) g) b))
          (alPut a (insertSorted b (neighbors g a)) g)) := by
  rw [addFriendshipR, if_pos (by simp [ha, hb])]

theorem addFriendship_eq {g : Network} {a b : String}
    (ha : contains g a = true) (hb : contains g b = true) :
    addFriendship g a b =
      alPut b
        (insertSorted a (neighbors (alPut a (insertSorted b (neighbors g a)) g) b))
        (alPut a (insertSorted b (neighbors g a)) g) := by
  rw [addFriendship, addFriendshipR_added ha hb]

theorem addFriendship_unknown {g : Network} {a b : String}
    (h : ¬(contains g a = true ∧ contains g b = true)) :
    addFriendship g a b = g := by
  rw [addFriendship, addFriendshipR_unknown h]

theorem neighbors_alPut_self {g : Network} (k : String) (s : List String) :
    neighbors (alPut k s g) k = s := by
  simp [neighbors, alGet_alPut_self]

theorem neighbors_alPut_ne {g : Network} {k w : String} (s : List String)
    (h : w ≠ k) : neighbors (alPut k s g) w = neighbors g w := by
  simp [neighbors, alGet_alPut_ne _ h]

/-- Neighbor sets after a successful `addFriendship`, all cases at once
(including the self-friendship call `addFriendship g a a`). -/
theorem mem_neighbors_addFriendship {g : Network} {a b : String}
    (ha : contains g a = true) (hb : contains g b = true) (w v : String) :
    v ∈ neighbors (addFriendship g a b) w ↔
      v ∈ neighbors g w ∨ (w = a ∧ v = b) ∨ (w = b ∧ v = a) := by
  rw [addFriendship_eq ha hb]
  by_cases hwb : w = b
  · subst hwb
    rw [neighbors_alPut_self, mem_insertSorted]
    by_cases hwa : w = a
    · subst hwa
      rw [neighbors_alPut_self, mem_insertSorted]
      tauto
    · rw [neighbors_alPut_ne _ hwa]
      tauto
  · rw [neighbors_alPut_ne _ hwb]
    by_cases hwa : w = a
    · subst hwa
      rw [neighbors_alPut_self, mem_insertSorted]
      tauto
    · rw [neighbors_alPut_ne _ hwa]
      tauto

theorem keys_addFriendship {g : Network} {a b : String} (wf : GraphWF g)
    (ha : contains g a = true) (hb : contains g b = true) :
    keys (addFriendship g a b) = keys g := by
  rw [addFriendship_eq ha hb]
  have hka : a ∈ (g.map Prod.fst) := contains_iff_mem_keys.mp ha
  have hkb : b ∈ (g.map Prod.fst) := contains_iff_mem_keys.mp hb
  have h₁ : (alPut a (insertSorted b (neighbors g a)) g).map Prod.fst =
      g.map Prod.fst := map_fst_alPut_mem _ wf.ksorted hka
  have hs₁ : KSorted (alPut a (insertSorted b (neighbors g a)) g) :=
    alPut_ksorted _ _ wf.ksorted
  have hkb₁ : b ∈ (alPut a (insertSorted b (neighbors g a)) g).map Prod.fst := by
    rw [h₁]; exact hkb
  rw [keys, map_fst_alPut_mem _ hs₁ hkb₁, h₁, keys]

theorem contains_addFriendship {g : Network} {a b : String} (wf : GraphWF g)
    (ha : contains g a = true) (hb : contains g b = true) (w : String) :
    contains (addFriendship g a b) w = contains g w := by
  cases h : contains g w
  · rw [Bool.eq_false_iff]
    intro hc
    rw [contains_iff_mem_keys, keys_addFriendship wf ha hb,
      ← contains_iff_mem_keys, h] at hc
    cases hc
  · rw [contains_iff_mem_keys, keys_addFriendship wf ha hb,
      ← contains_iff_mem_keys]
    exact h

theorem addFriendship_wf {g : Network} (wf : GraphWF g) (a b : String) :
    GraphWF (addFriendship g a b) := by
  by_cases hab : contains g a = true ∧ contains g b = true
  · obtain ⟨ha, hb⟩ := hab
    refine ⟨?_, ?_, ?_, ?_⟩
    · rw [addFriendship_eq ha hb]
      exact alPut_ksorted _ _ (alPut_ksorted _ _ wf.ksorted)
    · intro p hp
      rw [addFriendship_eq ha hb] at hp
      have hga : SSorted (neighbors g a) := wf.nbrs_sorted a
      have hg₁b :
          SSorted (neighbors (alPut a (insertSorted b (neighbors g a)) g) b) := by
        by_cases hba : b = a
        · subst hba
          rw [neighbors_alPut_self]
          exact insertSorted_sorted hga
        · rw [neighbors_alPut_ne _ hba]
          exact wf.nbrs_sorted b
      rcases mem_alPut hp with rfl | hp
      · exact insertSorted_sorted hg₁b
      · rcases mem_alPut hp with rfl | hp
        · exact insertSorted_sorted hga
        · exact wf.nbrsSorted p hp
    · intro w v hv
      rw [contains_addFriendship wf ha hb]
      rcases (mem_neighbors_addFriendship ha hb w v).mp hv with h | ⟨_, rfl⟩ | ⟨_, rfl⟩
      · exact wf.closed w v h
      · exact hb
      · exact ha
    · intro w v hv
      rw [mem_neighbors_addFriendship ha hb]
      rcases (mem_neighbors_addFriendship ha hb w v).mp hv with h | ⟨rfl, rfl⟩ | ⟨rfl, rfl⟩
      · exact Or.inl (wf.symm w v h)
      · tauto
      · tauto
  · rwa [addFriendship_unknown hab]

/-! ### Every reachable state is well-formed -/

theorem applyOp_wf {g : Network} (wf : GraphWF g) (op : Op) :
    GraphWF (applyOp g op) := by
  cases op with
  | user u => exact addUser_wf wf u
  | link a b => exact addFriendship_wf wf a b

theorem foldl_applyOp_wf (ops : List Op) :
    ∀ g : Network, GraphWF g → GraphWF (ops.foldl applyOp g) := by
  induction ops with
  | nil => exact fun g wf => wf
  | cons op rest ih => exact fun g wf => ih _ (applyOp_wf wf op)

theorem reachable_wf {g : Network} (h : Reachable g) : GraphWF g := by
  obtain ⟨ops, rfl⟩ := h
  exact foldl_applyOp_wf ops [] graphWF_nil

/-! ## Claim C9: `addUser` idempotence -/

/-- C9: `addUser` is idempotent: for every graph state and every label `u`,
calling `addUser u` twice yields the same graph as calling it once (hence
`getFriends u` is unchanged by the second call), and when `u` is already
present `addUser u` has no effect (and raises no error: there is no error
branch). -/
theorem claim_C9_addUser_idempotent (g : Network) (u : String) :
    addUser (addUser g u) u = addUser g u ∧
    getFriends (addUser (addUser g u) u) u = getFriends (addUser g u) u ∧
    (contains g u = true → addUser g u = g) := by
  have hidem : addUser (addUser g u) u = addUser g u :=
    addUser_present (alGet_addUser_self u)
  exact ⟨hidem, by rw [hidem], fun h => addUser_present h⟩

/-- Witness for C9 at a concrete state: `"a"` is present in `run [user "a"]`. -/
theorem claim_C9_witness :
    addUser (addUser (run [.user "a"]) "a") "a" = addUser (run [.user "a"]) "a" ∧
    getFriends (addUser (addUser (run [.user "a"]) "a") "a") "a" =
      getFriends (addUser (run [.user "a"]) "a") "a" ∧
    (contains (run [.user "a"]) "a" = true → addUser (run [.user "a"]) "a" =
      run [.user "a"]) :=
  claim_C9_addUser_idempotent (run [.user "a"]) "a"

/-! ## Claim C4: `addFriendship` error handling -/

/-- C4: when either endpoint is absent, `addFriendship` takes the
`unknownUser` branch and returns the graph completely unchanged (no partial
mutation); when both exist it adds each endpoint to the other's friend
set. -/
theorem claim_C4_addFriendship_error_handling (g : Network) (a b : String) :
    ((contains g a = false ∨ contains g b = false) →
      addFriendshipR g a b = (.unknownUser, g)) ∧
    (contains g a = true → contains g b = true →
      (addFriendshipR g a b).1 = .added ∧
      b ∈ neighbors (addFriendship g a b) a ∧
      a ∈ neighbors (addFriendship g a b) b) := by
  constructor
  · intro h
    apply addFriendshipR_unknown
    rintro ⟨ha, hb⟩
    rcases h with h | h
    · rw [ha] at h; cases h
    · rw [hb] at h; cases h
  · intro ha hb
    refine ⟨by rw [addFriendshipR_added ha hb], ?_, ?_⟩
    · exact (mem_neighbors_addFriendship ha hb a b).mpr (Or.inr (Or.inl ⟨rfl, rfl⟩))
    · exact (mem_neighbors_addFriendship ha hb b a).mpr (Or.inr (Or.inr ⟨rfl, rfl⟩))

/-- Witness for C4 at concrete states: a missing endpoint on
`run [user "a"]`, and a successful insertion on `run [user "a", user "b"]`. -/
theorem claim_C4_witness :
    addFriendshipR (run [.user "a"]) "a" "nobody" =
      (.unknownUser, run [.user "a"]) ∧
    ((addFriendshipR (run [.user "a", .user "b"]) "a" "b").1 = .added ∧
      "b" ∈ neighbors (addFriendship (run [.user "a", .user "b"]) "a" "b") "a" ∧
      "a" ∈ neighbors (addFriendship (run [.user "a", .user "b"]) "a" "b") "b") :=
  ⟨(claim_C4_addFriendship_error_handling (run [.user "a"]) "a" "nobody").1
      (Or.inr (by decide)),
    (claim_C4_addFriendship_error_handling (run [.user "a", .user "b"]) "a" "b").2
      (by decide) (by decide)⟩

/-! ## Claim C5: symmetry and closure invariants -/

/-- C5: in every reachable graph state the stored neighbor relation is
symmetric — `v ∈ neighbors u` iff `u ∈ neighbors v` — and every label that
appears in some user's neighbor set has its own top-level entry. -/
theorem claim_C5_invariants (g : Network) (hg : Reachable g) :
    (∀ u v : String, v ∈ neighbors g u ↔ u ∈ neighbors g v) ∧
    (∀ u v : String, v ∈ neighbors g u → v ∈ keys g) := by
  have wf := reachable_wf hg
  constructor
  · exact fun u v => ⟨fun h => wf.symm u v h, fun h => wf.symm v u h⟩
  · exact fun u v h => contains_iff_mem_keys.mp (wf.closed u v h)

/-- Witness for C5 at the demo network of `main`. -/
theorem claim_C5_witness :
    (∀ u v : String, v ∈ neighbors demoNet u ↔ u ∈ neighbors demoNet v) ∧
    (∀ u v : String, v ∈ neighbors demoNet u → v ∈ keys demoNet) :=
  claim_C5_invariants demoNet ⟨demoOps, rfl⟩

/-! ## Claim C6: self-loops

`addFriendship(a, a)` on an existing user `a` inserts `a` into its own
friend set, so reachable states can contain self-loops; the claim fails.
It becomes true for call sequences that never pass the same label twice. -/

/-- No call of the sequence is a self-friendship `addFriendship(a, a)`. -/
def selfLinkFree (ops : List Op) : Bool :=
  ops.all fun op =>
    match op with
    | .user _ => true
    | .link x y => !(x == y)

theorem addUser_noLoops {g : Network} (h : ∀ u : String, u ∉ neighbors g u)
    (v : String) : ∀ u : String, u ∉ neighbors (addUser g v) u := by
  intro u hu
  by_cases huv : u = v
  · subst huv
    by_cases hc : contains g u = true
    · rw [addUser_present hc] at hu
      exact h u hu
    · rw [Bool.not_eq_true] at hc
      rw [neighbors_addUser_self hc] at hu
      cases hu
  · rw [neighbors_addUser_ne huv] at hu
    exact h u hu

theorem addFriendship_noLoops {g : Network} {a b : String}
    (h : ∀ u : String, u ∉ neighbors g u) (hab : a ≠ b) :
    ∀ u : String, u ∉ neighbors (addFriendship g a b) u := by
  intro u hu
  by_cases hg : contains g a = true ∧ contains g b = true
  · obtain ⟨ha, hb⟩ := hg
    rcases (mem_neighbors_addFriendship ha hb u u).mp hu with h' | ⟨h₁, h₂⟩ | ⟨h₁, h₂⟩
    · exact h u h'
    · exact hab (h₁.symm.trans h₂)
    · exact hab (h₂.symm.trans h₁)
  · rw [addFriendship_unknown hg] at hu
    exact h u hu

theorem foldl_applyOp_noLoops (ops : List Op) :
    ∀ g : Network, selfLinkFree ops = true → (∀ u : String, u ∉ neighbors g u) →
      ∀ u : String, u ∉ neighbors (ops.foldl applyOp g) u := by
  induction ops with
  | nil => exact fun g _ h => h
  | cons op rest ih =>
    intro g hfree h
    rw [selfLinkFree, List.all_cons, Bool.and_eq_true] at hfree
    obtain ⟨hop, hrest⟩ := hfree
    refine ih (applyOp g op) hrest ?_
    cases op with
    | user v => exact addUser_noLoops h v
    | link x y =>
      simp only [bne_iff_ne, Bool.not_eq_eq_eq_not] at hop
      refine addFriendship_noLoops h ?_
      intro hxy
      subst hxy
      simp at hop

/-- C6 fails on the code: the state after
`addUser "a"; addFriendship "a" "a"` is reachable and stores `"a"` in its
own neighbor set. -/
theorem claim_C6_counterexample :
    ¬ (∀ g : Network, Reachable g → ∀ u : String, u ∉ neighbors g u) := by
  intro h
  exact h (run [.user "a", .link "a" "a"]) ⟨[.user "a", .link "a" "a"], rfl⟩ "a"
    (by decide)

/-- C6 amended: no state reachable by a sequence of `addUser` calls and
`addFriendship` calls with two distinct arguments contains a self-loop;
only the unguarded self-call `addFriendship(a, a)` can create one. -/
theorem claim_C6_no_self_loop_amended (ops : List Op)
    (h : selfLinkFree ops = true) :
    ∀ u : String, u ∉ neighbors (run ops) u := by
  refine foldl_applyOp_noLoops ops [] h ?_
  intro u hu
  simp [neighbors, alGet] at hu

/-- Witness for the amended C6 at the demo network (whose friendship calls
all have distinct endpoints). -/
theorem claim_C6_witness :
    selfLinkFree demoOps = true ∧ ∀ u : String, u ∉ neighbors (run demoOps) u :=
  ⟨by decide, claim_C6_no_self_loop_amended demoOps (by decide)⟩

/-! ## Claim C7: mutual friends

`getMutualFriends` really is the set intersection and is order-independent,
but on reachable states with a self-loop (created by `addFriendship(a, a)`)
it can contain one of its two arguments, so the claim as stated fails. -/

theorem ssorted_head_lt {x y : String} {xs : List String}
    (h : SSorted (x :: xs)) (hy : y ∈ xs) : strLt x y = true := by
  rw [SSorted, List.pairwise_cons] at h
  exact h.1 y hy

theorem SSorted.tail {x : String} {xs : List String} (h : SSorted (x :: xs)) :
    SSorted xs := by
  rw [SSorted, List.pairwise_cons] at h
  exact h.2

/-- Two strictly sorted lists with the same members are equal. -/
theorem ssorted_eq_of_mem_iff {l l' : List String} (h : SSorted l)
    (h' : SSorted l') (hm : ∀ x, x ∈ l ↔ x ∈ l') : l = l' := by
  induction l generalizing l' with
  | nil =>
    cases l' with
    | nil => rfl
    | cons y ys =>
      have := (hm y).mpr (List.mem_cons_self y ys)
      cases this
  | cons x xs ih =>
    cases l' with
    | nil =>
      have := (hm x).mp (List.mem_cons_self x xs)
      cases this
    | cons y ys =>
      have hxy : x = y := by
        have hx := (hm x).mp (List.mem_cons_self x xs)
        have hy := (hm y).mpr (List.mem_cons_self y ys)
        rcases List.mem_cons.mp hx with hx | hx
        · exact hx
        · rcases List.mem_cons.mp hy with hy | hy
          · exact hy.symm
          · have h₁ := ssorted_head_lt h' hx
            have h₂ := ssorted_head_lt h hy
            rw [strLt_asymm h₂] at h₁
            cases h₁
      subst hxy
      have htails : ∀ z, z ∈ xs ↔ z ∈ ys := by
        intro z
        constructor
        · intro hz
          have := (hm z).mp (List.mem_cons_of_mem x hz)
          rcases List.mem_cons.mp this with rfl | hz'
          · have := ssorted_head_lt h hz
            rw [strLt_irrefl] at this
            cases this
          · exact hz'
        · intro hz
          have := (hm z).mpr (List.mem_cons_of_mem x hz)
          rcases List.mem_cons.mp this with rfl | hz'
          · have := ssorted_head_lt h' hz
            rw [strLt_irrefl] at this
            cases this
          · exact hz'
      rw [ih h.tail h'.tail htails]

/-- The merge intersection only keeps elements of the first range. -/
theorem setIntersection_sublist :
    ∀ l₁ l₂ : List String, List.Sublist (setIntersection l₁ l₂) l₁ := by
  intro l₁
  induction l₁ with
  | nil => intro l₂; simp [setIntersection]
  | cons a as ih =>
    intro l₂
    induction l₂ with
    | nil => simp [setIntersection, interGo]
    | cons b bs ihb =>
      show List.Sublist (interGo a (setIntersection as) (b :: bs)) (a :: as)
      rw [interGo]
      by_cases h₁ : strLt a b = true
      · rw [if_pos h₁]
        exact (ih (b :: bs)).cons a
      · rw [Bool.not_eq_true] at h₁
        by_cases h₂ : strLt b a = true
        · rw [if_neg (by simp [h₁]), if_pos h₂]
          exact ihb
        · rw [Bool.not_eq_true] at h₂
          rw [if_neg (by simp [h₁]), if_neg (by simp [h₂])]
          exact (ih bs).cons₂ a

theorem setIntersection_sorted {l₁ : List String} (h : SSorted l₁)
    (l₂ : List String) : SSorted (setIntersection l₁ l₂) :=
  h.sublist (setIntersection_sublist l₁ l₂)

/-- On sorted ranges the merge intersection is the set intersection. -/
theorem mem_setIntersection {x : String} :
    ∀ {l₁ l₂ : List String}, SSorted l₁ → SSorted l₂ →
      (x ∈ setIntersection l₁ l₂ ↔ x ∈ l₁ ∧ x ∈ l₂) := by
  intro l₁
  induction l₁ with
  | nil => intro l₂ _ _; simp [setIntersection]
  | cons a as ih =>
    intro l₂ h₁ h₂
    induction l₂ with
    | nil => simp [setIntersection, interGo]
    | cons b bs ihb =>
      show x ∈ interGo a (setIntersection as) (b :: bs) ↔ _
      rw [interGo]
      by_cases hab : strLt a b = true
      · rw [if_pos hab, ih h₁.tail h₂]
        have hnab : a ∉ b :: bs := by
          intro ha
          rcases List.mem_cons.mp ha with rfl | ha
          · rw [strLt_irrefl] at hab
            cases hab
          · have := ssorted_head_lt h₂ ha
            rw [strLt_asymm this] at hab
            cases hab
        constructor
        · rintro ⟨hx, hx₂⟩
          exact ⟨List.mem_cons_of_mem a hx, hx₂⟩
        · rintro ⟨hx, hx₂⟩
          rcases List.mem_cons.mp hx with rfl | hx
          · exact absurd hx₂ hnab
          · exact ⟨hx, hx₂⟩
      · rw [Bool.not_eq_true] at hab
        by_cases hba : strLt b a = true
        · rw [if_neg (by simp [hab]), if_pos hba]
          have hnb : b ∉ a :: as := by
            intro hb
            rcases List.mem_cons.mp hb with rfl | hb
            · rw [strLt_irrefl] at hba
              cases hba
            · have := ssorted_head_lt h₁ hb
              rw [strLt_asymm this] at hba
              cases hba
          rw [show interGo a (setIntersection as) bs =
              setIntersection (a :: as) bs from rfl]
          rw [ihb h₂.tail]
          constructor
          · rintro ⟨hx, hx₂⟩
            exact ⟨hx, List.mem_cons_of_mem b hx₂⟩
          · rintro ⟨hx, hx₂⟩
            rcases List.mem_cons.mp hx₂ with rfl | hx₂
            · exact absurd hx hnb
            · exact ⟨hx, hx₂⟩
        · rw [Bool.not_eq_true] at hba
          have : a = b := strLt_eq_of_not hab hba
          subst this
          rw [if_neg (by simp [hab]), if_neg (by simp [hba]), List.mem_cons,
            ih h₁.tail h₂.tail]
          constructor
          · rintro (rfl | ⟨hx, hx₂⟩)
            · exact ⟨List.mem_cons_self _ _, List.mem_cons_self _ _⟩
            · exact ⟨List.mem_cons_of_mem _ hx, List.mem_cons_of_mem _ hx₂⟩
          · rintro ⟨hx, hx₂⟩
            rcases List.mem_cons.mp hx with hxa | hx
            · exact Or.inl hxa
            · rcases List.mem_cons.mp hx₂ with hxa | hx₂
              · rw [hxa] at hx
                have h' := ssorted_head_lt h₁ hx
                rw [strLt_irrefl] at h'
                cases h'
              · exact Or.inr ⟨hx, hx₂⟩

theorem getMutualFriends_eq {g : Network} {a b : String}
    (ha : contains g a = true) (hb : contains g b = true) :
    getMutualFriends g a b = setIntersection (neighbors g a) (neighbors g b) := by
  rw [contains, Option.isSome_iff_exists] at ha hb
  obtain ⟨fa, ha⟩ := ha
  obtain ⟨fb, hb⟩ := hb
  rw [getMutualFriends, ha, hb, neighbors_of_alGet_some ha,
    neighbors_of_alGet_some hb]

theorem mem_getMutualFriends {g : Network} {a b : String} (wf : GraphWF g)
    (ha : contains g a = true) (hb : contains g b = true) (x : String) :
    x ∈ getMutualFriends g a b ↔ x ∈ neighbors g a ∧ x ∈ neighbors g b := by
  rw [getMutualFriends_eq ha hb]
  exact mem_setIntersection (wf.nbrs_sorted a) (wf.nbrs_sorted b)

/-- C7 fails on the code: after `addFriendship "a" "a"` and
`addFriendship "a" "b"`, the user `"a"` is a mutual friend of `"a"` and
`"b"`. -/
theorem claim_C7_counterexample :
    ¬ (∀ g : Network, Reachable g → ∀ a b : String,
        contains g a = true → contains g b = true →
        (∀ x, x ∈ getMutualFriends g a b ↔
          x ∈ neighbors g a ∧ x ∈ neighbors g b) ∧
        getMutualFriends g a b = getMutualFriends g b a ∧
        a ∉ getMutualFriends g a b ∧ b ∉ getMutualFriends g a b) := by
  intro h
  have := (h (run [.user "a", .user "b", .link "a" "a", .link "a" "b"])
    ⟨[.user "a", .user "b", .link "a" "a", .link "a" "b"], rfl⟩ "a" "b"
    (by decide) (by decide)).2.2.1
  exact this (by decide)

/-- C7 amended: on every reachable state `getMutualFriends` is exactly the
set intersection of the two neighbor sets and is order-independent; the
exclusion of the two arguments themselves additionally holds whenever the
state has no self-loops (for example when no `addFriendship(a, a)` call was
made). -/
theorem claim_C7_mutual_friends_amended (g : Network) (hg : Reachable g)
    (a b : String) (ha : contains g a = true) (hb : contains g b = true) :
    (∀ x, x ∈ getMutualFriends g a b ↔
      x ∈ neighbors g a ∧ x ∈ neighbors g b) ∧
    getMutualFriends g a b = getMutualFriends g b a ∧
    ((∀ u : String, u ∉ neighbors g u) →
      a ∉ getMutualFriends g a b ∧ b ∉ getMutualFriends g a b) := by
  have wf := reachable_wf hg
  have hmem := mem_getMutualFriends wf ha hb
  refine ⟨hmem, ?_, ?_⟩
  · apply ssorted_eq_of_mem_iff
    · rw [getMutualFriends_eq ha hb]
      exact setIntersection_sorted (wf.nbrs_sorted a) _
    · rw [getMutualFriends_eq hb ha]
      exact setIntersection_sorted (wf.nbrs_sorted b) _
    · intro x
      rw [hmem x, mem_getMutualFriends wf hb ha x]
      tauto
  · intro hloops
    constructor
    · intro hmema
      exact hloops a ((hmem a).mp hmema).1
    · intro hmemb
      exact hloops b ((hmem b).mp hmemb).2

/-- Witness for the amended C7 at the demo network. -/
theorem claim_C7_witness :
    (∀ x, x ∈ getMutualFriends demoNet "Alice" "David" ↔
      x ∈ neighbors demoNet "Alice" ∧ x ∈ neighbors demoNet "David") ∧
    getMutualFriends demoNet "Alice" "David" =
      getMutualFriends demoNet "David" "Alice" ∧
    ((∀ u : String, u ∉ neighbors demoNet u) →
      "Alice" ∉ getMutualFriends demoNet "Alice" "David" ∧
      "David" ∉ getMutualFriends demoNet "Alice" "David") :=
  claim_C7_mutual_friends_amended demoNet ⟨demoOps, rfl⟩ "Alice" "David"
    (by decide) (by decide)

/-! ## Claim C3: friend suggestions — the comparator and the sort -/

/-- The suggestion order as a proposition: score descending, label
ascending. -/
def SugOrd (x y : String × Int) : Prop :=
  y.2 < x.2 ∨ (x.2 = y.2 ∧ strLt x.1 y.1 = true)

theorem sugLt_iff {x y : String × Int} :
    sugLt x y = true ↔ SugOrd x y := by
  rw [sugLt, SugOrd]
  by_cases h : x.2 = y.2
  · simp [h, lt_irrefl]
  · simp [h]

theorem sugLt_irrefl (x : String × Int) : sugLt x x = false := by
  rw [Bool.eq_false_iff]
  intro h
  rcases sugLt_iff.mp h with h | ⟨_, h⟩
  · exact lt_irrefl _ h
  · rw [strLt_irrefl] at h
    cases h

theorem sugLt_trans {x y z : String × Int} (h₁ : sugLt x y = true)
    (h₂ : sugLt y z = true) : sugLt x z = true := by
  rw [sugLt_iff] at h₁ h₂ ⊢
  rcases h₁ with h₁ | ⟨he₁, hs₁⟩
  · rcases h₂ with h₂ | ⟨he₂, hs₂⟩
    · exact Or.inl (h₂.trans h₁)
    · exact Or.inl (he₂ ▸ h₁)
  · rcases h₂ with h₂ | ⟨he₂, hs₂⟩
    · exact Or.inl (he₁ ▸ h₂)
    · exact Or.inr ⟨he₁.trans he₂, strLt_trans hs₁ hs₂⟩

theorem sugLt_asymm {x y : String × Int} (h : sugLt x y = true) :
    sugLt y x = false := by
  rw [Bool.eq_false_iff]
  intro h'
  have := sugLt_trans h h'
  rw [sugLt_irrefl] at this
  cases this

theorem sugLt_eq_of_not {x y : String × Int} (h₁ : sugLt x y = false)
    (h₂ : sugLt y x = false) : x = y := by
  rw [sugLt] at h₁ h₂
  by_cases h : x.2 = y.2
  · rw [if_neg (by simp [h])] at h₁
    rw [if_neg (by simp [h])] at h₂
    have : x.1 = y.1 := strLt_eq_of_not h₁ h₂
    exact Prod.ext this h
  · exfalso
    rw [if_pos h] at h₁
    rw [if_pos (by omega)] at h₂
    simp only [decide_eq_false_iff_not] at h₁ h₂
    omega

theorem insertSug_perm (x : String × Int) (l : List (String × Int)) :
    List.Perm (insertSug x l) (x :: l) := by
  induction l with
  | nil => exact List.Perm.refl _
  | cons y ys ih =>
    rw [insertSug]
    by_cases h : sugLt x y = true
    · rw [if_pos h]
    · rw [if_neg h]
      exact (ih.cons y).trans (List.Perm.swap x y ys)

theorem sortSuggestions_perm (l : List (String × Int)) :
    List.Perm (sortSuggestions l) l := by
  induction l with
  | nil => exact List.Perm.refl _
  | cons x xs ih =>
    rw [sortSuggestions, List.foldr_cons]
    exact (insertSug_perm x _).trans (ih.cons x)

theorem insertSug_pairwise {x : String × Int} {l : List (String × Int)}
    (h : l.Pairwise (fun a b => sugLt b a = false)) :
    (insertSug x l).Pairwise (fun a b => sugLt b a = false) := by
  induction l with
  | nil => simp [insertSug]
  | cons y ys ih =>
    rw [List.pairwise_cons] at h
    obtain ⟨hy, hys⟩ := h
    rw [insertSug]
    by_cases hxy : sugLt x y = true
    · rw [if_pos hxy, List.pairwise_cons]
      constructor
      · intro z hz
        rcases List.mem_cons.mp hz with rfl | hz
        · exact sugLt_asymm hxy
        · rw [Bool.eq_false_iff]
          intro hzx
          have := sugLt_trans hzx hxy
          rw [hy z hz] at this
          cases this
      · rw [List.pairwise_cons]
        exact ⟨hy, hys⟩
    · rw [if_neg hxy, List.pairwise_cons]
      constructor
      · intro z hz
        have hz' := (insertSug_perm x ys).mem_iff.mp hz
        rcases List.mem_cons.mp hz' with rfl | hz'
        · rw [Bool.not_eq_true] at hxy
          exact hxy
        · exact hy z hz'
      · exact ih hys

theorem sortSuggestions_pairwise (l : List (String × Int)) :
    (sortSuggestions l).Pairwise (fun a b => sugLt b a = false) := by
  induction l with
  | nil => simp [sortSuggestions]
  | cons x xs ih =>
    rw [sortSuggestions, List.foldr_cons]
    exact insertSug_pairwise ih

/-- With pairwise-distinct labels the nonstrict sortedness upgrades to the
strict "score descending, label ascending" order of the specification. -/
theorem sortSuggestions_sugOrd {l : List (String × Int)}
    (hne : l.Pairwise (fun a b => a.1 ≠ b.1)) :
    (sortSuggestions l).Pairwise SugOrd := by
  have hne' : (sortSuggestions l).Pairwise (fun a b => a.1 ≠ b.1) := by
    refine ((sortSuggestions_perm l).pairwise_iff ?_).mpr hne
    intro a b hab
    exact hab.symm
  have := (sortSuggestions_pairwise l).and hne'
  refine this.imp ?_
  rintro a b ⟨hfalse, hne⟩
  cases htrue : sugLt a b
  · exact absurd (congrArg Prod.fst (sugLt_eq_of_not htrue hfalse)) hne
  · exact sugLt_iff.mp htrue

/-! ## Claim C3: friend suggestions — the counting map -/

theorem alGet_bumpCount_ne {m : List (String × Int)} {c x : String}
    (h : x ≠ c) : alGet (bumpCount c m) x = alGet m x := by
  induction m with
  | nil => simp [bumpCount, alGet, h, beq_iff_eq]
  | cons p rest ih =>
    obtain ⟨k, n⟩ := p
    rw [bumpCount]
    by_cases h₁ : strLt c k = true
    · rw [if_pos h₁]
      simp [alGet, h, beq_iff_eq]
    · rw [Bool.not_eq_true] at h₁
      by_cases h₂ : strLt k c = true
      · rw [if_neg (by simp [h₁]), if_pos h₂]
        by_cases hx : x = k
        · subst hx
          simp [alGet]
        · simp [alGet, hx, beq_iff_eq, ih]
      · rw [Bool.not_eq_true] at h₂
        have : c = k := strLt_eq_of_not h₁ h₂
        subst this
        rw [if_neg (by simp [h₁]), if_neg (by simp [h₂])]
        simp [alGet, h, beq_iff_eq]

theorem alGet_bumpCount_self {m : List (String × Int)} (hs : KSorted m)
    (c : String) :
    alGet (bumpCount c m) c = some ((alGet m c).getD 0 + 1) := by
  induction m with
  | nil => simp [bumpCount, alGet]
  | cons p rest ih =>
    obtain ⟨k, n⟩ := p
    rw [KSorted, List.map_cons, List.pairwise_cons] at hs
    obtain ⟨hk, hrest⟩ := hs
    rw [bumpCount]
    by_cases h₁ : strLt c k = true
    · rw [if_pos h₁]
      have hck : c ≠ k := strLt_ne h₁
      have hcrest : alGet rest c = none := by
        rw [alGet_eq_none_iff]
        intro hmem
        have := hk c hmem
        rw [strLt_asymm this] at h₁
        cases h₁
      simp [alGet, hck, beq_iff_eq, hcrest]
    · rw [Bool.not_eq_true] at h₁
      by_cases h₂ : strLt k c = true
      · rw [if_neg (by simp [h₁]), if_pos h₂]
        have hck : c ≠ k := fun h => strLt_ne h₂ h.symm
        simp [alGet, hck, beq_iff_eq, ih hrest]
      · rw [Bool.not_eq_true] at h₂
        have : c = k := strLt_eq_of_not h₁ h₂
        subst this
        rw [if_neg (by simp [h₁]), if_neg (by simp [h₂])]
        simp [alGet]

theorem map_fst_bumpCount (c : String) (m : List (String × Int)) :
    (bumpCount c m).map Prod.fst = insertSorted c (m.map Prod.fst) := by
  induction m with
  | nil => simp [bumpCount, insertSorted]
  | cons p rest ih =>
    obtain ⟨k, n⟩ := p
    rw [bumpCount]
    simp only [List.map_cons, insertSorted]
    by_cases h₁ : strLt c k = true
    · simp [h₁]
    · rw [Bool.not_eq_true] at h₁
      by_cases h₂ : strLt k c = true
      · simp [h₁, h₂, ih]
      · rw [Bool.not_eq_true] at h₂
        simp only [h₁, h₂, Bool.false_eq_true, if_false, List.map_cons]

theorem bumpCount_ksorted {m : List (String × Int)} (hs : KSorted m)
    (c : String) : KSorted (bumpCount c m) := by
  rw [KSorted, map_fst_bumpCount]
  exact insertSorted_sorted hs

/-- Two association-list views of membership agree on sorted keys. -/
theorem mem_iff_alGet {α : Type} {m : List (String × α)} (hs : KSorted m)
    {k : String} {v : α} : (k, v) ∈ m ↔ alGet m k = some v := by
  constructor
  · intro h
    induction m with
    | nil => cases h
    | cons p rest ih =>
      obtain ⟨k', v'⟩ := p
      rw [KSorted, List.map_cons, List.pairwise_cons] at hs
      rcases List.mem_cons.mp h with heq | h
      · rw [Prod.mk.injEq] at heq
        obtain ⟨rfl, rfl⟩ := heq
        simp [alGet]
      · have hk : k ∈ rest.map Prod.fst :=
          List.mem_map.mpr ⟨(k, v), h, rfl⟩
        have hne : k ≠ k' := fun he => strLt_ne (hs.1 k hk) he.symm
        simp only [alGet, beq_iff_eq, hne, if_false]
        exact ih hs.2 h
  · exact alGet_mem

theorem SSorted.nodup {l : List String} (h : SSorted l) : l.Nodup :=
  h.imp strLt_ne

/-- The eligibility test of `suggestFriends`:
`potentialFriend != userName && directFriends.find(potentialFriend) ==
directFriends.end() && adj.count(potentialFriend)`. -/
def eligB (g : Network) (u : String) (direct : List String) (c : String) : Bool :=
  c != u && !(direct.contains c) && contains g c

theorem eligB_iff {g : Network} {u : String} {direct : List String}
    {c : String} :
    eligB g u direct c = true ↔ c ≠ u ∧ c ∉ direct ∧ contains g c = true := by
  rw [eligB]
  simp [and_assoc]

/-- The inner per-candidate step of `suggestFriends`. -/
def fofStep (g : Network) (u : String) (direct : List String)
    (acc : List (String × Int)) (c : String) : List (String × Int) :=
  if c != u && !(direct.contains c) && contains g c then bumpCount c acc
  else acc

/-- One outer-loop iteration of `suggestFriends`: fold the friend set of one
direct friend. -/
def fofAccum (g : Network) (u : String) (direct : List String)
    (acc : List (String × Int)) (f : String) : List (String × Int) :=
  match alGet g f with
  | none => acc
  | some fof => fof.foldl (fofStep g u direct) acc

theorem suggestFriends_eq {g : Network} {u : String} {direct : List String}
    (h : alGet g u = some direct) :
    suggestFriends g u =
      sortSuggestions (direct.foldl (fofAccum g u direct) []) := by
  rw [suggestFriends, h]
  rfl

theorem fofStep_eq (g : Network) (u : String) (direct : List String)
    (acc : List (String × Int)) (c : String) :
    fofStep g u direct acc c =
      if eligB g u direct c = true then bumpCount c acc else acc := rfl

/-- Number of direct friends of the processed prefix through which `c` is
reachable as a friend of a friend. -/
def pscore (g : Network) (c : String) (fs : List String) : Nat :=
  fs.countP (fun f => decide (c ∈ neighbors g f))

/-- The final score of the specification: the number of distinct direct
friends of `u` whose friend set contains `c`. -/
def fofScore (g : Network) (u c : String) : Int :=
  (pscore g c (neighbors g u) : Nat)

/-- Effect of one inner friends-of-friends loop on the counting map. -/
theorem inner_fold_spec (g : Network) (u : String) (direct : List String)
    (fof : List String) (hnd : fof.Nodup) :
    ∀ acc : List (String × Int), KSorted acc →
      KSorted (fof.foldl (fofStep g u direct) acc) ∧
      (∀ x, eligB g u direct x = true →
        (alGet (fof.foldl (fofStep g u direct) acc) x).getD 0 =
          (alGet acc x).getD 0 + (if x ∈ fof then 1 else 0)) ∧
      (∀ x, eligB g u direct x = false →
        alGet (fof.foldl (fofStep g u direct) acc) x = alGet acc x) ∧
      (∀ x, (alGet (fof.foldl (fofStep g u direct) acc) x).isSome = true ↔
        (alGet acc x).isSome = true ∨
          (eligB g u direct x = true ∧ x ∈ fof)) := by
  induction fof with
  | nil =>
    intro acc hks
    refine ⟨hks, ?_, ?_, ?_⟩ <;> simp
  | cons c cs ih =>
    intro acc hks
    rw [List.nodup_cons] at hnd
    obtain ⟨hc, hcs⟩ := hnd
    rw [List.foldl_cons]
    have hstep : KSorted (fofStep g u direct acc c) := by
      rw [fofStep_eq]
      by_cases h : eligB g u direct c = true
      · rw [if_pos h]
        exact bumpCount_ksorted hks c
      · rw [if_neg h]
        exact hks
    obtain ⟨ihks, ihval, ihnone, ihsome⟩ := ih hcs (fofStep g u direct acc c) hstep
    have hstep_val : ∀ x, eligB g u direct x = true →
        (alGet (fofStep g u direct acc c) x).getD 0 =
          (alGet acc x).getD 0 + (if x = c then 1 else 0) := by
      intro x hx
      rw [fofStep_eq]
      by_cases hxc : x = c
      · subst hxc
        rw [if_pos hx, alGet_bumpCount_self hks, if_pos rfl]
        simp
      · rw [if_neg hxc, add_zero]
        by_cases hec : eligB g u direct c = true
        · rw [if_pos hec, alGet_bumpCount_ne hxc]
        · rw [if_neg hec]
    have hstep_none : ∀ x, eligB g u direct x = false →
        alGet (fofStep g u direct acc c) x = alGet acc x := by
      intro x hx
      rw [fofStep_eq]
      by_cases hec : eligB g u direct c = true
      · have hxc : x ≠ c := fun h => by rw [h, hec] at hx; cases hx
        rw [if_pos hec, alGet_bumpCount_ne hxc]
      · rw [if_neg hec]
    have hstep_some : ∀ x, (alGet (fofStep g u direct acc c) x).isSome = true ↔
        (alGet acc x).isSome = true ∨ (eligB g u direct x = true ∧ x = c) := by
      intro x
      rw [fofStep_eq]
      by_cases hxc : x = c
      · subst hxc
        by_cases hec : eligB g u direct x = true
        · rw [if_pos hec, alGet_bumpCount_self hks]
          simp [hec]
        · rw [if_neg hec]
          simp [hec]
      · by_cases hec : eligB g u direct c = true
        · rw [if_pos hec, alGet_bumpCount_ne hxc]
          simp [hxc]
        · rw [if_neg hec]
          simp [hxc]
    refine ⟨ihks, ?_, ?_, ?_⟩
    · intro x hx
      rw [ihval x hx, hstep_val x hx]
      by_cases hxc : x = c
      · subst hxc
        rw [if_neg hc, if_pos (List.mem_cons_self _ _), if_pos rfl]
        simp
      · rw [if_neg hxc, add_zero]
        have hmc : (x ∈ c :: cs) ↔ x ∈ cs := by simp [List.mem_cons, hxc]
        by_cases hxcs : x ∈ cs
        · rw [if_pos hxcs, if_pos (hmc.mpr hxcs)]
        · rw [if_neg hxcs, if_neg (fun h => hxcs (hmc.mp h))]
    · intro x hx
      rw [ihnone x hx, hstep_none x hx]
    · intro x
      rw [ihsome x, hstep_some x, List.mem_cons]
      tauto

/-- Effect of the whole outer loop of `suggestFriends` on the counting
map. -/
theorem outer_fold_spec (g : Network) (wf : GraphWF g) (u : String)
    (direct : List String) :
    ∀ (fs : List String) (acc : List (String × Int)), KSorted acc →
      KSorted (fs.foldl (fofAccum g u direct) acc) ∧
      (∀ x, eligB g u direct x = true →
        (alGet (fs.foldl (fofAccum g u direct) acc) x).getD 0 =
          (alGet acc x).getD 0 + (pscore g x fs : Nat)) ∧
      (∀ x, eligB g u direct x = false →
        alGet (fs.foldl (fofAccum g u direct) acc) x = alGet acc x) ∧
      (∀ x, (alGet (fs.foldl (fofAccum g u direct) acc) x).isSome = true ↔
        (alGet acc x).isSome = true ∨
          (eligB g u direct x = true ∧ 0 < pscore g x fs)) := by
  intro fs
  induction fs with
  | nil =>
    intro acc hks
    refine ⟨hks, ?_, ?_, ?_⟩ <;> simp [pscore]
  | cons f fs' ih =>
    intro acc hks
    rw [List.foldl_cons]
    have hpscore : ∀ x, pscore g x (f :: fs') =
        (if x ∈ neighbors g f then 1 else 0) + pscore g x fs' := by
      intro x
      rw [pscore, List.countP_cons, pscore]
      by_cases hx : x ∈ neighbors g f
      · simp [hx, Nat.add_comm]
      · simp [hx]
    cases hgf : alGet g f with
    | none =>
      have hacc : fofAccum g u direct acc f = acc := by
        rw [fofAccum, hgf]
      rw [hacc]
      obtain ⟨ihks, ihval, ihnone, ihsome⟩ := ih acc hks
      have hnof : ∀ x, x ∉ neighbors g f := by
        intro x
        rw [neighbors, hgf]
        simp
      refine ⟨ihks, ?_, ihnone, ?_⟩
      · intro x hx
        rw [ihval x hx, hpscore x, if_neg (hnof x), Nat.zero_add]
      · intro x
        rw [ihsome x, hpscore x, if_neg (hnof x), Nat.zero_add]
    | some fof =>
      have hacc : fofAccum g u direct acc f =
          fof.foldl (fofStep g u direct) acc := by
        rw [fofAccum, hgf]
      rw [hacc]
      have hfof : neighbors g f = fof := neighbors_of_alGet_some hgf
      have hnd : fof.Nodup := by
        have := wf.nbrsSorted (f, fof) (alGet_mem hgf)
        exact SSorted.nodup this
      obtain ⟨sks, sval, snone, ssome⟩ :=
        inner_fold_spec g u direct fof hnd acc hks
      obtain ⟨ihks, ihval, ihnone, ihsome⟩ :=
        ih (fof.foldl (fofStep g u direct) acc) sks
      refine ⟨ihks, ?_, ?_, ?_⟩
      · intro x hx
        rw [ihval x hx, sval x hx, hpscore x, hfof]
        by_cases hxf : x ∈ fof
        · rw [if_pos hxf, if_pos hxf]
          push_cast
          ring
        · rw [if_neg hxf, if_neg hxf]
          push_cast
          ring
      · intro x hx
        rw [ihnone x hx, snone x hx]
      · intro x
        rw [ihsome x, ssome x, hpscore x, hfof]
        by_cases hxf : x ∈ fof
        · simp only [hxf, if_true, and_true]
          constructor
          · rintro ((h | h) | h)
            · exact Or.inl h
            · exact Or.inr ⟨h, by omega⟩
            · exact Or.inr ⟨h.1, by have := h.2; omega⟩
          · rintro (h | ⟨he, _⟩)
            · exact Or.inl (Or.inl h)
            · exact Or.inl (Or.inr he)
        · simp only [hxf, if_false, Nat.zero_add, and_false, false_or]
          tauto

/-- C3: for a user present in a reachable graph state, `suggestFriends`
returns exactly the pairs `(c, s)` with `c` an existing user distinct from
and not a direct friend of the queried one, `s` the number of distinct
direct friends through which `c` is reachable, and `s` positive; the result
is ordered by score descending with ties broken by label ascending. -/
theorem claim_C3_suggestFriends (g : Network) (hg : Reachable g) (u : String)
    (hu : contains g u = true) :
    (∀ (c : String) (s : Int), (c, s) ∈ suggestFriends g u ↔
      (c ∈ keys g ∧ c ≠ u ∧ c ∉ neighbors g u ∧ s = fofScore g u c ∧ 0 < s)) ∧
    (suggestFriends g u).Pairwise SugOrd := by
  have wf := reachable_wf hg
  have hu' := hu
  rw [contains, Option.isSome_iff_exists] at hu'
  obtain ⟨direct, hdirect⟩ := hu'
  have hnbrs : neighbors g u = direct := neighbors_of_alGet_some hdirect
  rw [suggestFriends_eq hdirect]
  obtain ⟨cks, cval, -, csome⟩ :=
    outer_fold_spec g wf u direct direct [] (by simp [KSorted])
  set counts := direct.foldl (fofAccum g u direct) [] with hcounts
  have hcmem : ∀ (c : String) (s : Int), (c, s) ∈ counts ↔
      (c ∈ keys g ∧ c ≠ u ∧ c ∉ neighbors g u ∧ s = fofScore g u c ∧ 0 < s) := by
    intro c s
    rw [mem_iff_alGet cks]
    constructor
    · intro h
      have hsome : (alGet counts c).isSome = true := by
        rw [h]; rfl
      rw [csome c] at hsome
      rcases hsome with hsome | ⟨helig, hpos⟩
      · simp [alGet] at hsome
      · obtain ⟨hneu, hnd, hcont⟩ := eligB_iff.mp helig
        have hval := cval c helig
        rw [h] at hval
        simp only [Option.getD_some, alGet, Option.getD_none, zero_add] at hval
        refine ⟨contains_iff_mem_keys.mp hcont, hneu, hnbrs ▸ hnd, ?_, ?_⟩
        · rw [hval, fofScore, hnbrs]
        · rw [hval]
          exact_mod_cast hpos
    · rintro ⟨hck, hneu, hnd, hs, hpos⟩
      have helig : eligB g u direct c = true :=
        eligB_iff.mpr ⟨hneu, hnbrs ▸ hnd, contains_iff_mem_keys.mpr hck⟩
      have hpos' : 0 < pscore g c direct := by
        rw [hs, fofScore, hnbrs] at hpos
        exact_mod_cast hpos
      have hsome : (alGet counts c).isSome = true :=
        (csome c).mpr (Or.inr ⟨helig, hpos'⟩)
      rw [Option.isSome_iff_exists] at hsome
      obtain ⟨k, hk⟩ := hsome
      have hval := cval c helig
      rw [hk] at hval
      simp only [Option.getD_some, alGet, Option.getD_none, zero_add] at hval
      rw [hk, hval, hs, fofScore, hnbrs]
  constructor
  · intro c s
    rw [(sortSuggestions_perm counts).mem_iff]
    exact hcmem c s
  · apply sortSuggestions_sugOrd
    have : counts.Pairwise (fun p q => strLt p.1 q.1 = true) := by
      rw [KSorted, List.pairwise_map] at cks
      exact cks
    exact this.imp fun h => strLt_ne h

/-- Witness for C3 at the demo network, querying `"Alice"`. -/
theorem claim_C3_witness :
    (∀ (c : String) (s : Int), (c, s) ∈ suggestFriends demoNet "Alice" ↔
      (c ∈ keys demoNet ∧ c ≠ "Alice" ∧ c ∉ neighbors demoNet "Alice" ∧
        s = fofScore demoNet "Alice" c ∧ 0 < s)) ∧
    (suggestFriends demoNet "Alice").Pairwise SugOrd :=
  claim_C3_suggestFriends demoNet ⟨demoOps, rfl⟩ "Alice" (by decide)

/-! ## Claim C10: queries leave the graph unchanged

The five query methods of `Main.cpp` are declared without `const`, so each
call could in principle mutate the receiver's `adj` map. Their bodies apply
only const operations (`find`, `at`, `count`) to `adj` — `operator[]` is
used exclusively on the call-local maps `dist`, `parent` and
`suggestionCounts` — so the embedded calls below, which pair the adjacency
map a method leaves behind with its result, return the receiver state
untouched. -/

/-- A `getFriends` call on the object: state left behind plus result. -/
def getFriendsCall (g : Network) (u : String) : Network × List String :=
  (g, getFriends g u)

/-- A `getMutualFriends` call on the object. -/
def getMutualFriendsCall (g : Network) (a b : String) :
    Network × List String :=
  (g, getMutualFriends g a b)

/-- A `suggestFriends` call on the object. -/
def suggestFriendsCall (g : Network) (u : String) :
    Network × List (String × Int) :=
  (g, suggestFriends g u)

/-- A `shortestPathBFS` call on the object. -/
def shortestPathBFSCall (g : Network) (s e : String) :
    Network × (Int × List String) :=
  (g, shortestPathBFS g s e)

/-- A `shortestPathDijkstra` call on the object. -/
def shortestPathDijkstraCall (g : Network) (s e : String) :
    Network × (Int × List String) :=
  (g, shortestPathDijkstra g s e)

/-- C10: every query call — on any graph state and any string arguments,
existing or not — leaves the adjacency structure exactly as it was before
the call. -/
theorem claim_C10_queries_pure (g : Network) (u a b s e : String) :
    (getFriendsCall g u).1 = g ∧
    (getMutualFriendsCall g a b).1 = g ∧
    (suggestFriendsCall g u).1 = g ∧
    (shortestPathBFSCall g s e).1 = g ∧
    (shortestPathDijkstraCall g s e).1 = g :=
  ⟨rfl, rfl, rfl, rfl, rfl⟩

/-! ## Walk algebra -/

theorem Walk.append {g : Network} {u v w : String} {m n : Nat}
    (h₁ : Walk g u v m) (h₂ : Walk g v w n) : Walk g u w (m + n) := by
  induction h₁ with
  | nil => simpa using h₂
  | @cons u' v' w' n' h t ih =>
    have h₃ := Walk.cons h (ih h₂)
    have heq : n' + n + 1 = n' + 1 + n := by omega
    rwa [heq] at h₃

theorem walk_snoc {g : Network} {u v w : String} {n : Nat}
    (t : Walk g u v n) (h : w ∈ neighbors g v) : Walk g u w (n + 1) :=
  t.append (Walk.cons h (Walk.nil w))

theorem shortest_unique {g : Network} {s t : String} {n m : Nat}
    (h₁ : ShortestWalkLen g s t n) (h₂ : ShortestWalkLen g s t m) : n = m :=
  le_antisymm (h₁.2 m h₂.1) (h₂.2 n h₁.1)

theorem shortest_exists {g : Network} {s t : String}
    (h : ∃ n, Walk g s t n) : ∃ n, ShortestWalkLen g s t n := by
  have hne : {n | Walk g s t n}.Nonempty := h
  exact ⟨sInf {n | Walk g s t n}, Nat.sInf_mem hne, fun m hm => Nat.sInf_le hm⟩

theorem shortest_self (g : Network) (s : String) : ShortestWalkLen g s s 0 :=
  ⟨Walk.nil s, fun m _ => Nat.zero_le m⟩

/-- Edge relaxation for shortest distances: one stored edge can stretch the
distance by at most one. -/
theorem shortest_step {g : Network} {s u v : String} {n : Nat}
    (hu : ShortestWalkLen g s u n) (h : v ∈ neighbors g u) {m : Nat}
    (hv : ShortestWalkLen g s v m) : m ≤ n + 1 :=
  hv.2 (n + 1) (walk_snoc hu.1 h)

/-! ## Value maps of the traversals -/

theorem alGet_map_value {α β : Type} (f : α → β) (m : List (String × α))
    (u : String) :
    alGet (m.map (fun p => (p.1, f p.2))) u = (alGet m u).map f := by
  induction m with
  | nil => simp [alGet]
  | cons p rest ih =>
    obtain ⟨k, v⟩ := p
    by_cases h : u = k
    · subst h
      simp [alGet]
    · simp [alGet, h, beq_iff_eq, ih]

theorem map_fst_map_value {α β : Type} (f : α → β) (m : List (String × α)) :
    (m.map (fun p => (p.1, f p.2))).map Prod.fst = m.map Prod.fst := by
  rw [List.map_map]
  rfl

theorem alGet_initDist (g : Network) (u : String) :
    alGet (initDist g) u = (alGet g u).map (fun _ => (-1 : Int)) :=
  @alGet_map_value (List String) Int (fun _ => (-1 : Int)) g u

theorem alGet_initDistD (g : Network) (u : String) :
    alGet (initDistD g) u = (alGet g u).map (fun _ => INF) :=
  @alGet_map_value (List String) Int (fun _ => INF) g u

theorem map_fst_initDist (g : Network) :
    (initDist g).map Prod.fst = keys g :=
  @map_fst_map_value (List String) Int (fun _ => (-1 : Int)) g

theorem map_fst_initDistD (g : Network) :
    (initDistD g).map Prod.fst = keys g :=
  @map_fst_map_value (List String) Int (fun _ => INF) g

/-- Number of unvisited entries of a BFS distance map. -/
def unvis (dist : List (String × Int)) : Nat :=
  dist.countP (fun p => p.2 == -1)

theorem unvis_le_length (dist : List (String × Int)) :
    unvis dist ≤ dist.length :=
  List.countP_le_length _

theorem unvis_alPut {dist : List (String × Int)} (hks : KSorted dist)
    {n : String} (hn : alGet dist n = some (-1)) {v : Int} (hv : v ≠ -1) :
    unvis (alPut n v dist) + 1 = unvis dist := by
  induction dist with
  | nil => simp [alGet] at hn
  | cons p rest ih =>
    obtain ⟨k, val⟩ := p
    rw [KSorted, List.map_cons, List.pairwise_cons] at hks
    obtain ⟨hk, hrest⟩ := hks
    rw [alPut]
    by_cases h₁ : strLt n k = true
    · exfalso
      have hnk : n ≠ k := strLt_ne h₁
      rw [alGet, if_neg (by simp [hnk])] at hn
      have : n ∈ rest.map Prod.fst := by
        rw [← alGet_isSome_iff, hn]
        rfl
      have := hk n this
      rw [strLt_asymm this] at h₁
      cases h₁
    · rw [Bool.not_eq_true] at h₁
      by_cases h₂ : strLt k n = true
      · have hnk : n ≠ k := fun h => strLt_ne h₂ h.symm
        rw [alGet, if_neg (by simp [hnk])] at hn
        rw [if_neg (by simp [h₁]), if_pos h₂]
        rw [unvis, List.countP_cons, unvis, List.countP_cons]
        have := ih hrest hn
        rw [unvis, unvis] at this
        omega
      · rw [Bool.not_eq_true] at h₂
        have : n = k := strLt_eq_of_not h₁ h₂
        subst this
        rw [alGet, if_pos (by simp)] at hn
        have hval : val = -1 := by
          cases hn
          rfl
        subst hval
        rw [if_neg (by simp [h₁]), if_neg (by simp [h₂])]
        rw [unvis, List.countP_cons, unvis, List.countP_cons]
        simp only [beq_iff_eq, hv, decide_eq_true_eq, if_false]
        simp

/-! ## The BFS loop invariant -/

/-- Loop-head invariant of the BFS `while` loop of `shortestPathBFS`:
the distance map covers exactly the known users; queued users are visited;
the start is settled at `0` and the destination still unvisited (its
discovery ends the loop at once); every visited user's recorded distance is
the true shortest walk length from `s`; every visited user no longer queued
has all its neighbors visited; and the queue spans at most two consecutive
levels, lower level first. -/
structure BfsInv (g : Network) (s e : String) (q : List String)
    (dist : List (String × Int)) : Prop where
  dkeys : dist.map Prod.fst = keys g
  dks : KSorted dist
  qkeys : ∀ v ∈ q, v ∈ keys g
  qvis : ∀ v ∈ q, dget dist v ≠ -1
  svis : dget dist s = 0
  evis : dget dist e = -1
  settled : ∀ v : String, dget dist v ≠ -1 →
    ∃ n : Nat, dget dist v = (n : Int) ∧ ShortestWalkLen g s v n
  processed : ∀ v : String, dget dist v ≠ -1 → v ∉ q →
    ∀ w ∈ neighbors g v, dget dist w ≠ -1
  levels : ∃ (k : Nat) (A B : List String), q = A ++ B ∧
    (∀ x ∈ A, dget dist x = (k : Int)) ∧
    (∀ x ∈ B, dget dist x = (k : Int) + 1) ∧ (A = [] → B = [])

/-- Any walk from a visited to an unvisited vertex crosses the queue: some
queued vertex sits within the walk's budget. -/
theorem bfs_cut {g : Network} {s e : String} {q : List String}
    {dist : List (String × Int)} (inv : BfsInv g s e q dist)
    {a v : String} {n : Nat} (w : Walk g a v n) (ha : dget dist a ≠ -1)
    (hv : dget dist v = -1) :
    ∃ x ∈ q, dget dist x + 1 ≤ dget dist a + n := by
  induction w with
  | nil u => exact absurd hv ha
  | @cons u y v' n' h t ih =>
    by_cases hy : dget dist y = -1
    · have hq : u ∈ q := by
        by_contra hqn
        exact inv.processed u ha hqn y h hy
      refine ⟨u, hq, ?_⟩
      have : (0 : Int) ≤ (n' : Int) := Int.natCast_nonneg n'
      push_cast
      omega
    · obtain ⟨x, hx, hb⟩ := ih hy hv
      obtain ⟨du, hdu, hswu⟩ := inv.settled u ha
      obtain ⟨dy, hdy, hswy⟩ := inv.settled y hy
      have hstep : dy ≤ du + 1 := shortest_step hswu h hswy
      refine ⟨x, hx, ?_⟩
      rw [hdy] at hb
      rw [hdu]
      push_cast at hb ⊢
      omega

/-- With an empty queue, every user still unvisited is unreachable; in
particular the destination is. -/
theorem bfs_empty_unreachable {g : Network} {s e : String}
    {dist : List (String × Int)} (inv : BfsInv g s e [] dist) :
    ∀ n, ¬ Walk g s e n := by
  intro n w
  have hs : dget dist s ≠ -1 := by
    rw [inv.svis]
    omega
  obtain ⟨x, hx, -⟩ := bfs_cut inv w hs inv.evis
  cases hx

/-- The head of the queue carries the minimum recorded level. -/
theorem bfs_head_min {g : Network} {s e cur : String} {qrest : List String}
    {dist : List (String × Int)} (inv : BfsInv g s e (cur :: qrest) dist) :
    ∃ kn : Nat, dget dist cur = (kn : Int) ∧ ShortestWalkLen g s cur kn ∧
      ∀ x ∈ cur :: qrest, (kn : Int) ≤ dget dist x := by
  obtain ⟨k, A, B, hq, hA, hB, hnorm⟩ := inv.levels
  cases A with
  | nil =>
    rw [hnorm rfl] at hq
    cases hq
  | cons a A' =>
    rw [List.cons_append] at hq
    injection hq with hcur hrest
    subst hcur
    have hdk : dget dist cur = (k : Int) := hA cur (List.mem_cons_self _ _)
    have hvis : dget dist cur ≠ -1 := by
      rw [hdk]
      intro habs
      have h0 : (0 : Int) ≤ (k : Int) := Int.natCast_nonneg k
      omega
    obtain ⟨n₀, hn₀, hsw⟩ := inv.settled cur hvis
    have : (n₀ : Int) = (k : Int) := by rw [← hn₀, hdk]
    have hnk : n₀ = k := by exact_mod_cast this
    subst hnk
    refine ⟨n₀, hdk, hsw, ?_⟩
    intro x hx
    rcases List.mem_cons.mp hx with rfl | hx
    · rw [hdk]
    · rw [hrest] at hx
      rcases List.mem_append.mp hx with hx | hx
      · rw [hA x (List.mem_cons_of_mem _ hx)]
      · rw [hB x hx]
        have : (0 : Int) ≤ (n₀ : Int) := Int.natCast_nonneg n₀
        omega

/-- At the head level `kn`, every unvisited vertex is at least `kn + 1`
away from the start. -/
theorem bfs_unvisited_far {g : Network} {s e cur : String}
    {qrest : List String} {dist : List (String × Int)}
    (inv : BfsInv g s e (cur :: qrest) dist) {kn : Nat}
    (hk : dget dist cur = (kn : Int))
    (hmin : ∀ x ∈ cur :: qrest, (kn : Int) ≤ dget dist x)
    {v : String} {n : Nat} (hv : dget dist v = -1) (w : Walk g s v n) :
    kn + 1 ≤ n := by
  have hs : dget dist s ≠ -1 := by
    rw [inv.svis]
    omega
  obtain ⟨x, hx, hb⟩ := bfs_cut inv w hs hv
  have hxmin := hmin x hx
  rw [inv.svis] at hb
  have : (0 : Int) ≤ (n : Int) := Int.natCast_nonneg n
  push_cast at hb hxmin ⊢
  omega

/-! ## The BFS neighbor-expansion step -/

theorem bfsRelax_nil (e cur : String) (dist : List (String × Int))
    (parent : List (String × String)) (q : List String) :
    bfsRelax e cur [] dist parent q = (dist, parent, q, none) := rfl

theorem bfsRelax_cons_skip {dist : List (String × Int)} {n : String}
    (h : ((alGet dist n).isSome && (dget dist n == -1)) = false)
    (e cur : String) (ns : List String) (parent : List (String × String))
    (q : List String) :
    bfsRelax e cur (n :: ns) dist parent q = bfsRelax e cur ns dist parent q := by
  rw [bfsRelax, if_neg (by simp [h])]

theorem bfsRelax_cons_found {dist : List (String × Int)} {n e : String}
    (h : ((alGet dist n).isSome && (dget dist n == -1)) = true)
    (he : (n == e) = true) (cur : String) (ns : List String)
    (parent : List (String × String)) (q : List String) :
    bfsRelax e cur (n :: ns) dist parent q =
      (alPut n (dget dist cur + 1) dist, alPut n cur parent, q ++ [n],
        some (dget (alPut n (dget dist cur + 1) dist) n)) := by
  rw [bfsRelax, if_pos h]
  simp only [he, if_true]

theorem bfsRelax_cons_push {dist : List (String × Int)} {n e : String}
    (h : ((alGet dist n).isSome && (dget dist n == -1)) = true)
    (he : (n == e) = false) (cur : String) (ns : List String)
    (parent : List (String × String)) (q : List String) :
    bfsRelax e cur (n :: ns) dist parent q =
      bfsRelax e cur ns (alPut n (dget dist cur + 1) dist) (alPut n cur parent)
        (q ++ [n]) := by
  rw [bfsRelax, if_pos h]
  simp only [he, Bool.false_eq_true, if_false]

/-- What the neighbor-expansion loop guarantees when it ends without
discovering the destination: the loop-head facts, re-established for the
updated queue and distance map, plus the measure bound used for fuel. -/
structure RelaxOut (g : Network) (s e cur : String) (kn : Nat)
    (q : List String) (dist : List (String × Int))
    (q' : List String) (dist' : List (String × Int)) : Prop where
  dkeys : dist'.map Prod.fst = keys g
  dks : KSorted dist'
  qkeys : ∀ v ∈ q', v ∈ keys g
  qvis : ∀ v ∈ q', dget dist' v ≠ -1
  svis : dget dist' s = 0
  evis : dget dist' e = -1
  settled : ∀ v : String, dget dist' v ≠ -1 →
    ∃ n : Nat, dget dist' v = (n : Int) ∧ ShortestWalkLen g s v n
  restProc : ∀ v : String, dget dist' v ≠ -1 → v ∉ q' → v ≠ cur →
    ∀ w ∈ neighbors g v, dget dist' w ≠ -1
  curProc : ∀ w ∈ neighbors g cur, dget dist' w ≠ -1
  levels : ∃ A B : List String, q' = A ++ B ∧
    (∀ x ∈ A, dget dist' x = (kn : Int)) ∧
    (∀ x ∈ B, dget dist' x = (kn : Int) + 1)
  measure : q'.length + 2 * unvis dist' ≤ q.length + 2 * unvis dist

/-- Full specification of one neighbor-expansion pass of the BFS. -/
theorem bfsRelax_spec (g : Network) (wf : GraphWF g) (s e cur : String)
    (kn : Nat) (hsw : ShortestWalkLen g s cur kn) :
    ∀ (ns : List String) (dist : List (String × Int))
      (parent : List (String × String)) (q : List String),
      (∀ x ∈ ns, x ∈ neighbors g cur) →
      dist.map Prod.fst = keys g →
      KSorted dist →
      (∀ v ∈ q, v ∈ keys g) →
      (∀ v ∈ q, dget dist v ≠ -1) →
      dget dist s = 0 →
      dget dist e = -1 →
      (∀ v : String, dget dist v ≠ -1 →
        ∃ n : Nat, dget dist v = (n : Int) ∧ ShortestWalkLen g s v n) →
      (∀ v : String, dget dist v ≠ -1 → v ∉ q → v ≠ cur →
        ∀ w ∈ neighbors g v, dget dist w ≠ -1) →
      (∀ w ∈ neighbors g cur, w ∉ ns → dget dist w ≠ -1) →
      dget dist cur = (kn : Int) →
      (∀ (v : String) (n : Nat), dget dist v = -1 → Walk g s v n →
        kn + 1 ≤ n) →
      (∃ A B : List String, q = A ++ B ∧
        (∀ x ∈ A, dget dist x = (kn : Int)) ∧
        (∀ x ∈ B, dget dist x = (kn : Int) + 1)) →
      (∀ dd : Int, (bfsRelax e cur ns dist parent q).2.2.2 = some dd →
        dd = (kn : Int) + 1 ∧ ShortestWalkLen g s e (kn + 1)) ∧
      ((bfsRelax e cur ns dist parent q).2.2.2 = none →
        RelaxOut g s e cur kn q dist
          (bfsRelax e cur ns dist parent q).2.2.1
          (bfsRelax e cur ns dist parent q).1) := by
  intro ns
  induction ns with
  | nil =>
    intro dist parent q hsub hdkeys hdks hqk hqv hsv hev hset hproc hpre
      hcur hfar hlev
    rw [bfsRelax_nil]
    constructor
    · intro dd hdd
      cases hdd
    · intro _
      obtain ⟨A, B, hAB, hA, hB⟩ := hlev
      exact ⟨hdkeys, hdks, hqk, hqv, hsv, hev, hset,
        fun v h hq hvc => hproc v h hq hvc,
        fun w hw => hpre w hw (by simp), ⟨A, B, hAB, hA, hB⟩, le_refl _⟩
  | cons n ns ih =>
    intro dist parent q hsub hdkeys hdks hqk hqv hsv hev hset hproc hpre
      hcur hfar hlev
    have hnnbr : n ∈ neighbors g cur := hsub n (List.mem_cons_self _ _)
    have hnkeys : n ∈ keys g := contains_iff_mem_keys.mp (wf.closed cur n hnnbr)
    by_cases hcond : ((alGet dist n).isSome && (dget dist n == -1)) = true
    · -- n is a known, unvisited neighbor: it is discovered now
      rw [Bool.and_eq_true, beq_iff_eq] at hcond
      obtain ⟨hnsome, hnunvis⟩ := hcond
      have hnalGet : alGet dist n = some (-1) := by
        rw [Option.isSome_iff_exists] at hnsome
        obtain ⟨v, hv⟩ := hnsome
        rw [dget, hv] at hnunvis
        simp only [Option.getD_some] at hnunvis
        rw [hv, hnunvis]
      have hncur : n ≠ cur := by
        intro h
        rw [h, hcur] at hnunvis
        have := Int.natCast_nonneg kn
        omega
      -- the new distance value
      have hd' : dget (alPut n (dget dist cur + 1) dist) n = (kn : Int) + 1 := by
        rw [dget, alGet_alPut_self, Option.getD_some, hcur]
      -- the freshly discovered vertex is settled at level kn + 1
      have hnew : ShortestWalkLen g s n (kn + 1) := by
        refine ⟨walk_snoc hsw.1 hnnbr, ?_⟩
        intro m hm
        exact hfar n m hnunvis hm
      -- updated-map facts shared by both the found and the push branch
      have hget' : ∀ v : String, v ≠ n →
          dget (alPut n (dget dist cur + 1) dist) v = dget dist v := by
        intro v hv
        rw [dget, alGet_alPut_ne _ hv, dget]
      by_cases hne : (n == e) = true
      · -- destination discovered: the loop reports dist[n] = kn + 1
        rw [bfsRelax_cons_found (by simp [hnsome, hnunvis]) hne]
        constructor
        · intro dd hdd
          simp only [Option.some.injEq] at hdd
          rw [← hdd, hd']
          rw [beq_iff_eq] at hne
          subst hne
          exact ⟨rfl, hnew⟩
        · intro h
          cases h
      · -- ordinary discovery: push n and continue with the rest
        have hne' : (n == e) = false := by
          rw [Bool.eq_false_iff]
          exact hne
        rw [bfsRelax_cons_push (by simp [hnsome, hnunvis]) hne']
        rw [beq_eq_false_iff_ne] at hne'
        set dist₁ := alPut n (dget dist cur + 1) dist with hdist₁
        have hnn1 : (kn : Int) + 1 ≠ -1 := by
          have := Int.natCast_nonneg kn
          omega
        have hmono : ∀ v : String, dget dist v ≠ -1 → dget dist₁ v ≠ -1 := by
          intro v hv
          by_cases h : v = n
          · subst h
            rw [hd']
            exact hnn1
          · rw [hget' v h]
            exact hv
        have hunvis₁ : ∀ v : String, dget dist₁ v = -1 → dget dist v = -1 := by
          intro v hv
          by_cases h : v = n
          · subst h
            rw [hd'] at hv
            exact absurd hv hnn1
          · rw [hget' v h] at hv
            exact hv
        obtain ⟨A, B, hAB, hA, hB⟩ := hlev
        have hres := ih dist₁ (alPut n cur parent) (q ++ [n])
          (fun x hx => hsub x (List.mem_cons_of_mem _ hx))
          (by rw [hdist₁, map_fst_alPut_mem _ hdks (by rw [hdkeys]; exact hnkeys),
                hdkeys])
          (alPut_ksorted _ _ hdks)
          (by
            intro v hv
            rcases List.mem_append.mp hv with hv | hv
            · exact hqk v hv
            · rw [List.mem_singleton.mp hv]
              exact hnkeys)
          (by
            intro v hv
            rcases List.mem_append.mp hv with hv | hv
            · exact hmono v (hqv v hv)
            · rw [List.mem_singleton.mp hv, hd']
              exact hnn1)
          (by
            have hsn : s ≠ n := by
              intro h
              rw [← h, hsv] at hnunvis
              cases hnunvis
            rw [hget' s hsn, hsv])
          (by
            have hen : e ≠ n := fun h => hne' h.symm
            rw [hget' e hen, hev])
          (by
            intro v hv
            by_cases h : v = n
            · subst h
              exact ⟨kn + 1, by rw [hd']; push_cast; ring, hnew⟩
            · rw [hget' v h] at hv ⊢
              exact hset v hv)
          (by
            intro v hv hvq hvcur w hw
            have hvn : v ≠ n := by
              intro h
              subst h
              exact hvq (List.mem_append.mpr (Or.inr (List.mem_singleton_self _)))
            rw [hget' v hvn] at hv
            have hvq' : v ∉ q := fun h => hvq (List.mem_append.mpr (Or.inl h))
            exact hmono w (hproc v hv hvq' hvcur w hw)
          )
          (by
            intro w hw hwns
            by_cases h : w = n
            · subst h
              rw [hd']
              exact hnn1
            · exact hmono w
                (hpre w hw (fun hmem => by
                  rcases List.mem_cons.mp hmem with h' | h'
                  · exact h h'
                  · exact hwns h'))
          )
          (by rw [hget' cur (fun h => hncur h.symm), hcur])
          (by
            intro v m hv hwalk
            exact hfar v m (hunvis₁ v hv) hwalk)
          (by
            refine ⟨A, B ++ [n], by rw [hAB, List.append_assoc], ?_, ?_⟩
            · intro x hx
              have hxvis : dget dist x = (kn : Int) := hA x hx
              have hxn : x ≠ n := by
                intro h
                rw [h, hnunvis] at hxvis
                have := Int.natCast_nonneg kn
                omega
              rw [hget' x hxn, hxvis]
            · intro x hx
              rcases List.mem_append.mp hx with hx | hx
              · have hxvis : dget dist x = (kn : Int) + 1 := hB x hx
                have hxn : x ≠ n := by
                  intro h
                  rw [h, hnunvis] at hxvis
                  exact hnn1 hxvis.symm
                rw [hget' x hxn, hxvis]
              · rw [List.mem_singleton.mp hx, hd']
          )
        refine ⟨hres.1, ?_⟩
        intro hnone
        have hout := hres.2 hnone
        refine ⟨hout.dkeys, hout.dks, hout.qkeys, hout.qvis, hout.svis,
          hout.evis, hout.settled, hout.restProc, hout.curProc, hout.levels, ?_⟩
        have hmeas := hout.measure
        have hcount : unvis dist₁ + 1 = unvis dist :=
          unvis_alPut hdks hnalGet (by rw [hcur]; exact hnn1)
        have hlen : (q ++ [n]).length = q.length + 1 := by
          simp
        omega
    · -- already visited (or unknown) neighbor: nothing changes
      rw [bfsRelax_cons_skip (by simpa using hcond)]
      have hnvis : dget dist n ≠ -1 := by
        intro h
        apply hcond
        rw [Bool.and_eq_true, beq_iff_eq]
        refine ⟨?_, h⟩
        rw [alGet_isSome_iff, hdkeys]
        exact hnkeys
      exact ih dist parent q (fun x hx => hsub x (List.mem_cons_of_mem _ hx))
        hdkeys hdks hqk hqv hsv hev hset hproc
        (fun w hw hwns => by
          by_cases h : w = n
          · subst h
            exact hnvis
          · exact hpre w hw (fun hmem => by
              rcases List.mem_cons.mp hmem with h' | h'
              · exact h h'
              · exact hwns h'))
        hcur hfar hlev

/-! ## The BFS loop and its correctness -/

theorem bfsLoop_zero (g : Network) (e : String) (q : List String)
    (dist : List (String × Int)) (parent : List (String × String)) :
    bfsLoop g e 0 q dist parent = (dist, parent, none) := rfl

theorem bfsLoop_nil (g : Network) (e : String) (fuel : Nat)
    (dist : List (String × Int)) (parent : List (String × String)) :
    bfsLoop g e (fuel + 1) [] dist parent = (dist, parent, none) := rfl

theorem bfsLoop_cons (g : Network) (e cur : String) (fuel : Nat)
    (qrest : List String) (dist : List (String × Int))
    (parent : List (String × String)) :
    bfsLoop g e (fuel + 1) (cur :: qrest) dist parent =
      match bfsRelax e cur (neighbors g cur) dist parent qrest with
      | (dist', parent', _, some dd) => (dist', parent', some dd)
      | (dist', parent', q', none) => bfsLoop g e fuel q' dist' parent' := rfl

/-- Correctness of the BFS `while` loop: with sufficient fuel, a reported
distance is the shortest walk length from `s` to `e`, and termination
without a report means `e` is unreachable from `s`. -/
theorem bfsLoop_spec (g : Network) (wf : GraphWF g) (s e : String) :
    ∀ (fuel : Nat) (q : List String) (dist : List (String × Int))
      (parent : List (String × String)),
      BfsInv g s e q dist →
      q.length + 2 * unvis dist < fuel →
      (∀ dd : Int, (bfsLoop g e fuel q dist parent).2.2 = some dd →
        ∃ n : Nat, dd = (n : Int) ∧ ShortestWalkLen g s e n) ∧
      ((bfsLoop g e fuel q dist parent).2.2 = none → ∀ n, ¬ Walk g s e n) := by
  intro fuel
  induction fuel with
  | zero =>
    intro q dist parent _ hm
    omega
  | succ f ih =>
    intro q dist parent inv hm
    cases q with
    | nil =>
      rw [bfsLoop_nil]
      constructor
      · intro dd hdd
        cases hdd
      · intro _
        exact bfs_empty_unreachable inv
    | cons cur qrest =>
      obtain ⟨kn, hk, hsw, hmin⟩ := bfs_head_min inv
      have hfar : ∀ (v : String) (n : Nat), dget dist v = -1 → Walk g s v n →
          kn + 1 ≤ n := fun v n hv w => bfs_unvisited_far inv hk hmin hv w
      -- the tail of the queue keeps the two-level structure
      obtain ⟨k0, A, B, hAB, hA, hB, hnorm⟩ := inv.levels
      have hlev' : ∃ A' B' : List String, qrest = A' ++ B' ∧
          (∀ x ∈ A', dget dist x = (kn : Int)) ∧
          (∀ x ∈ B', dget dist x = (kn : Int) + 1) := by
        cases A with
        | nil =>
          rw [hnorm rfl] at hAB
          cases hAB
        | cons a A' =>
          rw [List.cons_append] at hAB
          injection hAB with hcur hrest
          subst hcur
          have : (k0 : Int) = (kn : Int) := by
            rw [← hA cur (List.mem_cons_self _ _), hk]
          have hk0 : k0 = kn := by exact_mod_cast this
          subst hk0
          exact ⟨A', B, hrest, fun x hx => hA x (List.mem_cons_of_mem _ hx), hB⟩
      obtain ⟨hfound, hnone⟩ := bfsRelax_spec g wf s e cur kn hsw
        (neighbors g cur) dist parent qrest (fun x hx => hx) inv.dkeys inv.dks
        (fun v hv => inv.qkeys v (List.mem_cons_of_mem _ hv))
        (fun v hv => inv.qvis v (List.mem_cons_of_mem _ hv))
        inv.svis inv.evis inv.settled
        (fun v hv hvq hvcur w hw => inv.processed v hv
          (fun hmem => by
            rcases List.mem_cons.mp hmem with h | h
            · exact hvcur h
            · exact hvq h) w hw)
        (fun w hw hwns => absurd hw hwns)
        hk hfar hlev'
      rw [bfsLoop_cons]
      rcases hrelax : bfsRelax e cur (neighbors g cur) dist parent qrest with
        ⟨dist', parent', q', found⟩
      rw [hrelax] at hfound hnone
      cases found with
      | some dd =>
        simp only
        constructor
        · intro dd' hdd'
          simp only [Option.some.injEq] at hdd'
          obtain ⟨hdd, hswe⟩ := hfound dd rfl
          refine ⟨kn + 1, ?_, hswe⟩
          rw [← hdd', hdd]
          push_cast
          ring
        · intro h
          cases h
      | none =>
        simp only
        have hout := hnone rfl
        have inv' : BfsInv g s e q' dist' := by
          refine ⟨hout.dkeys, hout.dks, hout.qkeys, hout.qvis, hout.svis,
            hout.evis, hout.settled, ?_, ?_⟩
          · intro v hv hvq w hw
            by_cases hvc : v = cur
            · subst hvc
              exact hout.curProc w hw
            · exact hout.restProc v hv hvq hvc w hw
          · obtain ⟨A₁, B₁, hq₁, hA₁, hB₁⟩ := hout.levels
            cases A₁ with
            | nil =>
              refine ⟨kn + 1, B₁, [], by simpa using hq₁, ?_, ?_, fun _ => rfl⟩
              · intro x hx
                rw [hB₁ x hx]
                push_cast
                ring
              · intro x hx
                cases hx
            | cons a A₁' =>
              refine ⟨kn, a :: A₁', B₁, hq₁, hA₁, hB₁, fun h => by cases h⟩
        have hmeas : q'.length + 2 * unvis dist' ≤
            qrest.length + 2 * unvis dist := hout.measure
        have : q'.length + 2 * unvis dist' < f := by
          have hq : (cur :: qrest).length = qrest.length + 1 := by simp
          omega
        exact ih q' dist' parent' inv' this

/-- The initial BFS state satisfies the loop invariant, within fuel. -/
theorem bfs_init (g : Network) (wf : GraphWF g) {s e : String}
    (hs : s ∈ keys g) (he : e ∈ keys g) (hse : s ≠ e) :
    BfsInv g s e [s] (alPut s 0 (initDist g)) ∧
    ([s] : List String).length + 2 * unvis (alPut s 0 (initDist g)) <
      bfsFuel g := by
  have hks₀ : KSorted (initDist g) := by
    rw [KSorted, map_fst_initDist]
    exact wf.ksorted
  have hkeys₀ : (initDist g).map Prod.fst = keys g := map_fst_initDist g
  have hmem₀ : s ∈ (initDist g).map Prod.fst := by rw [hkeys₀]; exact hs
  have hself : dget (alPut s 0 (initDist g)) s = 0 := by
    rw [dget, alGet_alPut_self]
    rfl
  have hother : ∀ v : String, v ≠ s → dget (alPut s 0 (initDist g)) v = -1 := by
    intro v hv
    rw [dget, alGet_alPut_ne _ hv, alGet_initDist]
    cases alGet g v <;> simp
  constructor
  · refine ⟨?_, ?_, ?_, ?_, hself, hother e (Ne.symm hse), ?_, ?_, ?_⟩
    · rw [map_fst_alPut_mem _ hks₀ hmem₀, hkeys₀]
    · exact alPut_ksorted _ _ hks₀
    · intro v hv
      rw [List.mem_singleton.mp hv]
      exact hs
    · intro v hv
      rw [List.mem_singleton.mp hv, hself]
      omega
    · intro v hv
      by_cases h : v = s
      · subst h
        exact ⟨0, by rw [hself]; rfl, shortest_self g v⟩
      · exact absurd (hother v h) hv
    · intro v hv hvq
      by_cases h : v = s
      · subst h
        exact absurd (List.mem_singleton_self _) hvq
      · exact absurd (hother v h) hv
    · refine ⟨0, [s], [], rfl, ?_, ?_, fun h => by cases h⟩
      · intro x hx
        rw [List.mem_singleton.mp hx, hself]
        rfl
      · intro x hx
        cases hx
  · have h₁ : unvis (alPut s 0 (initDist g)) ≤ g.length := by
      have h₂ := unvis_le_length (alPut s 0 (initDist g))
      have h₃ : (alPut s 0 (initDist g)).length = (initDist g).length :=
        length_alPut_mem _ hks₀ hmem₀
      have h₄ : (initDist g).length = g.length := by
        rw [initDist, List.length_map]
      omega
    rw [bfsFuel]
    simp only [List.length_singleton]
    omega

theorem isNone_false_of_mem_keys {α : Type} {m : List (String × α)}
    {u : String} (h : u ∈ m.map Prod.fst) : (alGet m u).isNone = false := by
  have hsome := alGet_isSome_iff.mpr h
  cases halt : alGet m u
  · rw [halt] at hsome
    cases hsome
  · rfl

theorem shortestPathBFS_self {g : Network} {s : String} (hs : s ∈ keys g) :
    shortestPathBFS g s s = (0, [s]) := by
  have h : (alGet g s).isNone = false := isNone_false_of_mem_keys hs
  rw [shortestPathBFS, if_neg (by simp [h]), if_neg (by simp [h]),
    if_pos (by simp)]

theorem shortestPathBFS_run {g : Network} {s e : String}
    (hs : (alGet g s).isNone = false) (he : (alGet g e).isNone = false)
    (hse : (s == e) = false) :
    shortestPathBFS g s e =
      match bfsLoop g e (bfsFuel g) [s] (alPut s 0 (initDist g))
          (initParent g) with
      | (_, parent₁, some dd) => (dd, buildPath parent₁ (parent₁.length + 1) e [])
      | (_, _, none) => (-1, []) := by
  rw [shortestPathBFS, if_neg (by simp [hs]), if_neg (by simp [he]),
    if_neg (by simp [hse])]

/-- Complete characterization of the BFS distance result: connected
endpoints yield the shortest walk length, disconnected endpoints yield the
`(-1, [])` sentinel. -/
theorem shortestPathBFS_char (g : Network) (wf : GraphWF g) {s e : String}
    (hs : s ∈ keys g) (he : e ∈ keys g) :
    (∃ n : Nat, ShortestWalkLen g s e n ∧ (shortestPathBFS g s e).1 = (n : Int)) ∨
    ((∀ n, ¬ Walk g s e n) ∧ shortestPathBFS g s e = (-1, [])) := by
  by_cases hse : s = e
  · subst hse
    left
    refine ⟨0, shortest_self g s, ?_⟩
    rw [shortestPathBFS_self hs]
    rfl
  · have hs' : (alGet g s).isNone = false := isNone_false_of_mem_keys hs
    have he' : (alGet g e).isNone = false := isNone_false_of_mem_keys he
    obtain ⟨inv, hmeas⟩ := bfs_init g wf hs he hse
    obtain ⟨hfound, hnone⟩ := bfsLoop_spec g wf s e (bfsFuel g) [s]
      (alPut s 0 (initDist g)) (initParent g) inv hmeas
    rw [shortestPathBFS_run hs' he' (by simp [hse])]
    rcases hloop : bfsLoop g e (bfsFuel g) [s] (alPut s 0 (initDist g))
      (initParent g) with ⟨d₁, p₁, found⟩
    rw [hloop] at hfound hnone
    cases found with
    | some dd =>
      left
      obtain ⟨n, rfl, hsw⟩ := hfound dd rfl
      exact ⟨n, hsw, rfl⟩
    | none =>
      right
      exact ⟨hnone rfl, rfl⟩

/-! ## Claim C1: BFS distance minimality -/

/-- C1: on every reachable graph state with both endpoints present, a
non-negative BFS result is exactly the minimum number of edges on any walk
from `start` to `end`, and connected endpoints always produce such a
non-negative result instead of the `-1` sentinel. -/
theorem claim_C1_bfs_shortest (g : Network) (hg : Reachable g) (s e : String)
    (hs : s ∈ keys g) (he : e ∈ keys g) :
    (0 ≤ (shortestPathBFS g s e).1 →
      ShortestWalkLen g s e (shortestPathBFS g s e).1.toNat) ∧
    ((∃ n, Walk g s e n) → 0 ≤ (shortestPathBFS g s e).1) := by
  have wf := reachable_wf hg
  rcases shortestPathBFS_char g wf hs he with ⟨n, hsw, hfst⟩ | ⟨hnw, heq⟩
  · constructor
    · intro _
      rw [hfst]
      simpa using hsw
    · intro _
      rw [hfst]
      exact Int.natCast_nonneg n
  · constructor
    · intro h
      rw [heq] at h
      omega
    · rintro ⟨n, hn⟩
      exact absurd hn (hnw n)

/-- Witness for C1 at the demo network: `"Alice"` to `"Eve"`. -/
theorem claim_C1_witness :
    (0 ≤ (shortestPathBFS demoNet "Alice" "Eve").1 →
      ShortestWalkLen demoNet "Alice" "Eve"
        (shortestPathBFS demoNet "Alice" "Eve").1.toNat) ∧
    ((∃ n, Walk demoNet "Alice" "Eve" n) →
      0 ≤ (shortestPathBFS demoNet "Alice" "Eve").1) :=
  claim_C1_bfs_shortest demoNet ⟨demoOps, rfl⟩ "Alice" "Eve" (by decide)
    (by decide)

/-! ## The priority queue order -/

theorem pqLe_fst {x y : Int × String} (h : pqLe x y = true) : x.1 ≤ y.1 := by
  rw [pqLe] at h
  by_cases h₁ : x.1 < y.1
  · omega
  · rw [if_neg h₁] at h
    by_cases h₂ : y.1 < x.1
    · rw [if_pos h₂] at h
      cases h
    · omega

theorem pqLe_total (x y : Int × String) :
    pqLe x y = true ∨ pqLe y x = true := by
  rw [pqLe, pqLe]
  by_cases h₁ : x.1 < y.1
  · left
    rw [if_pos h₁]
  · by_cases h₂ : y.1 < x.1
    · right
      rw [if_pos h₂]
    · rw [if_neg h₁, if_neg h₂, if_neg h₂, if_neg h₁]
      cases hs : strLt y.2 x.2
      · left
        simp [hs]
      · right
        have := strLt_asymm hs
        simp [this]

theorem pqLe_trans {x y z : Int × String} (h₁ : pqLe x y = true)
    (h₂ : pqLe y z = true) : pqLe x z = true := by
  have hf₁ := pqLe_fst h₁
  have hf₂ := pqLe_fst h₂
  by_cases hxz : x.1 < z.1
  · rw [pqLe, if_pos hxz]
  · have hxy : x.1 = y.1 := by omega
    have hyz : y.1 = z.1 := by omega
    rw [pqLe, if_neg (by omega), if_neg (by omega), Bool.not_eq_true'] at h₁
    rw [pqLe, if_neg (by omega), if_neg (by omega), Bool.not_eq_true'] at h₂
    rw [pqLe, if_neg (by omega), if_neg (by omega), Bool.not_eq_true']
    by_cases hzx : strLt z.2 x.2 = true
    · exfalso
      cases hxy2 : strLt x.2 y.2
      · have hx2y2 : x.2 = y.2 := strLt_eq_of_not hxy2 h₁
        rw [hx2y2] at hzx
        rw [hzx] at h₂
        cases h₂
      · have := strLt_trans hzx hxy2
        rw [this] at h₂
        cases h₂
    · rw [Bool.not_eq_true] at hzx
      exact hzx

theorem mem_pqPush {x y : Int × String} {l : List (Int × String)} :
    y ∈ pqPush x l ↔ y = x ∨ y ∈ l := by
  induction l with
  | nil => simp [pqPush]
  | cons z zs ih =>
    rw [pqPush]
    by_cases h : pqLe x z = true
    · simp [h, List.mem_cons]
    · simp [h, List.mem_cons, ih]
      tauto

theorem length_pqPush (x : Int × String) (l : List (Int × String)) :
    (pqPush x l).length = l.length + 1 := by
  induction l with
  | nil => rfl
  | cons y ys ih =>
    rw [pqPush]
    by_cases h : pqLe x y = true
    · simp [h]
    · simp only [h, Bool.false_eq_true, if_false, List.length_cons, ih]

theorem pairwise_pqPush {x : Int × String} {l : List (Int × String)}
    (h : l.Pairwise (fun a b => pqLe a b = true)) :
    (pqPush x l).Pairwise (fun a b => pqLe a b = true) := by
  induction l with
  | nil => simp [pqPush]
  | cons y ys ih =>
    rw [List.pairwise_cons] at h
    obtain ⟨hy, hys⟩ := h
    rw [pqPush]
    by_cases hxy : pqLe x y = true
    · rw [if_pos hxy, List.pairwise_cons]
      refine ⟨?_, List.pairwise_cons.mpr ⟨hy, hys⟩⟩
      intro z hz
      rcases List.mem_cons.mp hz with rfl | hz
      · exact hxy
      · exact pqLe_trans hxy (hy z hz)
    · rw [if_neg hxy, List.pairwise_cons]
      have hyx : pqLe y x = true := by
        rcases pqLe_total x y with h | h
        · exact absurd h hxy
        · exact h
      refine ⟨?_, ih hys⟩
      intro z hz
      rcases mem_pqPush.mp hz with rfl | hz
      · exact hyx
      · exact hy z hz

/-! ## The Dijkstra distance measure -/

/-- Total recorded distance, used as part of the fuel measure: every push
strictly lowers one entry. -/
def dsum (dist : List (String × Int)) : Nat :=
  (dist.map (fun p => p.2.toNat)).sum

theorem dsum_alPut {dist : List (String × Int)} (hks : KSorted dist)
    {x : String} {v : Int} (hx : alGet dist x = some v) (v' : Int) :
    dsum (alPut x v' dist) + v.toNat = dsum dist + v'.toNat := by
  induction dist with
  | nil => simp [alGet] at hx
  | cons p rest ih =>
    obtain ⟨k, val⟩ := p
    rw [KSorted, List.map_cons, List.pairwise_cons] at hks
    obtain ⟨hk, hrest⟩ := hks
    rw [alPut]
    by_cases h₁ : strLt x k = true
    · exfalso
      have hxk : x ≠ k := strLt_ne h₁
      rw [alGet, if_neg (by simp [hxk])] at hx
      have : x ∈ rest.map Prod.fst := by
        rw [← alGet_isSome_iff, hx]
        rfl
      have := hk x this
      rw [strLt_asymm this] at h₁
      cases h₁
    · rw [Bool.not_eq_true] at h₁
      by_cases h₂ : strLt k x = true
      · have hxk : x ≠ k := fun h => strLt_ne h₂ h.symm
        rw [alGet, if_neg (by simp [hxk])] at hx
        rw [if_neg (by simp [h₁]), if_pos h₂]
        rw [dsum, List.map_cons, List.sum_cons, dsum, List.map_cons,
          List.sum_cons]
        have := ih hrest hx
        rw [dsum, dsum] at this
        omega
      · rw [Bool.not_eq_true] at h₂
        have : x = k := strLt_eq_of_not h₁ h₂
        subst this
        rw [alGet, if_pos (by simp)] at hx
        have hval : val = v := by
          cases hx
          rfl
        subst hval
        rw [if_neg (by simp [h₁]), if_neg (by simp [h₂])]
        rw [dsum, List.map_cons, List.sum_cons, dsum, List.map_cons,
          List.sum_cons]
        omega

theorem dsum_le {dist : List (String × Int)}
    (h : ∀ p ∈ dist, p.2 ≤ INF) : dsum dist ≤ dist.length * INF.toNat := by
  induction dist with
  | nil => simp [dsum]
  | cons p rest ih =>
    rw [dsum, List.map_cons, List.sum_cons, List.length_cons]
    have h₁ : p.2.toNat ≤ INF.toNat :=
      Int.toNat_le_toNat (h p (List.mem_cons_self _ _))
    have h₂ := ih (fun q hq => h q (List.mem_cons_of_mem _ hq))
    rw [dsum] at h₂
    have : (rest.length + 1) * INF.toNat = rest.length * INF.toNat + INF.toNat := by
      ring
    omega

/-! ## The Dijkstra loop invariant -/

/-- Loop-head invariant of `shortestPathDijkstra`'s `while` loop: the
distance map covers the known users with values in `[0, INF]`, every finite
recorded distance is the length of an actual walk from `s`, the
priority-queue entries are walk lengths no smaller than the current record
of their vertex, every vertex with a finite record either still has its
current record enqueued or has relaxed all its edges, and the destination
(never popped non-stale before the loop ends) always has its record
enqueued while finite. -/
structure DijkInv (g : Network) (s e : String) (pq : List (Int × String))
    (dist : List (String × Int)) : Prop where
  dkeys : dist.map Prod.fst = keys g
  dks : KSorted dist
  sorted : pq.Pairwise (fun a b => pqLe a b = true)
  nonneg : ∀ v : String, 0 ≤ dgetI dist v
  bound : ∀ v : String, dgetI dist v ≤ INF
  szero : dgetI dist s = 0
  sound : ∀ v : String, dgetI dist v ≠ INF →
    ∃ n : Nat, dgetI dist v = (n : Int) ∧ Walk g s v n
  pqB : ∀ p ∈ pq, dgetI dist p.2 ≤ p.1 ∧ p.1 < INF ∧
    ∃ n : Nat, p.1 = (n : Int) ∧ Walk g s p.2 n
  covered : ∀ w : String, dgetI dist w ≠ INF →
    (dgetI dist w, w) ∈ pq ∨ ∀ x ∈ neighbors g w, dgetI dist x ≤ dgetI dist w + 1
  ecov : dgetI dist e ≠ INF → (dgetI dist e, e) ∈ pq

/-- Any not-too-long walk from a low vertex either proves its endpoint's
record small or crosses a vertex whose current record is still enqueued. -/
theorem dijk_cut {g : Network} {s e : String} {pq : List (Int × String)}
    {dist : List (String × Int)} (inv : DijkInv g s e pq dist)
    {a v : String} {m : Nat} (w : Walk g a v m) :
    ∀ c : Int, dgetI dist a ≤ c → c + (m : Int) < INF →
      dgetI dist v ≤ c + (m : Int) ∨
      ∃ (x : String) (j : Nat), (dgetI dist x, x) ∈ pq ∧
        dgetI dist x ≤ c + (j : Int) ∧ j ≤ m := by
  induction w with
  | nil u =>
    intro c ha _
    left
    simpa using ha
  | @cons u y v' n' h t ih =>
    intro c ha hm
    have h0 : (0 : Int) ≤ (n' : Int) := Int.natCast_nonneg n'
    have hcINF : c < INF := by
      push_cast at hm
      omega
    have hafin : dgetI dist u ≠ INF := by
      intro habs
      rw [habs] at ha
      omega
    rcases inv.covered u hafin with hent | hrel
    · right
      exact ⟨u, 0, hent, by simpa using ha, Nat.zero_le _⟩
    · have hy : dgetI dist y ≤ c + 1 := by
        have := hrel y h
        omega
      have hm' : (c + 1) + (n' : Int) < INF := by
        push_cast at hm ⊢
        omega
      rcases ih (c + 1) hy hm' with hleft | ⟨x, j, hent, hxj, hjm⟩
      · left
        push_cast at hleft ⊢
        omega
      · right
        refine ⟨x, j + 1, hent, ?_, by omega⟩
        push_cast at hxj ⊢
        omega

/-- A non-stale minimum pop settles its vertex at the true shortest
distance. -/
theorem dijk_pop_shortest {g : Network} {s e u : String} {d : Int}
    {rest : List (Int × String)} {dist : List (String × Int)}
    (inv : DijkInv g s e ((d, u) :: rest) dist)
    (hd : dgetI dist u = d) :
    ∃ n : Nat, d = (n : Int) ∧ ShortestWalkLen g s u n := by
  obtain ⟨-, hdINF, n, hdn, hwalk⟩ := inv.pqB (d, u) (List.mem_cons_self _ _)
  have hdn' : d = (n : Int) := hdn
  have hwalk' : Walk g s u n := hwalk
  have hdINF' : d < INF := hdINF
  have hmin : ∀ p ∈ (d, u) :: rest, d ≤ p.1 := by
    intro p hp
    rcases List.mem_cons.mp hp with rfl | hp
    · exact le_refl _
    · exact pqLe_fst ((List.pairwise_cons.mp inv.sorted).1 p hp)
  refine ⟨n, hdn', hwalk', ?_⟩
  intro m hm
  by_cases hmI : (m : Int) < INF
  · have hcut := dijk_cut inv hm 0 (le_of_eq inv.szero)
      (by push_cast; omega)
    rcases hcut with hleft | ⟨x, j, hent, hxj, hjm⟩
    · rw [hd, hdn'] at hleft
      have : (n : Int) ≤ (m : Int) := by omega
      exact_mod_cast this
    · have hdx := hmin (dgetI dist x, x) hent
      simp only at hdx
      have hjm' : (j : Int) ≤ (m : Int) := by exact_mod_cast hjm
      have : (n : Int) ≤ (m : Int) := by omega
      exact_mod_cast this
  · have h1 : (n : Int) < INF := by rw [← hdn']; exact hdINF'
    have : (n : Int) ≤ (m : Int) := by omega
    exact_mod_cast this

/-! ## The Dijkstra relaxation pass -/

theorem dijkstraRelax_nil (u : String) (dist : List (String × Int))
    (parent : List (String × String)) (pq : List (Int × String)) :
    dijkstraRelax u [] dist parent pq = (dist, parent, pq) := rfl

theorem dijkstraRelax_cons_noKey {dist : List (String × Int)} {v : String}
    (h : (alGet dist v).isSome = false) (u : String) (vs : List String)
    (parent : List (String × String)) (pq : List (Int × String)) :
    dijkstraRelax u (v :: vs) dist parent pq =
      dijkstraRelax u vs dist parent pq := by
  rw [dijkstraRelax, if_neg (by simp [h])]

theorem dijkstraRelax_cons_skip {dist : List (String × Int)} {u v : String}
    (hsome : (alGet dist v).isSome = true)
    (h : (dgetI dist u != INF && decide (dgetI dist u + 1 < dgetI dist v)) =
      false) (vs : List String) (parent : List (String × String))
    (pq : List (Int × String)) :
    dijkstraRelax u (v :: vs) dist parent pq =
      dijkstraRelax u vs dist parent pq := by
  rw [dijkstraRelax, if_pos hsome, if_neg (by simp [h])]

theorem dijkstraRelax_cons_relax {dist : List (String × Int)} {u v : String}
    (hsome : (alGet dist v).isSome = true)
    (h : (dgetI dist u != INF && decide (dgetI dist u + 1 < dgetI dist v)) =
      true) (vs : List String) (parent : List (String × String))
    (pq : List (Int × String)) :
    dijkstraRelax u (v :: vs) dist parent pq =
      dijkstraRelax u vs (alPut v (dgetI dist u + 1) dist) (alPut v u parent)
        (pqPush (dgetI (alPut v (dgetI dist u + 1) dist) v, v) pq) := by
  rw [dijkstraRelax, if_pos hsome, if_pos h]

/-- Full specification of one relaxation pass: it re-establishes the loop
invariant (the popped vertex now counts as fully relaxed) without growing
the measure. -/
theorem dijkstraRelax_spec (g : Network) (wf : GraphWF g) (s e u : String)
    (d : Int) (n₀ : Nat) (hd0 : d = (n₀ : Int)) (hw0 : Walk g s u n₀)
    (hdINF : d < INF) :
    ∀ (vs : List String) (dist : List (String × Int))
      (parent : List (String × String)) (pq : List (Int × String)),
      (∀ x ∈ vs, x ∈ neighbors g u) →
      dist.map Prod.fst = keys g →
      KSorted dist →
      pq.Pairwise (fun a b => pqLe a b = true) →
      (∀ v : String, 0 ≤ dgetI dist v) →
      (∀ v : String, dgetI dist v ≤ INF) →
      dgetI dist s = 0 →
      (∀ v : String, dgetI dist v ≠ INF →
        ∃ n : Nat, dgetI dist v = (n : Int) ∧ Walk g s v n) →
      (∀ p ∈ pq, dgetI dist p.2 ≤ p.1 ∧ p.1 < INF ∧
        ∃ n : Nat, p.1 = (n : Int) ∧ Walk g s p.2 n) →
      (∀ w : String, w ≠ u → dgetI dist w ≠ INF →
        (dgetI dist w, w) ∈ pq ∨
          ∀ x ∈ neighbors g w, dgetI dist x ≤ dgetI dist w + 1) →
      (∀ x ∈ neighbors g u, x ∉ vs → dgetI dist x ≤ dgetI dist u + 1) →
      dgetI dist u = d →
      (dgetI dist e ≠ INF → (dgetI dist e, e) ∈ pq) →
      DijkInv g s e (dijkstraRelax u vs dist parent pq).2.2
        (dijkstraRelax u vs dist parent pq).1 ∧
      (dijkstraRelax u vs dist parent pq).2.2.length +
          dsum (dijkstraRelax u vs dist parent pq).1 ≤
        pq.length + dsum dist := by
  intro vs
  induction vs with
  | nil =>
    intro dist parent pq hsub hdkeys hdks hsort hnn hbd hs0 hsound hpqB hcov
      hpre hdu hecov
    rw [dijkstraRelax_nil]
    refine ⟨⟨hdkeys, hdks, hsort, hnn, hbd, hs0, hsound, hpqB, ?_, hecov⟩,
      le_refl _⟩
    intro w hw
    by_cases hwu : w = u
    · subst hwu
      right
      intro x hx
      exact hpre x hx (by simp)
    · exact hcov w hwu hw
  | cons v vs ih =>
    intro dist parent pq hsub hdkeys hdks hsort hnn hbd hs0 hsound hpqB hcov
      hpre hdu hecov
    have hvnbr : v ∈ neighbors g u := hsub v (List.mem_cons_self _ _)
    have hvkeys : v ∈ keys g := contains_iff_mem_keys.mp (wf.closed u v hvnbr)
    have hvsome : (alGet dist v).isSome = true := by
      rw [alGet_isSome_iff, hdkeys]
      exact hvkeys
    by_cases hguard :
        (dgetI dist u != INF && decide (dgetI dist u + 1 < dgetI dist v)) = true
    · -- the edge (u, v) is relaxed
      rw [Bool.and_eq_true, bne_iff_ne, decide_eq_true_iff] at hguard
      obtain ⟨-, hlt⟩ := hguard
      rw [dijkstraRelax_cons_relax hvsome (by
        rw [Bool.and_eq_true, bne_iff_ne, decide_eq_true_iff]
        exact ⟨by rw [hdu]; intro h; rw [h] at hdINF; omega, hlt⟩)]
      have hvu : v ≠ u := by
        intro h
        rw [h, hdu] at hlt
        omega
      have hvs' : v ≠ s := by
        intro h
        rw [h, hs0] at hlt
        have := hnn u
        omega
      have hget' : ∀ w : String, w ≠ v →
          dgetI (alPut v (dgetI dist u + 1) dist) w = dgetI dist w := by
        intro w hw
        rw [dgetI, alGet_alPut_ne _ hw, dgetI]
      have hgetv : dgetI (alPut v (dgetI dist u + 1) dist) v = d + 1 := by
        rw [dgetI, alGet_alPut_self, Option.getD_some, hdu]
      have hvINF : dgetI dist v ≤ INF := hbd v
      have hd1INF : d + 1 < INF := by
        rw [hdu] at hlt
        omega
      have hmono : ∀ w : String,
          dgetI (alPut v (dgetI dist u + 1) dist) w ≤ dgetI dist w := by
        intro w
        by_cases hw : w = v
        · subst hw
          rw [hgetv]
          omega
        · rw [hget' w hw]
      set dist₁ := alPut v (dgetI dist u + 1) dist with hdist₁
      set pq₁ := pqPush (dgetI dist₁ v, v) pq with hpq₁
      have hvalGet : alGet dist v = some (dgetI dist v) := by
        rw [Option.isSome_iff_exists] at hvsome
        obtain ⟨w, hw⟩ := hvsome
        rw [dgetI, hw]
        rfl
      have hres := ih dist₁ (alPut v u parent) pq₁
        (fun x hx => hsub x (List.mem_cons_of_mem _ hx))
        (by rw [hdist₁, map_fst_alPut_mem _ hdks (by rw [hdkeys]; exact hvkeys),
          hdkeys])
        (alPut_ksorted _ _ hdks)
        (pairwise_pqPush hsort)
        (by
          intro w
          by_cases hw : w = v
          · subst hw
            rw [hgetv]
            have := hnn u
            rw [hdu] at this
            omega
          · rw [hget' w hw]
            exact hnn w)
        (by
          intro w
          by_cases hw : w = v
          · subst hw
            rw [hgetv]
            omega
          · rw [hget' w hw]
            exact hbd w)
        (by rw [hget' s (Ne.symm hvs'), hs0])
        (by
          intro w hw
          by_cases hwv : w = v
          · subst hwv
            rw [hgetv]
            refine ⟨n₀ + 1, by rw [hd0]; push_cast; ring, walk_snoc hw0 hvnbr⟩
          · rw [hget' w hwv] at hw ⊢
            exact hsound w hw)
        (by
          intro p hp
          rcases mem_pqPush.mp hp with rfl | hp
          · refine ⟨le_of_eq rfl, ?_, ?_⟩
            · simp only [hgetv]
              exact hd1INF
            · simp only [hgetv]
              exact ⟨n₀ + 1, by rw [hd0]; push_cast; ring, walk_snoc hw0 hvnbr⟩
          · obtain ⟨h₁, h₂, h₃⟩ := hpqB p hp
            exact ⟨le_trans (hmono p.2) h₁, h₂, h₃⟩)
        (by
          intro w hwu hwfin
          by_cases hwv : w = v
          · subst hwv
            left
            exact mem_pqPush.mpr (Or.inl rfl)
          · rw [hget' w hwv] at hwfin ⊢
            rcases hcov w hwu hwfin with hent | hrel
            · left
              exact mem_pqPush.mpr (Or.inr hent)
            · right
              intro x hx
              exact le_trans (hmono x) (hrel x hx))
        (by
          intro x hx hxvs
          rw [hget' u (Ne.symm hvu), hdu]
          by_cases hxv : x = v
          · subst hxv
            rw [hgetv]
          · rw [hget' x hxv]
            have hx' := hpre x hx (fun hmem => by
              rcases List.mem_cons.mp hmem with h' | h'
              · exact hxv h'
              · exact hxvs h')
            rw [hdu] at hx'
            exact hx')
        (by rw [hget' u (Ne.symm hvu), hdu])
        (by
          intro hefin
          by_cases hev : e = v
          · subst hev
            exact mem_pqPush.mpr (Or.inl rfl)
          · rw [hget' e hev] at hefin ⊢
            exact mem_pqPush.mpr (Or.inr (hecov hefin)))
      refine ⟨hres.1, ?_⟩
      have hmeas := hres.2
      have hexch : dsum dist₁ + (dgetI dist v).toNat =
          dsum dist + (dgetI dist u + 1).toNat :=
        dsum_alPut hdks hvalGet _
      have hlt' : (dgetI dist u + 1).toNat < (dgetI dist v).toNat := by
        have h0 : 0 < dgetI dist v := by
          have := hnn u
          omega
        rw [hdu, Int.toNat_lt_toNat h0]
        omega
      have hlen : pq₁.length = pq.length + 1 := by
        rw [hpq₁, length_pqPush]
      omega
    · -- the relaxation guard fails: dist[v] is already small enough
      rw [dijkstraRelax_cons_skip hvsome (by simpa using hguard)]
      have hrelv : dgetI dist v ≤ dgetI dist u + 1 := by
        by_cases hfin : (dgetI dist u != INF) = true
        · have h2 : ¬ (dgetI dist u + 1 < dgetI dist v) := by
            intro hlt2
            apply hguard
            rw [Bool.and_eq_true]
            exact ⟨hfin, by rw [decide_eq_true_iff]; exact hlt2⟩
          omega
        · exfalso
          rw [bne_iff_ne] at hfin
          push_neg at hfin
          rw [hdu] at hfin
          rw [hfin] at hdINF
          omega
      exact ih dist parent pq (fun x hx => hsub x (List.mem_cons_of_mem _ hx))
        hdkeys hdks hsort hnn hbd hs0 hsound hpqB hcov
        (fun x hx hxvs => by
          by_cases hxv : x = v
          · subst hxv
            exact hrelv
          · exact hpre x hx (fun hmem => by
              rcases List.mem_cons.mp hmem with h' | h'
              · exact hxv h'
              · exact hxvs h'))
        hdu hecov

/-! ## The Dijkstra loop and its correctness -/

theorem dijkstraLoop_zero (g : Network) (e : String) (pq : List (Int × String))
    (dist : List (String × Int)) (parent : List (String × String)) :
    dijkstraLoop g e 0 pq dist parent = (dist, parent, none) := rfl

theorem dijkstraLoop_nil (g : Network) (e : String) (fuel : Nat)
    (dist : List (String × Int)) (parent : List (String × String)) :
    dijkstraLoop g e (fuel + 1) [] dist parent = (dist, parent, none) := rfl

theorem dijkstraLoop_cons (g : Network) (e u : String) (d : Int) (fuel : Nat)
    (pqrest : List (Int × String)) (dist : List (String × Int))
    (parent : List (String × String)) :
    dijkstraLoop g e (fuel + 1) ((d, u) :: pqrest) dist parent =
      if d > dgetI dist u then dijkstraLoop g e fuel pqrest dist parent
      else if u == e then (dist, parent, some (dgetI dist u))
      else
        match dijkstraRelax u (neighbors g u) dist parent pqrest with
        | (dist', parent', pq') => dijkstraLoop g e fuel pq' dist' parent' :=
  rfl

/-- Correctness of the Dijkstra `while` loop: a reported distance is the
shortest walk length (necessarily below `INF`); termination without a
report means every walk to `e` has length at least `INF` (in particular,
that `e` is unreachable whenever distances fit in `int`). -/
theorem dijkstraLoop_spec (g : Network) (wf : GraphWF g) (s e : String) :
    ∀ (fuel : Nat) (pq : List (Int × String)) (dist : List (String × Int))
      (parent : List (String × String)),
      DijkInv g s e pq dist →
      pq.length + dsum dist < fuel →
      (∀ dd : Int, (dijkstraLoop g e fuel pq dist parent).2.2 = some dd →
        ∃ n : Nat, dd = (n : Int) ∧ ShortestWalkLen g s e n ∧ (n : Int) < INF) ∧
      ((dijkstraLoop g e fuel pq dist parent).2.2 = none →
        ∀ n : Nat, Walk g s e n → INF ≤ (n : Int)) := by
  intro fuel
  induction fuel with
  | zero =>
    intro pq dist parent _ hm
    omega
  | succ f ih =>
    intro pq dist parent inv hm
    cases pq with
    | nil =>
      rw [dijkstraLoop_nil]
      constructor
      · intro dd hdd
        cases hdd
      · intro _ n hwalk
        by_contra hcon
        push_neg at hcon
        have hcut := dijk_cut inv hwalk 0 (le_of_eq inv.szero)
          (by push_cast; omega)
        rcases hcut with hleft | ⟨x, j, hent, -, -⟩
        · have hefin : dgetI dist e ≠ INF := by
            intro h
            rw [h] at hleft
            push_cast at hleft
            omega
          have := inv.ecov hefin
          cases this
        · cases hent
    | cons p pqrest =>
      obtain ⟨d, u⟩ := p
      rw [dijkstraLoop_cons]
      by_cases hstale : d > dgetI dist u
      · rw [if_pos hstale]
        have inv' : DijkInv g s e pqrest dist := by
          have hne : ∀ w : String, (dgetI dist w, w) ∈ (d, u) :: pqrest →
              (dgetI dist w, w) ∈ pqrest := by
            intro w hw
            rcases List.mem_cons.mp hw with heq | hw
            · exfalso
              rw [Prod.mk.injEq] at heq
              obtain ⟨h₁, h₂⟩ := heq
              subst h₂
              omega
            · exact hw
          refine ⟨inv.dkeys, inv.dks, (List.pairwise_cons.mp inv.sorted).2,
            inv.nonneg, inv.bound, inv.szero, inv.sound,
            fun p hp => inv.pqB p (List.mem_cons_of_mem _ hp), ?_, ?_⟩
          · intro w hw
            rcases inv.covered w hw with hent | hrel
            · exact Or.inl (hne w hent)
            · exact Or.inr hrel
          · intro hefin
            exact hne e (inv.ecov hefin)
        refine ih pqrest dist parent inv' ?_
        have : ((d, u) :: pqrest).length = pqrest.length + 1 := by simp
        omega
      · rw [if_neg hstale]
        have hd : dgetI dist u = d := by
          have := (inv.pqB (d, u) (List.mem_cons_self _ _)).1
          simp only at this
          omega
        obtain ⟨n, hdn, hsw⟩ := dijk_pop_shortest inv hd
        have hdINF : d < INF := by
          have := (inv.pqB (d, u) (List.mem_cons_self _ _)).2.1
          simpa using this
        by_cases hue : (u == e) = true
        · rw [if_pos hue]
          rw [beq_iff_eq] at hue
          subst hue
          constructor
          · intro dd hdd
            simp only [Option.some.injEq] at hdd
            refine ⟨n, by rw [← hdd, hd, hdn], ?_, by rw [← hdn]; exact hdINF⟩
            exact hsw
          · intro h
            cases h
        · rw [if_neg (by simp [hue])]
          rw [beq_iff_eq] at hue
          have hrel := dijkstraRelax_spec g wf s e u d n hdn hsw.1 hdINF
            (neighbors g u) dist parent pqrest (fun x hx => hx)
            inv.dkeys inv.dks (List.pairwise_cons.mp inv.sorted).2
            inv.nonneg inv.bound inv.szero inv.sound
            (fun p hp => inv.pqB p (List.mem_cons_of_mem _ hp))
            (by
              intro w hwu hwfin
              rcases inv.covered w hwfin with hent | hrel
              · left
                rcases List.mem_cons.mp hent with heq | hent
                · exfalso
                  rw [Prod.mk.injEq] at heq
                  exact hwu heq.2
                · exact hent
              · exact Or.inr hrel)
            (fun x hx hnx => absurd hx hnx)
            hd
            (by
              intro hefin
              have := inv.ecov hefin
              rcases List.mem_cons.mp this with heq | hent
              · exfalso
                rw [Prod.mk.injEq] at heq
                exact hue heq.2.symm
              · exact hent)
          rcases hrelax : dijkstraRelax u (neighbors g u) dist parent pqrest
            with ⟨dist', parent', pq'⟩
          rw [hrelax] at hrel
          obtain ⟨inv', hmeas⟩ := hrel
          simp only at inv' hmeas
          simp only
          refine ih pq' dist' parent' inv' ?_
          have : ((d, u) :: pqrest).length = pqrest.length + 1 := by simp
          omega

/-- The initial Dijkstra state satisfies the loop invariant, within fuel. -/
theorem dijkstra_init (g : Network) (wf : GraphWF g) {s e : String}
    (hs : s ∈ keys g) (he : e ∈ keys g) (hse : s ≠ e) :
    DijkInv g s e [(0, s)] (alPut s 0 (initDistD g)) ∧
    ([(0, s)] : List (Int × String)).length +
        dsum (alPut s 0 (initDistD g)) < dijkstraFuel g := by
  have hINFpos : (0 : Int) < INF := by decide
  have hks₀ : KSorted (initDistD g) := by
    rw [KSorted, map_fst_initDistD]
    exact wf.ksorted
  have hkeys₀ : (initDistD g).map Prod.fst = keys g := map_fst_initDistD g
  have hmem₀ : s ∈ (initDistD g).map Prod.fst := by rw [hkeys₀]; exact hs
  have hself : dgetI (alPut s 0 (initDistD g)) s = 0 := by
    rw [dgetI, alGet_alPut_self]
    rfl
  have hother : ∀ v : String, v ≠ s →
      dgetI (alPut s 0 (initDistD g)) v = INF := by
    intro v hv
    rw [dgetI, alGet_alPut_ne _ hv, alGet_initDistD]
    cases alGet g v <;> simp
  constructor
  · refine ⟨?_, ?_, ?_, ?_, ?_, hself, ?_, ?_, ?_, ?_⟩
    · rw [map_fst_alPut_mem _ hks₀ hmem₀, hkeys₀]
    · exact alPut_ksorted _ _ hks₀
    · simp
    · intro v
      by_cases h : v = s
      · subst h
        rw [hself]
      · rw [hother v h]
        omega
    · intro v
      by_cases h : v = s
      · subst h
        rw [hself]
        omega
      · rw [hother v h]
    · intro v hv
      by_cases h : v = s
      · subst h
        exact ⟨0, by rw [hself]; rfl, Walk.nil v⟩
      · exact absurd (hother v h) hv
    · intro p hp
      rcases List.mem_singleton.mp hp with rfl
      exact ⟨by rw [hself], by simpa using hINFpos,
        0, rfl, Walk.nil s⟩
    · intro w hw
      by_cases h : w = s
      · subst h
        left
        rw [hself]
        exact List.mem_singleton_self _
      · exact absurd (hother w h) hw
    · intro hefin
      exact absurd (hother e (Ne.symm hse)) hefin
  · have hbd : ∀ p ∈ alPut s 0 (initDistD g), p.2 ≤ INF := by
      intro p hp
      rcases mem_alPut hp with rfl | hp
      · simpa using le_of_lt hINFpos
      · rw [initDistD] at hp
        obtain ⟨q, -, rfl⟩ := List.mem_map.mp hp
        exact le_refl _
    have h₁ := dsum_le hbd
    have h₂ : (alPut s 0 (initDistD g)).length = g.length := by
      rw [length_alPut_mem _ hks₀ hmem₀, initDistD, List.length_map]
    rw [h₂] at h₁
    rw [dijkstraFuel]
    simp only [List.length_singleton]
    have : (g.length + 1) * INF.toNat = g.length * INF.toNat + INF.toNat := by
      ring
    omega

theorem shortestPathDijkstra_self {g : Network} {s : String}
    (hs : s ∈ keys g) : shortestPathDijkstra g s s = (0, [s]) := by
  have h : (alGet g s).isNone = false := isNone_false_of_mem_keys hs
  rw [shortestPathDijkstra, if_neg (by simp [h]), if_neg (by simp [h]),
    if_pos (by simp)]

theorem shortestPathDijkstra_run {g : Network} {s e : String}
    (hs : (alGet g s).isNone = false) (he : (alGet g e).isNone = false)
    (hse : (s == e) = false) :
    shortestPathDijkstra g s e =
      match dijkstraLoop g e (dijkstraFuel g) [(0, s)]
          (alPut s 0 (initDistD g)) (initParent g) with
      | (_, parent₁, some dd) =>
        (dd, buildPathD parent₁ (parent₁.length + 1) e [])
      | (_, _, none) => (-1, []) := by
  rw [shortestPathDijkstra, if_neg (by simp [hs]), if_neg (by simp [he]),
    if_neg (by simp [hse])]

/-- Complete characterization of the Dijkstra distance result: a reported
distance is the shortest walk length (below `INF`); the `(-1, [])` sentinel
means every walk to the destination is at least `INF` long — in particular
it appears whenever the endpoints are disconnected. -/
theorem shortestPathDijkstra_char (g : Network) (wf : GraphWF g)
    {s e : String} (hs : s ∈ keys g) (he : e ∈ keys g) :
    (∃ n : Nat, ShortestWalkLen g s e n ∧
      (shortestPathDijkstra g s e).1 = (n : Int) ∧ (n : Int) < INF) ∨
    ((∀ n : Nat, Walk g s e n → INF ≤ (n : Int)) ∧
      shortestPathDijkstra g s e = (-1, [])) := by
  by_cases hse : s = e
  · subst hse
    left
    refine ⟨0, shortest_self g s, ?_, by decide⟩
    rw [shortestPathDijkstra_self hs]
    rfl
  · have hs' : (alGet g s).isNone = false := isNone_false_of_mem_keys hs
    have he' : (alGet g e).isNone = false := isNone_false_of_mem_keys he
    obtain ⟨inv, hmeas⟩ := dijkstra_init g wf hs he hse
    obtain ⟨hfound, hnone⟩ := dijkstraLoop_spec g wf s e (dijkstraFuel g)
      [(0, s)] (alPut s 0 (initDistD g)) (initParent g) inv hmeas
    rw [shortestPathDijkstra_run hs' he' (by simp [hse])]
    rcases hloop : dijkstraLoop g e (dijkstraFuel g) [(0, s)]
      (alPut s 0 (initDistD g)) (initParent g) with ⟨d₁, p₁, found⟩
    rw [hloop] at hfound hnone
    cases found with
    | some dd =>
      left
      obtain ⟨n, rfl, hsw, hINF⟩ := hfound dd rfl
      exact ⟨n, hsw, rfl, hINF⟩
    | none =>
      right
      exact ⟨hnone rfl, rfl⟩

/-! ## Claim C8: disconnected endpoints -/

/-- A concrete BFS sentinel answer certifies disconnectedness. -/
theorem no_walk_of_bfs_sentinel {g : Network} (wf : GraphWF g) {s e : String}
    (hs : s ∈ keys g) (he : e ∈ keys g)
    (hrun : shortestPathBFS g s e = (-1, [])) :
    ∀ n : Nat, ¬ Walk g s e n := by
  rcases shortestPathBFS_char g wf hs he with ⟨n, -, hfst⟩ | ⟨hnw, -⟩
  · rw [hrun] at hfst
    omega
  · exact hnw

/-- C8: on every reachable graph state, when both endpoints exist but no
walk connects them, both `shortestPathBFS` and `shortestPathDijkstra`
return the no-path outcome `(-1, [])` (a sentinel value, not an error). -/
theorem claim_C8_disconnected (g : Network) (hg : Reachable g) (s e : String)
    (hs : s ∈ keys g) (he : e ∈ keys g) (hdisc : ∀ n : Nat, ¬ Walk g s e n) :
    shortestPathBFS g s e = (-1, []) ∧
    shortestPathDijkstra g s e = (-1, []) := by
  have wf := reachable_wf hg
  constructor
  · rcases shortestPathBFS_char g wf hs he with ⟨n, hsw, -⟩ | ⟨-, heq⟩
    · exact absurd hsw.1 (hdisc n)
    · exact heq
  · rcases shortestPathDijkstra_char g wf hs he with ⟨n, hsw, -, -⟩ | ⟨-, heq⟩
    · exact absurd hsw.1 (hdisc n)
    · exact heq

/-- Witness for C8 at the demo network: `"Alice"` and the isolated user
`"Grace"`. -/
theorem claim_C8_witness :
    shortestPathBFS demoNet "Alice" "Grace" = (-1, []) ∧
    shortestPathDijkstra demoNet "Alice" "Grace" = (-1, []) :=
  claim_C8_disconnected demoNet ⟨demoOps, rfl⟩ "Alice" "Grace" (by decide)
    (by decide)
    (no_walk_of_bfs_sentinel (reachable_wf ⟨demoOps, rfl⟩) (by decide)
      (by decide) (by decide))

/-! ## Walks as vertex lists, and walk shortening

A shortest walk never repeats a vertex, so its length is below the number
of users; this bounds the distances the traversals can ever report. -/

/-- A walk recorded as its vertex list (always nonempty, head = source). -/
inductive WalkV (g : Network) : String → String → List String → Prop
  | nil (u : String) : WalkV g u u [u]
  | cons {u v w : String} {l : List String} (h : v ∈ neighbors g u)
      (t : WalkV g v w l) : WalkV g u w (u :: l)

theorem walkV_head {g : Network} {u w : String} {l : List String}
    (h : WalkV g u w l) : ∃ t : List String, l = u :: t := by
  cases h with
  | nil => exact ⟨[], rfl⟩
  | cons h t => exact ⟨_, rfl⟩

theorem walk_toV {g : Network} {s e : String} {n : Nat} (h : Walk g s e n) :
    ∃ l : List String, WalkV g s e l ∧ l.length = n + 1 := by
  induction h with
  | nil u => exact ⟨[u], WalkV.nil u, rfl⟩
  | cons h t ih =>
    obtain ⟨l, hl, hlen⟩ := ih
    exact ⟨_ :: l, WalkV.cons h hl, by simp [hlen]⟩

theorem walkV_toWalk {g : Network} {s e : String} {l : List String}
    (h : WalkV g s e l) : Walk g s e (l.length - 1) := by
  induction h with
  | nil u => exact Walk.nil u
  | @cons u v w t h ht ih =>
    obtain ⟨t', rfl⟩ := walkV_head ht
    simpa using Walk.cons h ih

theorem walkV_subset_keys {g : Network} (wf : GraphWF g) {s e : String}
    {l : List String} (hs : s ∈ keys g) (h : WalkV g s e l) :
    ∀ x ∈ l, x ∈ keys g := by
  induction h with
  | nil u =>
    intro x hx
    rcases List.mem_singleton.mp hx with rfl
    exact hs
  | @cons u v w t h ht ih =>
    intro x hx
    rcases List.mem_cons.mp hx with rfl | hx
    · exact hs
    · exact ih (contains_iff_mem_keys.mp (wf.closed u v h)) x hx

theorem walkV_suffix {g : Network} {a e : String} {l : List String}
    (h : WalkV g a e l) : ∀ u ∈ l,
      ∃ l' : List String, WalkV g u e l' ∧ l'.length ≤ l.length := by
  induction h with
  | nil b =>
    intro u hu
    rcases List.mem_singleton.mp hu with rfl
    exact ⟨[u], WalkV.nil u, le_refl _⟩
  | @cons b v w t h ht ih =>
    intro u hu
    rcases List.mem_cons.mp hu with rfl | hu
    · exact ⟨u :: t, WalkV.cons h ht, le_refl _⟩
    · obtain ⟨l', hl', hlen⟩ := ih u hu
      exact ⟨l', hl', le_trans hlen (by simp)⟩

theorem walkV_cut {g : Network} {s e : String} {l : List String}
    (h : WalkV g s e l) (hd : ¬ l.Nodup) :
    ∃ l' : List String, WalkV g s e l' ∧ l'.length < l.length := by
  induction h with
  | nil u => exact absurd (List.nodup_singleton u) hd
  | @cons u v w t h ht ih =>
    by_cases hu : u ∈ t
    · obtain ⟨l', hl', hlen⟩ := walkV_suffix ht u hu
      exact ⟨l', hl', lt_of_le_of_lt hlen (by simp)⟩
    · have hdt : ¬ t.Nodup := by
        intro hdt
        exact hd (List.nodup_cons.mpr ⟨hu, hdt⟩)
      obtain ⟨l', hl', hlen⟩ := ih hdt
      exact ⟨u :: l', WalkV.cons h hl', by simpa using hlen⟩

/-- A shortest walk length is below the number of users in the graph. -/
theorem shortest_lt_card {g : Network} (wf : GraphWF g) {s e : String}
    {n : Nat} (hs : s ∈ keys g) (h : ShortestWalkLen g s e n) :
    n < g.length := by
  obtain ⟨l, hl, hlen⟩ := walk_toV h.1
  by_cases hd : l.Nodup
  · have hsub : l ⊆ keys g := fun x hx => walkV_subset_keys wf hs hl x hx
    have hle : l.length ≤ (keys g).length :=
      (List.subperm_of_subset hd hsub).length_le
    rw [hlen] at hle
    have : (keys g).length = g.length := List.length_map _ _
    omega
  · exfalso
    obtain ⟨l', hl', hlt⟩ := walkV_cut hl hd
    obtain ⟨t', rfl⟩ := walkV_head hl'
    have hwalk := walkV_toWalk hl'
    have hmin := h.2 _ hwalk
    simp only [List.length_cons] at hlt hmin
    omega

/-! ## Claim C2: agreement of the two traversals -/

/-- The original C2 claim fails on graphs whose shortest distance reaches
`INF = INT_MAX`: `dist[u] != INF` then blocks the last relaxation, so
Dijkstra reports the no-path sentinel while BFS reports the distance.
This needs about `2^31` users, so the refutation is by a symbolic chain
graph, constructed after the completeness lemma below. -/
theorem claim_C2_bfs_dijkstra_amended (g : Network) (hg : Reachable g)
    (hsize : g.length ≤ INF.toNat) (s e : String)
    (hs : s ∈ keys g) (he : e ∈ keys g) :
    (shortestPathBFS g s e).1 = (shortestPathDijkstra g s e).1 := by
  have wf := reachable_wf hg
  have hINF : ((INF.toNat : Nat) : Int) = INF := by decide
  rcases shortestPathBFS_char g wf hs he with ⟨n, hswB, hB⟩ | ⟨hnw, hBeq⟩
  · have hlt : n < g.length := shortest_lt_card wf hs hswB
    have hnINF : (n : Int) < INF := by
      rw [← hINF]
      exact_mod_cast lt_of_lt_of_le hlt hsize
    rcases shortestPathDijkstra_char g wf hs he with
      ⟨m, hswD, hD, -⟩ | ⟨hfar, -⟩
    · rw [hB, hD, shortest_unique hswB hswD]
    · exact absurd (hfar n hswB.1) (by omega)
  · rcases shortestPathDijkstra_char g wf hs he with
      ⟨m, hswD, -, -⟩ | ⟨-, hDeq⟩
    · exact absurd hswD.1 (hnw m)
    · rw [hBeq, hDeq]

/-- Witness for the amended C2 at the demo network. -/
theorem claim_C2_witness :
    (shortestPathBFS demoNet "Alice" "Eve").1 =
      (shortestPathDijkstra demoNet "Alice" "Eve").1 :=
  claim_C2_bfs_dijkstra_amended demoNet ⟨demoOps, rfl⟩ (by decide)
    "Alice" "Eve" (by decide) (by decide)

/-! ## Completeness: every well-formed graph state is reachable

The converse of `reachable_wf`: any sorted, closed, symmetric adjacency
structure is the result of some call sequence. Used to produce very large
program states without running the operations concretely. -/

theorem al_ext {α : Type} :
    ∀ {m₁ m₂ : List (String × α)}, KSorted m₁ → KSorted m₂ →
      (∀ k, alGet m₁ k = alGet m₂ k) → m₁ = m₂ := by
  intro m₁
  induction m₁ with
  | nil =>
    intro m₂ _ _ h
    cases m₂ with
    | nil => rfl
    | cons p t =>
      exfalso
      have := h p.1
      rw [show alGet (p :: t) p.1 = some p.2 by
        rcases p with ⟨k, v⟩
        simp [alGet]] at this
      cases this
  | cons p t₁ ih =>
    intro m₂ hs₁ hs₂ h
    obtain ⟨k₁, v₁⟩ := p
    cases m₂ with
    | nil =>
      exfalso
      have := h k₁
      rw [show alGet ((k₁, v₁) :: t₁) k₁ = some v₁ by simp [alGet]] at this
      cases this
    | cons q t₂ =>
      obtain ⟨k₂, v₂⟩ := q
      rw [KSorted, List.map_cons, List.pairwise_cons] at hs₁ hs₂
      have hkeq : k₁ = k₂ := by
        by_contra hne
        have h₁ : alGet ((k₂, v₂) :: t₂) k₁ = some v₁ := by
          rw [← h k₁]
          simp [alGet]
        have h₂ : alGet ((k₁, v₁) :: t₁) k₂ = some v₂ := by
          rw [h k₂]
          simp [alGet]
        rw [show alGet ((k₂, v₂) :: t₂) k₁ =
            if k₁ == k₂ then some v₂ else alGet t₂ k₁ from rfl] at h₁
        rw [if_neg (by simp [hne])] at h₁
        rw [show alGet ((k₁, v₁) :: t₁) k₂ =
            if k₂ == k₁ then some v₁ else alGet t₁ k₂ from rfl] at h₂
        rw [if_neg (by simp [Ne.symm hne])] at h₂
        have hm₁ : k₁ ∈ t₂.map Prod.fst := by
          rw [← alGet_isSome_iff, h₁]
          rfl
        have hm₂ : k₂ ∈ t₁.map Prod.fst := by
          rw [← alGet_isSome_iff, h₂]
          rfl
        exact absurd (hs₁.1 k₂ hm₂) (by rw [strLt_asymm (hs₂.1 k₁ hm₁)]; simp)
      subst hkeq
      have hveq : v₁ = v₂ := by
        have := h k₁
        simp [alGet] at this
        exact this
      subst hveq
      have htail : t₁ = t₂ := by
        refine ih hs₁.2 hs₂.2 ?_
        intro k
        by_cases hk : k = k₁
        · subst hk
          have h₁ : alGet t₁ k = none := by
            rw [alGet_eq_none_iff]
            intro hmem
            exact absurd (hs₁.1 k hmem) (by rw [strLt_irrefl]; simp)
          have h₂ : alGet t₂ k = none := by
            rw [alGet_eq_none_iff]
            intro hmem
            exact absurd (hs₂.1 k hmem) (by rw [strLt_irrefl]; simp)
          rw [h₁, h₂]
        · have := h k
          rw [show alGet ((k₁, v₁) :: t₁) k =
              if k == k₁ then some v₁ else alGet t₁ k from rfl,
            show alGet ((k₁, v₁) :: t₂) k =
              if k == k₁ then some v₁ else alGet t₂ k from rfl,
            if_neg (by simp [hk]), if_neg (by simp [hk])] at this
          exact this
      rw [htail]

theorem alGet_eq_some_neighbors {g : Network} {u : String}
    (hu : u ∈ keys g) : alGet g u = some (neighbors g u) := by
  have hsome : (alGet g u).isSome = true := alGet_isSome_iff.mpr hu
  cases h : alGet g u with
  | none => rw [h] at hsome; cases hsome
  | some l => rw [neighbors_of_alGet_some h]

theorem insertSorted_cons_of_lt {x : String} {l : List String}
    (h : ∀ y ∈ l, strLt x y = true) : insertSorted x l = x :: l := by
  cases l with
  | nil => rfl
  | cons y ys => rw [insertSorted, if_pos (h y (List.mem_cons_self _ _))]

theorem insertSorted_erase {x : String} :
    ∀ {l : List String}, SSorted l → x ∈ l →
      insertSorted x (l.erase x) = l := by
  intro l
  induction l with
  | nil => intro _ hx; cases hx
  | cons y ys ih =>
    intro hs hx
    rw [List.erase_cons]
    by_cases hxy : x = y
    · subst hxy
      rw [if_pos (by simp)]
      exact insertSorted_cons_of_lt (List.pairwise_cons.mp hs).1
    · have hys : x ∈ ys := by
        rcases List.mem_cons.mp hx with h | h
        · exact absurd h hxy
        · exact h
      have hyx : strLt y x = true := (List.pairwise_cons.mp hs).1 x hys
      rw [if_neg (by simp [Ne.symm hxy]), insertSorted,
        if_neg (by rw [strLt_asymm hyx]; simp), if_pos hyx,
        ih hs.tail hys]

/-- Remove the stored edge `{u, v}` (both directions; one entry if
`u = v`). -/
def eraseEdge (g : Network) (u v : String) : Network :=
  g.map fun p =>
    (p.1, if p.1 == u then p.2.erase v
      else if p.1 == v then p.2.erase u else p.2)

theorem alGet_mapF {α β : Type} (F : String → α → β) :
    ∀ (m : List (String × α)) (u : String),
      alGet (m.map fun p => (p.1, F p.1 p.2)) u = (alGet m u).map (F u) := by
  intro m
  induction m with
  | nil => intro u; rfl
  | cons p rest ih =>
    intro u
    obtain ⟨k, v⟩ := p
    simp only [List.map_cons, alGet]
    by_cases h : u = k
    · subst h
      simp
    · rw [if_neg (by simp [h]), if_neg (by simp [h]), ih]

theorem alGet_eraseEdge (g : Network) (u v k : String) :
    alGet (eraseEdge g u v) k = (alGet g k).map
      (fun l => if k == u then l.erase v
        else if k == v then l.erase u else l) :=
  @alGet_mapF (List String) (List String)
    (fun w l => if w == u then l.erase v
      else if w == v then l.erase u else l) g k

theorem map_fst_eraseEdge (g : Network) (u v : String) :
    (eraseEdge g u v).map Prod.fst = g.map Prod.fst := by
  rw [eraseEdge, List.map_map]
  rfl

theorem keys_eraseEdge (g : Network) (u v : String) :
    keys (eraseEdge g u v) = keys g := map_fst_eraseEdge g u v

theorem neighbors_eraseEdge (g : Network) (u v k : String) :
    neighbors (eraseEdge g u v) k =
      if k == u then (neighbors g k).erase v
      else if k == v then (neighbors g k).erase u else neighbors g k := by
  rw [neighbors, alGet_eraseEdge]
  cases h : alGet g k with
  | none =>
    rw [neighbors, h]
    simp only [Option.map_none', Option.getD_none, List.erase_nil]
    split
    · rfl
    · split <;> rfl
  | some l =>
    rw [neighbors_of_alGet_some h]
    rfl

theorem alGet_eraseEdge_other {g : Network} {u v k : String} (hku : k ≠ u)
    (hkv : k ≠ v) : alGet (eraseEdge g u v) k = alGet g k := by
  rw [alGet_eraseEdge]
  cases alGet g k with
  | none => rfl
  | some l =>
    simp only [Option.map_some']
    rw [if_neg (by simp [hku]), if_neg (by simp [hkv])]

theorem mem_neighbors_eraseEdge_sub {g : Network} {u v k x : String}
    (h : x ∈ neighbors (eraseEdge g u v) k) : x ∈ neighbors g k := by
  rw [neighbors_eraseEdge] at h
  split at h
  · exact (List.erase_sublist _ _).subset h
  · split at h
    · exact (List.erase_sublist _ _).subset h
    · exact h

theorem mem_neighbors_eraseEdge {g : Network} (wf : GraphWF g)
    (u v w x : String) :
    x ∈ neighbors (eraseEdge g u v) w ↔
      x ∈ neighbors g w ∧ ¬(w = u ∧ x = v) ∧ ¬(w ≠ u ∧ w = v ∧ x = u) := by
  rw [neighbors_eraseEdge]
  by_cases hwu : w = u
  · rw [if_pos (by simp [hwu]), hwu,
      ((wf.nbrs_sorted u).nodup).mem_erase_iff]
    constructor
    · rintro ⟨hxv, hxm⟩
      exact ⟨hxm, fun hh => hxv hh.2, fun hh => hh.1 rfl⟩
    · rintro ⟨hxm, h₁, -⟩
      exact ⟨fun hh => h₁ ⟨rfl, hh⟩, hxm⟩
  · rw [if_neg (by simp [hwu])]
    by_cases hwv : w = v
    · rw [if_pos (by simp [hwv]), hwv,
        ((wf.nbrs_sorted v).nodup).mem_erase_iff]
      constructor
      · rintro ⟨hxu, hxm⟩
        exact ⟨hxm, fun hh => hwu (hwv.trans hh.1), fun hh => hxu hh.2.2⟩
      · rintro ⟨hxm, -, h₂⟩
        exact ⟨fun hh => h₂ ⟨fun hvu => hwu (hwv.trans hvu), rfl, hh⟩, hxm⟩
    · rw [if_neg (by simp [hwv])]
      constructor
      · intro hxm
        exact ⟨hxm, fun hh => hwu hh.1, fun hh => hwv hh.2.1⟩
      · exact fun hh => hh.1

theorem eraseEdge_wf {g : Network} (wf : GraphWF g) (u v : String) :
    GraphWF (eraseEdge g u v) := by
  refine ⟨?_, ?_, ?_, ?_⟩
  · rw [KSorted, map_fst_eraseEdge]
    exact wf.ksorted
  · intro p hp
    rw [eraseEdge] at hp
    obtain ⟨q, hq, rfl⟩ := List.mem_map.mp hp
    have hsq := wf.nbrsSorted q hq
    simp only
    split
    · exact hsq.sublist (List.erase_sublist _ _)
    · split
      · exact hsq.sublist (List.erase_sublist _ _)
      · exact hsq
  · intro w x hx
    have := wf.closed w x (mem_neighbors_eraseEdge_sub hx)
    rw [contains_iff_mem_keys] at this ⊢
    rw [keys_eraseEdge]
    exact this
  · intro w x hx
    rw [mem_neighbors_eraseEdge wf] at hx ⊢
    obtain ⟨hA, hB, hC⟩ := hx
    refine ⟨wf.symm w x hA, ?_, ?_⟩
    · rintro ⟨hxu, hwv⟩
      by_cases hwu : w = u
      · exact hB ⟨hwu, hxu.trans (hwu.symm.trans hwv)⟩
      · exact hC ⟨hwu, hwv, hxu⟩
    · rintro ⟨-, hxv, hwu⟩
      exact hB ⟨hwu, hxv⟩

/-- The total number of stored directed edges. -/
def edgeCount (g : Network) : Nat := (g.map fun p => p.2.length).sum

theorem mapSum_lt {β : Type} :
    ∀ (l : List β) (f h : β → Nat), (∀ b ∈ l, f b ≤ h b) →
      (∃ b ∈ l, f b < h b) → (l.map f).sum < (l.map h).sum := by
  intro l
  induction l with
  | nil =>
    intro f h _ hex
    obtain ⟨b, hb, -⟩ := hex
    cases hb
  | cons a l ih =>
    intro f h hle hex
    simp only [List.map_cons, List.sum_cons]
    rcases hex with ⟨b, hb, hblt⟩
    rcases List.mem_cons.mp hb with rfl | hb
    · have : (l.map f).sum ≤ (l.map h).sum := by
        clear ih hb
        induction l with
        | nil => exact le_refl _
        | cons c t iht =>
          simp only [List.map_cons, List.sum_cons]
          have h₁ := hle c (by simp)
          have h₂ := iht (fun x hx => hle x (by
            rcases List.mem_cons.mp hx with rfl | hx
            · exact List.mem_cons_self _ _
            · exact List.mem_cons_of_mem _ (List.mem_cons_of_mem _ hx)))
          omega
      have := hle b (List.mem_cons_self _ _)
      omega
    · have h₁ := hle a (List.mem_cons_self _ _)
      have h₂ := ih f h (fun x hx => hle x (List.mem_cons_of_mem _ hx))
        ⟨b, hb, hblt⟩
      omega

theorem edgeCount_eraseEdge_lt {g : Network} {u v : String}
    (h : v ∈ neighbors g u) (hu : u ∈ keys g) :
    edgeCount (eraseEdge g u v) < edgeCount g := by
  have halu : alGet g u = some (neighbors g u) := alGet_eq_some_neighbors hu
  have hmem : (u, neighbors g u) ∈ g := alGet_mem halu
  rw [edgeCount, edgeCount, eraseEdge, List.map_map]
  refine mapSum_lt g _ _ ?_ ⟨(u, neighbors g u), hmem, ?_⟩
  · intro p _
    simp only [Function.comp]
    split
    · exact (List.erase_sublist _ _).length_le
    · split
      · exact (List.erase_sublist _ _).length_le
      · exact le_refl _
  · simp only [Function.comp]
    rw [if_pos (by simp)]
    have hlen := List.length_erase_of_mem h
    have hpos : 0 < (neighbors g u).length := List.length_pos_of_mem h
    omega

/-- Re-adding an erased edge restores the graph exactly. -/
theorem addFriendship_eraseEdge {g : Network} (wf : GraphWF g)
    {u v : String} (hu : u ∈ keys g) (hv : v ∈ keys g)
    (h : v ∈ neighbors g u) :
    addFriendship (eraseEdge g u v) u v = g := by
  have hvu : u ∈ neighbors g v := wf.symm u v h
  have wf' := eraseEdge_wf wf u v
  have hcu : contains (eraseEdge g u v) u = true := by
    rw [contains_iff_mem_keys, keys_eraseEdge]
    exact hu
  have hcv : contains (eraseEdge g u v) v = true := by
    rw [contains_iff_mem_keys, keys_eraseEdge]
    exact hv
  rw [addFriendship, addFriendshipR, if_pos (by rw [hcu, hcv]; rfl)]
  simp only
  have hnb' : neighbors (eraseEdge g u v) u = (neighbors g u).erase v := by
    rw [neighbors_eraseEdge, if_pos (by simp)]
  have hins : insertSorted v ((neighbors g u).erase v) = neighbors g u :=
    insertSorted_erase (wf.nbrs_sorted u) h
  by_cases huv : u = v
  · subst huv
    rw [hnb', hins]
    refine al_ext (alPut_ksorted _ _ (alPut_ksorted _ _ wf'.ksorted))
      wf.ksorted ?_
    intro k
    by_cases hk : k = u
    · rw [hk, alGet_alPut_self, alGet_eq_some_neighbors hu]
      congr 1
      rw [neighbors_alPut_self]
      exact insertSorted_of_mem (wf.nbrs_sorted u) h
    · rw [alGet_alPut_ne _ hk, alGet_alPut_ne _ hk,
        alGet_eraseEdge_other hk hk]
  · refine al_ext (alPut_ksorted _ _ (alPut_ksorted _ _ wf'.ksorted))
      wf.ksorted ?_
    intro k
    by_cases hkv : k = v
    · rw [hkv, alGet_alPut_self, alGet_eq_some_neighbors hv]
      congr 1
      rw [neighbors_alPut_ne _ (Ne.symm huv), neighbors_eraseEdge,
        if_neg (by simp [Ne.symm huv]), if_pos (by simp)]
      exact insertSorted_erase (wf.nbrs_sorted v) hvu
    · rw [alGet_alPut_ne _ hkv]
      by_cases hku : k = u
      · rw [hku, alGet_alPut_self, alGet_eq_some_neighbors hu]
        congr 1
        rw [hnb']
        exact hins
      · rw [alGet_alPut_ne _ hku, alGet_eraseEdge_other hku hkv]

theorem alPut_append {α : Type} :
    ∀ {m : List (String × α)} {k : String} (v : α),
      (∀ w ∈ m.map Prod.fst, strLt w k = true) →
      alPut k v m = m ++ [(k, v)] := by
  intro m
  induction m with
  | nil => intro k v _; rfl
  | cons p rest ih =>
    intro k v h
    obtain ⟨k', v'⟩ := p
    have hk' : strLt k' k = true := h k' (by simp)
    rw [alPut, if_neg (by rw [strLt_asymm hk']; simp), if_pos hk',
      ih v (fun w hw => h w (by simp [hw]))]
    rfl

theorem foldl_addUser_sorted :
    ∀ (ks : List String) (st : Network), KSorted st →
      (∀ k ∈ ks, ∀ w ∈ keys st, strLt w k = true) → SSorted ks →
      List.foldl addUser st ks = st ++ ks.map (fun k => (k, [])) := by
  intro ks
  induction ks with
  | nil => intro st _ _ _; simp
  | cons k ks ih =>
    intro st hks hgt hss
    have hnc : (alGet st k).isSome = false := by
      rw [Bool.eq_false_iff]
      intro hsome
      have hmem : k ∈ keys st := alGet_isSome_iff.mp hsome
      have := hgt k (List.mem_cons_self _ _) k hmem
      rw [strLt_irrefl] at this
      cases this
    have hstep : addUser st k = st ++ [(k, [])] := by
      rw [addUser, if_neg (by simp [hnc])]
      exact alPut_append [] (fun w hw => hgt k (List.mem_cons_self _ _) w hw)
    have hks' : KSorted (st ++ [(k, [])]) := by
      rw [KSorted, List.map_append, List.pairwise_append]
      refine ⟨hks, by simp [List.pairwise_cons], ?_⟩
      intro a ha b hb
      simp only [List.map_cons, List.map_nil, List.mem_singleton] at hb
      rw [hb]
      exact hgt k (List.mem_cons_self _ _) a ha
    have hgt' : ∀ k' ∈ ks, ∀ w ∈ keys (st ++ [(k, [])]),
        strLt w k' = true := by
      intro k' hk' w hw
      rw [keys, List.map_append] at hw
      rcases List.mem_append.mp hw with hw | hw
      · exact hgt k' (List.mem_cons_of_mem _ hk') w hw
      · simp only [List.map_cons, List.map_nil, List.mem_singleton] at hw
        rw [hw]
        exact (List.pairwise_cons.mp hss).1 k' hk'
    rw [List.foldl_cons, hstep, ih (st ++ [(k, [])]) hks' hgt' hss.tail]
    simp

theorem eq_users_of_no_edges :
    ∀ {g : Network}, (∀ p ∈ g, p.2 = ([] : List String)) →
      g = (keys g).map (fun k => (k, [])) := by
  intro g
  induction g with
  | nil => intro _; rfl
  | cons p rest ih =>
    intro h
    obtain ⟨k, l⟩ := p
    have hl : l = [] := h (k, l) (by simp)
    subst hl
    have htail := ih (fun p hp => h p (List.mem_cons_of_mem _ hp))
    rw [keys, List.map_cons, List.map_cons]
    rw [keys] at htail
    exact congrArg (List.cons (k, [])) htail

/-- Completeness of the operational model: every well-formed adjacency
structure is a reachable program state. -/
theorem wf_reachable_aux :
    ∀ (n : Nat) (g : Network), edgeCount g = n → GraphWF g → Reachable g := by
  intro n
  induction n using Nat.strong_induction_on with
  | _ n ih =>
    intro g hn wf
    by_cases h0 : edgeCount g = 0
    · have hemp : ∀ p ∈ g, p.2 = ([] : List String) := by
        intro p hp
        rw [edgeCount] at h0
        have := (List.sum_eq_zero_iff).mp h0 p.2.length
          (List.mem_map.mpr ⟨p, hp, rfl⟩)
        exact List.length_eq_zero.mp this
      refine ⟨(keys g).map Op.user, ?_⟩
      have hfold : run ((keys g).map Op.user) =
          List.foldl addUser [] (keys g) := by
        rw [run, List.foldl_map]
        rfl
      rw [hfold, foldl_addUser_sorted (keys g) []
        (by rw [KSorted]; exact List.Pairwise.nil)
        (by intro k _ w hw; cases hw) wf.ksorted]
      rw [List.nil_append]
      exact (eq_users_of_no_edges hemp).symm
    · have hex : ∃ p ∈ g, p.2 ≠ ([] : List String) := by
        by_contra hall
        push_neg at hall
        apply h0
        rw [edgeCount]
        refine List.sum_eq_zero_iff.mpr ?_
        intro x hx
        obtain ⟨p, hp, rfl⟩ := List.mem_map.mp hx
        rw [hall p hp]
        rfl
      obtain ⟨⟨u, lu⟩, hp, hpne⟩ := hex
      obtain ⟨v, hv⟩ : ∃ v, v ∈ lu := by
        cases lu with
        | nil => exact absurd rfl hpne
        | cons a t => exact ⟨a, List.mem_cons_self _ _⟩
      have halu : alGet g u = some lu := (mem_iff_alGet wf.ksorted).mp hp
      have hvnb : v ∈ neighbors g u := by
        rw [neighbors_of_alGet_some halu]
        exact hv
      have hu : u ∈ keys g := alGet_isSome_iff.mp (by rw [halu]; rfl)
      have hvk : v ∈ keys g :=
        contains_iff_mem_keys.mp (wf.closed u v hvnb)
      have wf' := eraseEdge_wf wf u v
      have hlt : edgeCount (eraseEdge g u v) < edgeCount g :=
        edgeCount_eraseEdge_lt hvnb hu
      obtain ⟨ops, hops⟩ :=
        ih (edgeCount (eraseEdge g u v)) (by omega) _ rfl wf'
      refine ⟨ops ++ [Op.link u v], ?_⟩
      rw [run, List.foldl_append]
      rw [show (ops.foldl applyOp [] : Network) = run ops from rfl, hops]
      exact addFriendship_eraseEdge wf hu hvk hvnb

theorem wf_reachable {g : Network} (wf : GraphWF g) : Reachable g :=
  wf_reachable_aux (edgeCount g) g rfl wf

/-! ## A chain graph with distance `INF`

`claim_C2_bfs_dijkstra_amended` needs its size bound: on a path graph of
`INF + 1` users the two traversals disagree. Labels are fixed-width binary
strings, so label order matches index order and the chain is a sorted
association list. -/

/-- `w` binary digits of `i`, most significant first. -/
def bin : Nat → Nat → List Char
  | 0, _ => []
  | w + 1, i => bin w (i / 2) ++ [if i % 2 == 1 then '1' else '0']

/-- The label of chain node `i`: 32 binary digits. -/
def lab (i : Nat) : String := String.mk (bin 32 i)

theorem length_bin : ∀ (w i : Nat), (bin w i).length = w := by
  intro w
  induction w with
  | zero => intro i; rfl
  | succ v ih =>
    intro i
    rw [bin, List.length_append, ih]
    rfl

theorem strLtL_append_of_lt :
    ∀ {l₁ l₂ : List Char} (t₁ t₂ : List Char), l₁.length = l₂.length →
      strLtL l₁ l₂ = true → strLtL (l₁ ++ t₁) (l₂ ++ t₂) = true := by
  intro l₁
  induction l₁ with
  | nil =>
    intro l₂ t₁ t₂ hlen h
    cases l₂ with
    | nil => rw [strLtL] at h; cases h
    | cons d ds => cases hlen
  | cons c cs ih =>
    intro l₂ t₁ t₂ hlen h
    cases l₂ with
    | nil => cases hlen
    | cons d ds =>
      rw [strLtL] at h
      rw [List.cons_append, List.cons_append, strLtL]
      by_cases h₁ : c.toNat < d.toNat
      · rw [if_pos h₁]
      · rw [if_neg h₁] at h ⊢
        by_cases h₂ : d.toNat < c.toNat
        · rw [if_pos h₂] at h
          cases h
        · rw [if_neg h₂] at h ⊢
          exact ih t₁ t₂ (by simpa using hlen) h

theorem strLtL_append_same :
    ∀ (l t₁ t₂ : List Char), strLtL (l ++ t₁) (l ++ t₂) = strLtL t₁ t₂ := by
  intro l
  induction l with
  | nil => intro t₁ t₂; rfl
  | cons c cs ih =>
    intro t₁ t₂
    rw [List.cons_append, List.cons_append, strLtL,
      if_neg (lt_irrefl c.toNat), if_neg (lt_irrefl c.toNat)]
    exact ih t₁ t₂

theorem bin_lt : ∀ (w i j : Nat), i < j → j < 2 ^ w →
    strLtL (bin w i) (bin w j) = true := by
  intro w
  induction w with
  | zero =>
    intro i j hij hj
    rw [pow_zero] at hj
    omega
  | succ v ih =>
    intro i j hij hj
    have hj2 : j / 2 < 2 ^ v := by
      rw [Nat.div_lt_iff_lt_mul (by omega)]
      rw [pow_succ] at hj
      omega
    rw [bin, bin]
    by_cases hq : i / 2 < j / 2
    · exact strLtL_append_of_lt _ _ (by rw [length_bin, length_bin])
        (ih (i / 2) (j / 2) hq hj2)
    · have hqe : i / 2 = j / 2 := by omega
      have hi0 : i % 2 = 0 := by omega
      have hj1 : j % 2 = 1 := by omega
      rw [hqe, strLtL_append_same, hi0, hj1]
      decide

theorem strLt_lab {i j : Nat} (hij : i < j) (hj : j < 2 ^ 32) :
    strLt (lab i) (lab j) = true :=
  bin_lt 32 i j hij hj

theorem lab_inj {i j : Nat} (hi : i < 2 ^ 32) (hj : j < 2 ^ 32)
    (h : lab i = lab j) : i = j := by
  by_contra hne
  rcases Nat.lt_or_ge i j with hlt | hge
  · exact absurd h (strLt_ne (strLt_lab hlt hj))
  · have hlt : j < i := by omega
    exact absurd h.symm (strLt_ne (strLt_lab hlt hi))

/-- The neighbor set of chain node `i` on the path `0 — 1 — ⋯ — N`. -/
def chainNbrs (N i : Nat) : List String :=
  if i = 0 then [lab 1]
  else if i = N then [lab (N - 1)]
  else [lab (i - 1), lab (i + 1)]

/-- The path graph on nodes `lab 0, …, lab N`. -/
def chainNet (N : Nat) : Network :=
  (List.range (N + 1)).map fun i => (lab i, chainNbrs N i)

theorem keys_chainNet (N : Nat) :
    keys (chainNet N) = (List.range (N + 1)).map lab := by
  rw [keys, chainNet, List.map_map]
  rfl

theorem mem_keys_chainNet {N : Nat} {u : String} :
    u ∈ keys (chainNet N) ↔ ∃ i, i ≤ N ∧ u = lab i := by
  rw [keys_chainNet]
  constructor
  · intro hu
    obtain ⟨i, hi, rfl⟩ := List.mem_map.mp hu
    have := List.mem_range.mp hi
    exact ⟨i, by omega, rfl⟩
  · rintro ⟨i, hi, rfl⟩
    exact List.mem_map.mpr ⟨i, List.mem_range.mpr (by omega), rfl⟩

theorem lab_mem_keys {N i : Nat} (hi : i ≤ N) :
    lab i ∈ keys (chainNet N) := by
  rw [keys_chainNet]
  exact List.mem_map.mpr ⟨i, List.mem_range.mpr (by omega), rfl⟩

theorem ksorted_chainNet {N : Nat} (hN2 : N + 1 < 2 ^ 32) :
    KSorted (chainNet N) := by
  rw [KSorted, show (chainNet N).map Prod.fst = keys (chainNet N) from rfl,
    keys_chainNet, List.pairwise_map]
  refine (List.pairwise_lt_range (N + 1)).imp_of_mem ?_
  intro a b ha hb hab
  have hb' : b < N + 1 := List.mem_range.mp hb
  exact strLt_lab hab (by omega)

theorem alGet_chainNet {N i : Nat} (hN2 : N + 1 < 2 ^ 32) (hi : i ≤ N) :
    alGet (chainNet N) (lab i) = some (chainNbrs N i) := by
  refine (mem_iff_alGet (ksorted_chainNet hN2)).mp ?_
  rw [chainNet]
  exact List.mem_map.mpr ⟨i, List.mem_range.mpr (by omega), rfl⟩

theorem neighbors_chainNet {N i : Nat} (hN2 : N + 1 < 2 ^ 32) (hi : i ≤ N) :
    neighbors (chainNet N) (lab i) = chainNbrs N i :=
  neighbors_of_alGet_some (alGet_chainNet hN2 hi)

theorem mem_chainNbrs {N i : Nat} (hN1 : 1 ≤ N) (hi : i ≤ N) {x : String} :
    x ∈ chainNbrs N i ↔
      ∃ j, x = lab j ∧ j ≤ N ∧ (i + 1 = j ∨ j + 1 = i) := by
  rw [chainNbrs]
  by_cases h0 : i = 0
  · rw [if_pos h0]
    constructor
    · intro hx
      rcases List.mem_singleton.mp hx with rfl
      exact ⟨1, rfl, hN1, Or.inl (by omega)⟩
    · rintro ⟨j, rfl, hj, hrel⟩
      rcases hrel with hrel | hrel
      · rw [show j = 1 by omega]
        exact List.mem_singleton_self _
      · omega
  · rw [if_neg h0]
    by_cases hNi : i = N
    · rw [if_pos hNi]
      constructor
      · intro hx
        rcases List.mem_singleton.mp hx with rfl
        exact ⟨N - 1, rfl, by omega, Or.inr (by omega)⟩
      · rintro ⟨j, rfl, hj, hrel⟩
        rcases hrel with hrel | hrel
        · omega
        · rw [show j = N - 1 by omega]
          exact List.mem_singleton_self _
    · rw [if_neg hNi]
      constructor
      · intro hx
        rcases List.mem_cons.mp hx with rfl | hx
        · exact ⟨i - 1, rfl, by omega, Or.inr (by omega)⟩
        · rcases List.mem_singleton.mp hx with rfl
          exact ⟨i + 1, rfl, by omega, Or.inl rfl⟩
      · rintro ⟨j, rfl, hj, hrel⟩
        rcases hrel with hrel | hrel
        · rw [show j = i + 1 by omega]
          exact List.mem_cons_of_mem _ (List.mem_singleton_self _)
        · rw [show j = i - 1 by omega]
          exact List.mem_cons_self _ _

theorem chainNet_wf {N : Nat} (hN1 : 1 ≤ N) (hN2 : N + 1 < 2 ^ 32) :
    GraphWF (chainNet N) := by
  have hnofkey : ∀ (w : String), (∃ l, alGet (chainNet N) w = some l) →
      ∃ i, i ≤ N ∧ w = lab i := by
    intro w hl
    obtain ⟨l, hl⟩ := hl
    refine mem_keys_chainNet.mp ?_
    exact alGet_isSome_iff.mp (by rw [hl]; rfl)
  refine ⟨ksorted_chainNet hN2, ?_, ?_, ?_⟩
  · intro p hp
    rw [chainNet] at hp
    obtain ⟨i, hir, rfl⟩ := List.mem_map.mp hp
    have hi : i ≤ N := by
      have := List.mem_range.mp hir
      omega
    simp only
    rw [chainNbrs]
    by_cases h0 : i = 0
    · rw [if_pos h0]
      exact List.pairwise_singleton _ _
    · rw [if_neg h0]
      by_cases hNi : i = N
      · rw [if_pos hNi]
        exact List.pairwise_singleton _ _
      · rw [if_neg hNi]
        refine List.pairwise_cons.mpr ⟨?_, List.pairwise_singleton _ _⟩
        intro b hb
        rcases List.mem_singleton.mp hb with rfl
        exact strLt_lab (by omega) (by omega)
  · intro w x hx
    cases halt : alGet (chainNet N) w with
    | none =>
      rw [neighbors, halt] at hx
      cases hx
    | some l =>
      obtain ⟨i, hi, rfl⟩ := hnofkey w ⟨l, halt⟩
      rw [neighbors_chainNet hN2 hi, mem_chainNbrs hN1 hi] at hx
      obtain ⟨j, rfl, hj, -⟩ := hx
      rw [contains_iff_mem_keys]
      exact lab_mem_keys hj
  · intro w x hx
    cases halt : alGet (chainNet N) w with
    | none =>
      rw [neighbors, halt] at hx
      cases hx
    | some l =>
      obtain ⟨i, hi, rfl⟩ := hnofkey w ⟨l, halt⟩
      rw [neighbors_chainNet hN2 hi, mem_chainNbrs hN1 hi] at hx
      obtain ⟨j, rfl, hj, hrel⟩ := hx
      rw [neighbors_chainNet hN2 hj, mem_chainNbrs hN1 hj]
      refine ⟨i, rfl, hi, ?_⟩
      rcases hrel with hrel | hrel
      · exact Or.inr hrel
      · exact Or.inl hrel

theorem chain_walk_bound {N : Nat} (hN1 : 1 ≤ N) (hN2 : N + 1 < 2 ^ 32) :
    ∀ {u x : String} {n : Nat}, Walk (chainNet N) u x n →
      ∀ i : Nat, i ≤ N → u = lab i →
        ∃ j : Nat, j ≤ N ∧ x = lab j ∧ i ≤ j + n ∧ j ≤ i + n := by
  intro u x n hw
  induction hw with
  | nil w =>
    intro i hi hu
    exact ⟨i, hi, hu, by omega, by omega⟩
  | @cons a b c m hnb t ih =>
    intro i hi hu
    rw [hu, neighbors_chainNet hN2 hi, mem_chainNbrs hN1 hi] at hnb
    obtain ⟨i', hb, hi', hrel⟩ := hnb
    obtain ⟨j, hj, hx, h₁, h₂⟩ := ih i' hi' hb
    exact ⟨j, hj, hx, by omega, by omega⟩

theorem chain_walk_exists {N : Nat} (hN1 : 1 ≤ N) (hN2 : N + 1 < 2 ^ 32) :
    ∀ (d i : Nat), i + d = N → Walk (chainNet N) (lab i) (lab N) d := by
  intro d
  induction d with
  | zero =>
    intro i hi
    rw [show i = N by omega]
    exact Walk.nil _
  | succ m ih =>
    intro i hi
    refine Walk.cons ?_ (ih (i + 1) (by omega))
    rw [neighbors_chainNet hN2 (by omega), mem_chainNbrs hN1 (by omega)]
    exact ⟨i + 1, rfl, by omega, Or.inl rfl⟩

theorem chain_shortest {N : Nat} (hN1 : 1 ≤ N) (hN2 : N + 1 < 2 ^ 32) :
    ShortestWalkLen (chainNet N) (lab 0) (lab N) N := by
  constructor
  · exact chain_walk_exists hN1 hN2 N 0 (by omega)
  · intro m hm
    obtain ⟨j, hj, hx, -, h₂⟩ :=
      chain_walk_bound hN1 hN2 hm 0 (by omega) rfl
    have : N = j := lab_inj (by omega) (by omega) hx
    omega

/-- C2 counterexample: on a reachable path graph of `INF + 1` users the two
path functions report different distances for its endpoints — BFS returns
`INF` while Dijkstra's `dist[u] != INF` relaxation guard blocks the final
edge and yields the `-1` no-path sentinel. -/
theorem claim_C2_counterexample :
    ∃ g : Network, Reachable g ∧ ∃ s e : String, s ∈ keys g ∧ e ∈ keys g ∧
      (shortestPathBFS g s e).1 ≠ (shortestPathDijkstra g s e).1 := by
  have hN1 : 1 ≤ INF.toNat := by decide
  have hN2 : INF.toNat + 1 < 2 ^ 32 := by decide
  have hcast : ((INF.toNat : Nat) : Int) = INF := by decide
  have wf := chainNet_wf hN1 hN2
  have hs := lab_mem_keys (show 0 ≤ INF.toNat by omega)
  have he := lab_mem_keys (le_refl INF.toNat)
  refine ⟨chainNet INF.toNat, wf_reachable wf, lab 0, lab INF.toNat,
    hs, he, ?_⟩
  have hsw := chain_shortest hN1 hN2
  have hB : (shortestPathBFS (chainNet INF.toNat) (lab 0)
      (lab INF.toNat)).1 = (INF.toNat : Int) := by
    rcases shortestPathBFS_char _ wf hs he with ⟨n, hswB, hBeq⟩ | ⟨hnw, -⟩
    · rw [hBeq, shortest_unique hswB hsw]
    · exact absurd hsw.1 (hnw INF.toNat)
  have hD : (shortestPathDijkstra (chainNet INF.toNat) (lab 0)
      (lab INF.toNat)).1 = -1 := by
    rcases shortestPathDijkstra_char _ wf hs he with
      ⟨m, hswD, -, hmI⟩ | ⟨-, hDeq⟩
    · exfalso
      rw [shortest_unique hswD hsw, hcast] at hmI
      omega
    · rw [hDeq]
  rw [hB, hD, hcast]
  intro hc
  exact absurd hc (by decide)

end SocialNetwork
